import Mathlib

/-!
# UnorderedMap: a shallow embedding of `unordered_map.h`

The container is an intrusive singly linked chain of heap nodes headed by a
sentinel (`fake_node`) plus a bucket array `arr` whose slot `h` is either null
or the chain position that precedes the first node of bucket `h`.

Modelling conventions.

* Memory is explicit: `Mem` holds the `next` field of every container's
  sentinel and the heap of nodes, addressed by natural numbers.  A pointer
  `BaseNode*` is `Option Ptr`, `none` being `nullptr`.
* Every function that can go wrong returns `Except Err _`: a C++ exception, an
  undefined behaviour (null or dangling dereference, `% 0`, an out-of-range
  float to integer conversion) or a loop that ran out of fuel.
* Loops take a `fuel` argument; running dry is the error `Err.diverge`.
* `size_t` counters (`sz`, `bucket_count`) are natural numbers.  `sz` counts
  live nodes at distinct addresses and `bucket_count` is the length of an array
  of pointers that lives in memory, so neither `++sz` nor `2 * bucket_count`
  can wrap in an execution; `--sz` wraps at zero, and the conversions from
  `float` are reduced modulo `2 ^ 64`.
* Allocation.  A node is allocated at the address the caller of the model names;
  the request fails when that address is not free.  The allocation of a bucket
  array of `count` slots by `fixed_rehash` throws when `count` exceeds
  `SIZE_MAX / sizeof(BaseNode*)` (`max_array_count`); shorter arrays are
  supplied, and so are the arrays of the copy operations, which have the length
  of an array that exists.
* `float` is IEEE-754 binary32 with round-to-nearest-even, modelled exactly by
  dyadic numbers (`F32`).
-/

set_option autoImplicit false

/-! ## binary32 arithmetic -/

/-- An IEEE-754 binary32 value as this program can observe it: the finite value
`m * 2 ^ e`, an infinity, or a NaN.  The sign of a zero is not recorded: the
program only divides by `max_load` and by `float(bucket_count)`, and a division
by either zero ends in an undefined conversion whatever the sign. -/
inductive F32
  | fin (m : Int) (e : Int)
  | pinf
  | ninf
  | nan
deriving DecidableEq

namespace F32

/-- Floor of the binary logarithm (`0` for `n < 2`); called with `fuel = n`. -/
def ilog2 : Nat → Nat → Nat
  | 0, _ => 0
  | fuel + 1, n => if n < 2 then 0 else ilog2 fuel (n / 2) + 1

/-- The binary32 nearest to the positive rational `n / d` (ties to even):
24 significant bits, least exponent `-126`, overflow to infinity. -/
def roundPos (n d : Nat) : F32 :=
  let e0 : Int := (ilog2 n n : Int) - (ilog2 d d : Int)
  let e : Int :=
    if (0 ≤ e0 ∧ d * 2 ^ e0.toNat ≤ n) ∨ (e0 < 0 ∧ d ≤ n * 2 ^ (-e0).toNat) then e0 else e0 - 1
  let u : Int := max e (-126) - 23
  let N : Nat := if 0 ≤ u then n else n * 2 ^ (-u).toNat
  let D : Nat := if 0 ≤ u then d * 2 ^ u.toNat else d
  let q0 := N / D
  let r := N % D
  let m := if 2 * r < D then q0 else if D < 2 * r then q0 + 1 else if q0 % 2 = 0 then q0 else q0 + 1
  if 0 ≤ u ∧ 2 ^ 128 ≤ m * 2 ^ u.toNat then pinf else fin m u

/-- Sign change. -/
def neg : F32 → F32
  | fin m e => fin (-m) e
  | pinf => ninf
  | ninf => pinf
  | nan => nan

/-- The conversion `static_cast<float>(n)` of a `size_t`. -/
def ofNat (n : Nat) : F32 := if n = 0 then fin 0 0 else roundPos n 1

/-- The binary32 division `a / b`. -/
def div : F32 → F32 → F32
  | nan, _ => nan
  | _, nan => nan
  | fin a ea, fin b eb =>
      if b = 0 then (if a = 0 then nan else if 0 < a then pinf else ninf)
      else if a = 0 then fin 0 0
      else
        let r := roundPos (a.natAbs * 2 ^ (ea - eb).toNat) (b.natAbs * 2 ^ (eb - ea).toNat)
        if (0 < a ∧ 0 < b) ∨ (a < 0 ∧ b < 0) then r else neg r
  | fin _ _, pinf => fin 0 0
  | fin _ _, ninf => fin 0 0
  | pinf, fin b _ => if 0 ≤ b then pinf else ninf
  | ninf, fin b _ => if 0 ≤ b then ninf else pinf
  | pinf, pinf => nan
  | pinf, ninf => nan
  | ninf, pinf => nan
  | ninf, ninf => nan

/-- The comparison `a > b` (false as soon as one side is a NaN). -/
def gt : F32 → F32 → Bool
  | nan, _ => false
  | _, nan => false
  | fin a ea, fin b eb => decide (b * 2 ^ (eb - ea).toNat < a * 2 ^ (ea - eb).toNat)
  | pinf, pinf => false
  | pinf, _ => true
  | ninf, _ => false
  | fin _ _, pinf => false
  | fin _ _, ninf => true

/-- The conversion `static_cast<size_t>(x)`: truncation toward zero, and no value
(undefined behaviour) when the truncated value is not a `size_t`. -/
def toSizeT : F32 → Option Nat
  | fin m e =>
      let t := if 0 ≤ e then m.natAbs * 2 ^ e.toNat else m.natAbs / 2 ^ (-e).toNat
      if 0 ≤ m then (if t < 2 ^ 64 then some t else none)
      else if t = 0 then some 0 else none
  | _ => none

end F32

/-! ## Memory -/

/-- How a call can fail. -/
inductive Err
  /-- the exception `std::out_of_range` of `at` -/
  | out_of_range
  /-- the exception of a failed allocation: of a node, or of a bucket array that is
  too long (`std::bad_array_new_length` is a `std::bad_alloc`) -/
  | bad_alloc
  /-- the exception of a throwing pair constructor or hash function -/
  | construct
  /-- undefined behaviour -/
  | undefined
  /-- a loop that did not finish within the fuel -/
  | diverge
deriving DecidableEq

/-- The failures a `catch (...)` block intercepts. -/
def Err.is_exception : Err → Bool
  | .out_of_range => true
  | .bad_alloc => true
  | .construct => true
  | .undefined => false
  | .diverge => false

/-- A non-null `BaseNode*`: the sentinel `fake_node` of the container object
`i`, or the heap node at address `a`. -/
inductive Ptr
  | fake (i : Nat)
  | node (a : Nat)
deriving DecidableEq

/-- The struct `Node`: the `next` link of `BaseNode`, the pair and the cached hash. -/
structure Node (K V : Type) where
  next : Option Ptr
  data : K × V
  hash : Nat

/-- The memory: the `next` field of each container's `fake_node` and the live heap nodes. -/
structure Mem (K V : Type) where
  fake_node : Nat → Option Ptr
  node : Nat → Option (Node K V)

/-- The template arguments `Hash` and `KeyEqual`. -/
structure Traits (K : Type) where
  hash_func : K → Nat
  cmp_equal : K → K → Bool

/-- The key equality is an equivalence relation and equal keys have equal hashes. -/
structure Traits.Lawful {K : Type} (H : Traits K) : Prop where
  refl : ∀ a, H.cmp_equal a a = true
  symm : ∀ a b, H.cmp_equal a b = true → H.cmp_equal b a = true
  trans : ∀ a b c, H.cmp_equal a b = true → H.cmp_equal b c = true → H.cmp_equal a c = true
  hash_eq : ∀ a b, H.cmp_equal a b = true → H.hash_func a = H.hash_func b

namespace Mem

variable {K V : Type}

/-- Read `p->next`. -/
def next (m : Mem K V) : Ptr → Except Err (Option Ptr)
  | .fake i => .ok (m.fake_node i)
  | .node a =>
      match m.node a with
      | some n => .ok n.next
      | none => .error .undefined

/-- Write `p->next = q`. -/
def set_next (m : Mem K V) (p : Ptr) (q : Option Ptr) : Except Err (Mem K V) :=
  match p with
  | .fake i => .ok { m with fake_node := fun j => if j = i then q else m.fake_node j }
  | .node a =>
      match m.node a with
      | some n => .ok { m with node := fun b => if b = a then some { n with next := q } else m.node b }
      | none => .error .undefined

end Mem

/-! ## ForwardList -/

namespace ForwardList

variable {K V : Type}

/-- The cached hash `static_cast<Node*>(it)->hash`. -/
def get_hash (m : Mem K V) : Ptr → Except Err Nat
  | .fake _ => .error .undefined
  | .node a =>
      match m.node a with
      | some n => .ok n.hash
      | none => .error .undefined

/-- The pair `static_cast<Node*>(it)->data`. -/
def get_data (m : Mem K V) : Ptr → Except Err (K × V)
  | .fake _ => .error .undefined
  | .node a =>
      match m.node a with
      | some n => .ok n.data
      | none => .error .undefined

/-- The key `static_cast<Node*>(it)->data.first`. -/
def get_key (m : Mem K V) (it : Ptr) : Except Err K := do
  let d ← get_data m it
  pure d.1

/-- Destroy the pair and release the node. -/
def delete_node (m : Mem K V) : Ptr → Except Err (Mem K V)
  | .fake _ => .error .undefined
  | .node a =>
      match m.node a with
      | some _ => .ok { m with node := fun b => if b = a then none else m.node b }
      | none => .error .undefined

/-- Allocate a node and construct the pair in it.  `a` is the address the
allocator hands out (it fails when `a` is not free); `args` is `none` when the
constructor of the pair throws.  The fields `next` and `hash` of the new node
are not initialised by the source; they are written before they are read. -/
def place_construct (m : Mem K V) (a : Nat) (args : Option (K × V)) : Except Err (Mem K V) :=
  match m.node a with
  | some _ => .error .bad_alloc
  | none =>
      match args with
      | none => .error .construct
      | some d => .ok { m with node := fun b => if b = a then some ⟨none, d, 0⟩ else m.node b }

/-- Build the node of an insertion and cache the hash of its key. -/
def emplace_new_node (H : Traits K) (m : Mem K V) (a : Nat) (args : Option (K × V)) :
    Except Err (Mem K V) := do
  let m1 ← place_construct m a args
  match m1.node a with
  | some n => pure { m1 with node := fun b => if b = a then some { n with hash := H.hash_func n.data.1 } else m1.node b }
  | none => .error .undefined

/-- Link `elem` right after `it`. -/
def insert_next (m : Mem K V) (it elem : Ptr) : Except Err (Mem K V) := do
  let n ← m.next it
  let m1 ← m.set_next elem n
  m1.set_next it (some elem)

end ForwardList

/-! ## UnorderedMap -/

/-- The data members of an `UnorderedMap` object, with the memory it lives in:
`self` identifies the object (and so its sentinel `fake_node`). -/
structure UnorderedMap (K V : Type) where
  mem : Mem K V
  self : Nat
  sz : Nat
  bucket_count : Nat
  arr : Nat → Option Ptr
  max_load : F32

namespace UnorderedMap

variable {K V : Type}

/-- The default constructor, building the object `self` in the memory `mem`:
no node, one empty bucket, `max_load = 1.0`. -/
def init (mem : Mem K V) (self : Nat) : UnorderedMap K V :=
  { mem := { mem with fake_node := fun j => if j = self then none else mem.fake_node j }
    self := self
    sz := 0
    bucket_count := 1
    arr := fun _ => none
    max_load := F32.fin 1 0 }

/-- The bucket of a node: `List::get_hash(it) % bucket_count`. -/
def get_hash (s : UnorderedMap K V) (it : Ptr) : Except Err Nat := do
  let h ← ForwardList.get_hash s.mem it
  if s.bucket_count = 0 then .error .undefined else pure (h % s.bucket_count)

/-- Write `arr[i] = p`. -/
def set_arr (s : UnorderedMap K V) (i : Nat) (p : Option Ptr) : UnorderedMap K V :=
  { s with arr := fun j => if j = i then p else s.arr j }

/-- The loop of `fixed_rehash`: `last` is the tail of the rebuilt chain and `it`
the next node to place. -/
def fixed_rehash_loop : Nat → UnorderedMap K V → Ptr → Option Ptr → Except Err (UnorderedMap K V × Ptr)
  | 0, _, _, _ => .error .diverge
  | _ + 1, s, last, none => .ok (s, last)
  | fuel + 1, s, last, some cur => do
      let it ← s.mem.next cur
      let ind ← s.get_hash cur
      match s.arr ind with
      | some slot => do
          let m1 ← ForwardList.insert_next s.mem slot cur
          fixed_rehash_loop fuel { s with mem := m1 } last it
      | none => do
          let s1 := s.set_arr ind (some last)
          let m1 ← s1.mem.set_next last (some cur)
          fixed_rehash_loop fuel { s1 with mem := m1 } cur it

/-- The longest array of node pointers that `allocate(node_ptr_alloc, count)` supplies:
`SIZE_MAX / sizeof(BaseNode*)` with a 64-bit `size_t` and 8-byte pointers.  A longer request
throws `std::bad_array_new_length`. -/
def max_array_count : Nat := (2 ^ 64 - 1) / 8

/-- Rebuild the bucket array with `count` slots, regrouping the chain.  The new array is
allocated first: when that throws, nothing has been changed. -/
def fixed_rehash (fuel : Nat) (s : UnorderedMap K V) (count : Nat) : Except Err (UnorderedMap K V) :=
  if count > max_array_count then .error .bad_alloc
  else do
    let s0 : UnorderedMap K V := { s with bucket_count := count, arr := fun _ => none }
    let first ← s0.mem.next (.fake s0.self)
    let (s1, last) ← fixed_rehash_loop fuel s0 (.fake s0.self) first
    let m1 ← s1.mem.set_next last none
    pure { s1 with mem := m1 }

/-- The member `size()`. -/
def size (s : UnorderedMap K V) : Nat := s.sz

/-- The member `load_factor()`. -/
def load_factor (s : UnorderedMap K V) : F32 :=
  F32.div (F32.ofNat s.sz) (F32.ofNat s.bucket_count)

/-- Double the bucket array when the load factor exceeds `max_load`. -/
def reallocate (fuel : Nat) (s : UnorderedMap K V) : Except Err (UnorderedMap K V) :=
  if F32.gt s.load_factor s.max_load then fixed_rehash fuel s (2 * s.bucket_count) else pure s

/-- The value `static_cast<size_t>(static_cast<float>(n) / max_load) + 1`. -/
def scaled_count (s : UnorderedMap K V) (n : Nat) : Except Err Nat :=
  match F32.toSizeT (F32.div (F32.ofNat n) s.max_load) with
  | some c => pure ((c + 1) % 2 ^ 64)
  | none => .error .undefined

/-- The setter `max_load_factor(ml)`.  `max_load` is assigned before the array is rebuilt. -/
def max_load_factor (fuel : Nat) (s : UnorderedMap K V) (ml : F32) : Except Err (UnorderedMap K V) := do
  let s1 : UnorderedMap K V := { s with max_load := ml }
  if F32.gt s1.load_factor s1.max_load then
    let count ← s1.scaled_count s1.sz
    fixed_rehash fuel s1 count
  else pure s1

/-- The member `rehash(count)`. -/
def rehash (fuel : Nat) (s : UnorderedMap K V) (count : Nat) : Except Err (UnorderedMap K V) := do
  let c ← s.scaled_count s.sz
  fixed_rehash fuel s (max count c)

/-- The member `reserve(count)`. -/
def reserve (fuel : Nat) (s : UnorderedMap K V) (count : Nat) : Except Err (UnorderedMap K V) := do
  let c ← s.scaled_count count
  if c > s.bucket_count then fixed_rehash fuel s c else pure s

/-- The iterator `begin()`; `end()` is the null iterator `none`. -/
def begin (s : UnorderedMap K V) : Option Ptr := s.mem.fake_node s.self

/-- The `while` loop of `find_node`; the result is the value of `it` at exit. -/
def find_node_loop (H : Traits K) (s : UnorderedMap K V) (key : K) (hash : Nat) :
    Nat → Option Ptr → Except Err (Option Ptr)
  | 0, _ => .error .diverge
  | _ + 1, none => .ok none
  | fuel + 1, some it => do
      let h ← s.get_hash it
      if h = hash then
        let d ← ForwardList.get_data s.mem it
        if H.cmp_equal d.1 key then pure (some it)
        else do
          let n ← s.mem.next it
          find_node_loop H s key hash fuel n
      else pure (some it)

/-- The search `find_node(key, hash)` of bucket `hash`. -/
def find_node (H : Traits K) (fuel : Nat) (s : UnorderedMap K V) (key : K) (hash : Nat) :
    Except Err (Option Ptr) :=
  match s.arr hash with
  | none => pure none
  | some slot => do
      let first ← s.mem.next slot
      let it ← find_node_loop H s key hash fuel first
      match it with
      | none => pure none
      | some p => do
          let h ← s.get_hash p
          if h = hash then pure (some p) else pure none

/-- The member `find(key)`: `find_node(key, hash_func(key) % bucket_count)`. -/
def find (H : Traits K) (fuel : Nat) (s : UnorderedMap K V) (key : K) : Except Err (Option Ptr) :=
  if s.bucket_count = 0 then .error .undefined
  else find_node H fuel s key (H.hash_func key % s.bucket_count)

/-- The member `emplace(args...)`; the result is the new state with the returned
pair `(iterator, bool)`.  An exception of the allocation or construction of the node
leaves the state as it was; the growth step `reallocate()` throws after the node has
been linked and counted (the state `emplace_link` returns). -/
def emplace (H : Traits K) (fuel : Nat) (s : UnorderedMap K V) (a : Nat) (args : Option (K × V)) :
    Except Err (UnorderedMap K V × Option Ptr × Bool) := do
  let m1 ← ForwardList.emplace_new_node H s.mem a args
  let s1 : UnorderedMap K V := { s with mem := m1 }
  let elem := Ptr.node a
  let hash ← s1.get_hash elem
  let key ← ForwardList.get_key s1.mem elem
  let it ← find_node H fuel s1 key hash
  match it with
  | some p => do
      let m2 ← ForwardList.delete_node s1.mem elem
      pure ({ s1 with mem := m2 }, some p, false)
  | none => do
      let s2 ←
        (match s1.arr hash with
         | some _ => pure s1
         | none => do
             let s1a ←
               (match s1.mem.fake_node s1.self with
                | some f => do
                    let hf ← s1.get_hash f
                    pure (s1.set_arr hf (some elem))
                | none => pure s1)
             pure (s1a.set_arr hash (some (.fake s1.self))))
      match s2.arr hash with
      | none => .error .undefined
      | some slot => do
          let m3 ← ForwardList.insert_next s2.mem slot elem
          let s3 : UnorderedMap K V := { s2 with mem := m3, sz := s2.sz + 1 }
          let s4 ← reallocate fuel s3
          pure (s4, some elem, true)

/-- The statements of `emplace(args...)` that precede `reallocate()`: the state with the
candidate node destroyed again (key present) or linked and counted (key absent), and
the pair `(iterator, bool)` that `emplace` is going to return. -/
def emplace_link (H : Traits K) (fuel : Nat) (s : UnorderedMap K V) (a : Nat) (args : Option (K × V)) :
    Except Err (UnorderedMap K V × Option Ptr × Bool) := do
  let m1 ← ForwardList.emplace_new_node H s.mem a args
  let s1 : UnorderedMap K V := { s with mem := m1 }
  let elem := Ptr.node a
  let hash ← s1.get_hash elem
  let key ← ForwardList.get_key s1.mem elem
  let it ← find_node H fuel s1 key hash
  match it with
  | some p => do
      let m2 ← ForwardList.delete_node s1.mem elem
      pure ({ s1 with mem := m2 }, some p, false)
  | none => do
      let s2 ←
        (match s1.arr hash with
         | some _ => pure s1
         | none => do
             let s1a ←
               (match s1.mem.fake_node s1.self with
                | some f => do
                    let hf ← s1.get_hash f
                    pure (s1.set_arr hf (some elem))
                | none => pure s1)
             pure (s1a.set_arr hash (some (.fake s1.self))))
      match s2.arr hash with
      | none => .error .undefined
      | some slot => do
          let m3 ← ForwardList.insert_next s2.mem slot elem
          pure ({ s2 with mem := m3, sz := s2.sz + 1 }, some elem, true)

/-- The state in which an exception leaves `emplace(args...)`: the state reached by
`emplace_link` when the exception comes from `reallocate()`, and the state before the
call when the node could not be built. -/
def emplace_unwind (H : Traits K) (fuel : Nat) (s : UnorderedMap K V) (a : Nat) (args : Option (K × V)) :
    UnorderedMap K V :=
  match emplace_link H fuel s a args with
  | .ok r => r.1
  | .error _ => s

/-- The member `insert(value)`: `emplace` of the pair. -/
def insert (H : Traits K) (fuel : Nat) (s : UnorderedMap K V) (a : Nat) (value : Option (K × V)) :
    Except Err (UnorderedMap K V × Option Ptr × Bool) :=
  emplace H fuel s a value

/-- The `while` loop of `erase`, looking for the predecessor of `target`. -/
def erase_loop (m : Mem K V) (target : Ptr) : Nat → Option Ptr → Except Err Ptr
  | 0, _ => .error .diverge
  | _ + 1, none => .error .undefined
  | fuel + 1, some it => do
      let n ← m.next it
      if n = some target then pure it else erase_loop m target fuel n

/-- The member `erase(pos)`; the result is the new state and the returned iterator.
The decrement `--sz` of a `size_t` wraps at zero. -/
def erase (fuel : Nat) (s : UnorderedMap K V) (pos : Option Ptr) :
    Except Err (UnorderedMap K V × Option Ptr) :=
  match pos with
  | none => .error .undefined
  | some item => do
      let hash ← s.get_hash item
      let it ← erase_loop s.mem item fuel (s.arr hash)
      let next_elem ← s.mem.next item
      let m1 ← s.mem.set_next it next_elem
      let s1 : UnorderedMap K V := { s with mem := m1 }
      let s2 ←
        (match next_elem with
         | some ne => do
             let hn ← s1.get_hash ne
             if hn ≠ hash then pure (s1.set_arr hn (some it)) else pure s1
         | none => pure s1)
      match s2.arr hash with
      | none => .error .undefined
      | some slot => do
          let first ← s2.mem.next slot
          let s3 ←
            (match first with
             | none => pure (s2.set_arr hash none)
             | some f => do
                 let hf ← s2.get_hash f
                 if hf ≠ hash then pure (s2.set_arr hash none) else pure s2)
          let m4 ← ForwardList.delete_node s3.mem item
          pure ({ s3 with mem := m4, sz := if s3.sz = 0 then 2 ^ 64 - 1 else s3.sz - 1 }, next_elem)

/-- The member `operator[](key)`: the state after `emplace(key, Value())` and the
value the returned reference designates. -/
def index [Inhabited V] (H : Traits K) (fuel : Nat) (s : UnorderedMap K V) (a : Nat) (key : K) :
    Except Err (UnorderedMap K V × V) := do
  let (s1, it, _) ← emplace H fuel s a (some (key, default))
  match it with
  | none => .error .undefined
  | some p => do
      let d ← ForwardList.get_data s1.mem p
      pure (s1, d.2)

/-- The member `at(key)`. -/
def «at» (H : Traits K) (fuel : Nat) (s : UnorderedMap K V) (key : K) : Except Err V := do
  let it ← find H fuel s key
  match it with
  | some p => do
      let d ← ForwardList.get_data s.mem p
      pure d.2
  | none => .error .out_of_range

/-- The `try` block of `insert(first, last)`: an element is a key with the value
to copy (`none` when building the node from it throws) and comes with the
address the allocator hands out for it.  The result is the state reached and,
when an insertion threw, the exception with the number of elements passed. -/
def insert_range_try (H : Traits K) (fuel : Nat) :
    UnorderedMap K V → List (Nat × K × Option V) → Nat → Except Err (UnorderedMap K V × Option (Err × Nat))
  | s, [], _ => .ok (s, none)
  | s, (a, k, v) :: rest, i =>
      match insert H fuel s a (v.map fun x => (k, x)) with
      | .ok (s1, _) => insert_range_try H fuel s1 rest (i + 1)
      | .error e =>
          if e.is_exception then
            .ok (emplace_unwind H fuel s a (v.map fun x => (k, x)), some (e, i))
          else .error e

/-- The `catch` block of `insert(first, last)`: erase what `find` returns for
each key of the elements passed. -/
def insert_range_rollback (H : Traits K) (fuel : Nat) :
    UnorderedMap K V → List (Nat × K × Option V) → Except Err (UnorderedMap K V)
  | s, [] => .ok s
  | s, (_, k, _) :: rest => do
      let iter ← find H fuel s k
      match iter with
      | some p => do
          let (s1, _) ← erase fuel s (some p)
          insert_range_rollback H fuel s1 rest
      | none => insert_range_rollback H fuel s rest

/-- The member `insert(first, last)`: the state when the call is left and the
exception that leaves it, if any. -/
def insert_range (H : Traits K) (fuel : Nat) (s : UnorderedMap K V) (items : List (Nat × K × Option V)) :
    Except Err (UnorderedMap K V × Option Err) := do
  let (s1, thrown) ← insert_range_try H fuel s items 0
  match thrown with
  | none => pure (s1, none)
  | some (e, i) => do
      let s2 ← insert_range_rollback H fuel s1 (items.take i)
      pure (s2, some e)

/-- The loop `for (it = p; it != end(); ++it)` collecting `*it`. -/
def traverse_from (m : Mem K V) : Nat → Option Ptr → Except Err (List (Ptr × K × V))
  | 0, _ => .error .diverge
  | _ + 1, none => .ok []
  | fuel + 1, some p => do
      let d ← ForwardList.get_data m p
      let n ← m.next p
      let rest ← traverse_from m fuel n
      pure ((p, d.1, d.2) :: rest)

/-- The traversal from `begin()` to `end()`: the positions visited with their pairs. -/
def traversal (fuel : Nat) (s : UnorderedMap K V) : Except Err (List (Ptr × K × V)) :=
  traverse_from s.mem fuel s.begin

end UnorderedMap

/-! ## The abstract chain and the representation invariant -/

/-- An entry of the chain as the proofs see it: the address of its node, its key and its value. -/
structure Entry (K V : Type) where
  addr : Nat
  key : K
  val : V

namespace Entry

variable {K V : Type}

/-- The position (iterator) of an entry. -/
def ptr (e : Entry K V) : Ptr := .node e.addr

/-- What a traversal yields at an entry. -/
def view (e : Entry K V) : Ptr × K × V := (e.ptr, e.key, e.val)

end Entry

namespace UnorderedMap

variable {K V : Type}

/-- The pointer to the head of `l`, or `q` when `l` is empty. -/
def nextOf (l : List (Entry K V)) (q : Option Ptr) : Option Ptr :=
  match l with
  | [] => q
  | e :: _ => some e.ptr

/-- The position of the last entry of `l`, or `p` when `l` is empty. -/
def lastPtr : Ptr → List (Entry K V) → Ptr
  | p, [] => p
  | _, e :: l => lastPtr e.ptr l

/-- Equal bucket numbers are adjacent. -/
def Grouped : List Nat → Prop
  | [] => True
  | b :: bs => (b ∈ bs → bs.head? = some b) ∧ Grouped bs

/-- The position preceding the first entry of bucket `h` in `l`, where `p`
precedes `l`; `none` when `l` has no entry of bucket `h`. -/
def slotOf (f : Entry K V → Nat) : Ptr → List (Entry K V) → Nat → Option Ptr
  | _, [], _ => none
  | p, e :: l, h => if f e = h then some p else slotOf f e.ptr l h

/-- The bucket of an entry for `n` buckets. -/
def bkt (H : Traits K) (n : Nat) (e : Entry K V) : Nat := H.hash_func e.key % n

/-- The nodes of `l` are live, hold their pairs and cached hashes, and each is
linked to the next one, the last to `q`. -/
def Nodes (H : Traits K) (m : Mem K V) : List (Entry K V) → Option Ptr → Prop
  | [], _ => True
  | e :: l, q => m.node e.addr = some ⟨nextOf l q, (e.key, e.val), H.hash_func e.key⟩ ∧ Nodes H m l q

/-- The chain segment `l` hangs off `p` and ends in `q`. -/
def Seg (H : Traits K) (m : Mem K V) (p : Ptr) (l : List (Entry K V)) (q : Option Ptr) : Prop :=
  m.next p = .ok (nextOf l q) ∧ Nodes H m l q

/-- The memories agree outside the positions `ps`. -/
def Frame (m m' : Mem K V) (ps : List Ptr) : Prop :=
  (∀ b, Ptr.node b ∉ ps → m'.node b = m.node b) ∧ (∀ i, Ptr.fake i ∉ ps → m'.fake_node i = m.fake_node i)

/-- The chain of `s` is `l`: linked from the sentinel, null-terminated, at distinct addresses. -/
structure Chain (H : Traits K) (s : UnorderedMap K V) (l : List (Entry K V)) : Prop where
  seg : Seg H s.mem (.fake s.self) l none
  nodup : (l.map Entry.addr).Nodup

/-- The representation invariant of the container, for the chain `l`. -/
structure Inv (H : Traits K) (s : UnorderedMap K V) (l : List (Entry K V)) : Prop where
  chain : Chain H s l
  size : s.sz = l.length
  bc_pos : 0 < s.bucket_count
  keys : l.Pairwise (fun x y => H.cmp_equal x.key y.key = false)
  grouped : Grouped (l.map (bkt H s.bucket_count))
  slots : ∀ h, s.arr h = slotOf (bkt H s.bucket_count) (.fake s.self) l h

end UnorderedMap

namespace UnorderedMap

variable {K V : Type}

/-- Linear search of the chain for the first entry whose key equals `key`. -/
def chainFind (H : Traits K) (key : K) (l : List (Entry K V)) : Option (Entry K V) :=
  l.find? (fun e => H.cmp_equal e.key key)

/-- Search of the run of bucket `h` at the head of `r`. -/
def runSearch (H : Traits K) (n : Nat) (key : K) (h : Nat) : List (Entry K V) → Option (Entry K V)
  | [] => none
  | e :: r =>
      if bkt H n e = h then (if H.cmp_equal e.key key then some e else runSearch H n key h r)
      else none

end UnorderedMap

namespace UnorderedMap

variable {K V : Type}

/-- A position of the chain of `s`: one that a traversal from `begin()` visits. -/
def IsPos (s : UnorderedMap K V) (p : Ptr) : Prop :=
  ∃ fuel t, traversal fuel s = .ok t ∧ p ∈ t.map (fun x => x.1)

/-- The maps a program can build from a default-constructed one with `emplace`,
`insert`, `operator[]`, `erase` at a position of the map, `rehash`, `reserve`
and `max_load_factor`, each call returning normally. -/
inductive Reachable (H : Traits K) : UnorderedMap K V → Prop
  | init (mem : Mem K V) (self : Nat) : Reachable H (init mem self)
  | emplace {s : UnorderedMap K V} {fuel a : Nat} {args : Option (K × V)}
      {r : UnorderedMap K V × Option Ptr × Bool} :
      Reachable H s → emplace H fuel s a args = .ok r → Reachable H r.1
  | insert {s : UnorderedMap K V} {fuel a : Nat} {value : Option (K × V)}
      {r : UnorderedMap K V × Option Ptr × Bool} :
      Reachable H s → insert H fuel s a value = .ok r → Reachable H r.1
  | index {s : UnorderedMap K V} (inst : Inhabited V) {fuel a : Nat} {key : K}
      {r : UnorderedMap K V × V} :
      Reachable H s → index H fuel s a key = .ok r → Reachable H r.1
  | erase {s : UnorderedMap K V} {fuel : Nat} {p : Ptr} {r : UnorderedMap K V × Option Ptr} :
      Reachable H s → IsPos s p → erase fuel s (some p) = .ok r → Reachable H r.1
  | rehash {s s' : UnorderedMap K V} {fuel count : Nat} :
      Reachable H s → rehash fuel s count = .ok s' → Reachable H s'
  | reserve {s s' : UnorderedMap K V} {fuel count : Nat} :
      Reachable H s → reserve fuel s count = .ok s' → Reachable H s'
  | max_load_factor {s s' : UnorderedMap K V} {fuel : Nat} {ml : F32} :
      Reachable H s → max_load_factor fuel s ml = .ok s' → Reachable H s'

end UnorderedMap

/-! ## Concrete maps -/

namespace UnorderedMap

/-- Natural-number keys hashed by the identity and compared by equality. -/
def natTraits : Traits Nat := ⟨fun k => k, fun a b => a == b⟩

/-- A memory without any node. -/
def emptyMem : Mem Nat Nat := ⟨fun _ => none, fun _ => none⟩

/-- A default-constructed map. -/
def map0 : UnorderedMap Nat Nat := init emptyMem 0

/-- The map `map0` after `emplace(1, 10)` allocated at address 1. -/
def map1 : UnorderedMap Nat Nat :=
  match emplace natTraits 8 map0 1 (some (1, 10)) with
  | .ok r => r.1
  | .error _ => map0

/-- The map `map1` after `emplace(2, 20)` allocated at address 2. -/
def map2 : UnorderedMap Nat Nat :=
  match emplace natTraits 8 map1 2 (some (2, 20)) with
  | .ok r => r.1
  | .error _ => map1

end UnorderedMap

/-! ## Scripts of calls -/

/-- A mutating call of a script: an insertion comes with the address the
allocator hands out for its node; `erase k` stands for `erase(find(k))`, made
when `find(k)` is not `end()`. -/
inductive Call (K V : Type)
  | emplace (a : Nat) (k : K) (v : V)
  | insert (a : Nat) (k : K) (v : V)
  | index (a : Nat) (k : K)
  | erase (k : K)

namespace Call

variable {K V : Type}

/-- The address an inserting call allocates at. -/
def addr? : Call K V → Option Nat
  | emplace a _ _ => some a
  | insert a _ _ => some a
  | index a _ => some a
  | erase _ => none

end Call

namespace UnorderedMap

variable {K V : Type}

/-- Run one call of a script. -/
def run_call [Inhabited V] (H : Traits K) (fuel : Nat) (s : UnorderedMap K V) :
    Call K V → Except Err (UnorderedMap K V)
  | .emplace a k v => do
      let r ← emplace H fuel s a (some (k, v))
      pure r.1
  | .insert a k v => do
      let r ← insert H fuel s a (some (k, v))
      pure r.1
  | .index a k => do
      let r ← index H fuel s a k
      pure r.1
  | .erase k => do
      let it ← find H fuel s k
      match it with
      | some p => do
          let r ← erase fuel s (some p)
          pure r.1
      | none => pure s

/-- Run the calls of a script in order. -/
def run_calls [Inhabited V] (H : Traits K) (fuel : Nat) :
    UnorderedMap K V → List (Call K V) → Except Err (UnorderedMap K V)
  | s, [] => pure s
  | s, c :: cs => do
      let s1 ← run_call H fuel s c
      run_calls H fuel s1 cs

/-- No allocation fails while the script runs: no call ends in `bad_alloc`, which is
what a node request at an address that is not free and a request for a bucket array that
is too long throw. -/
def alloc_ok [Inhabited V] (H : Traits K) (fuel : Nat) :
    UnorderedMap K V → List (Call K V) → Bool
  | _, [] => true
  | s, c :: cs =>
      match run_call H fuel s c with
      | .ok s1 => alloc_ok H fuel s1 cs
      | .error e => decide (e ≠ Err.bad_alloc)

/-- The distinct keys inserted and not erased, after one more call. -/
def keys_step (H : Traits K) (ks : List K) : Call K V → List K
  | .emplace _ k _ => if ks.any (fun x => H.cmp_equal x k) then ks else k :: ks
  | .insert _ k _ => if ks.any (fun x => H.cmp_equal x k) then ks else k :: ks
  | .index _ k => if ks.any (fun x => H.cmp_equal x k) then ks else k :: ks
  | .erase k => ks.filter (fun x => !H.cmp_equal x k)

/-- The distinct keys inserted and not erased by a script, starting from `ks`. -/
def keys_after (H : Traits K) : List K → List (Call K V) → List K
  | ks, [] => ks
  | ks, c :: cs => keys_after H (keys_step H ks c) cs

end UnorderedMap

namespace UnorderedMap

variable {K V : Type}

/-- Emplacing the pairs of a sequence one by one, in order: what the bulk
`insert(first, last)` is compared with.  Each pair comes with the address the
allocator hands out for it. -/
def emplace_each (H : Traits K) (fuel : Nat) :
    UnorderedMap K V → List (Nat × K × V) → Except Err (UnorderedMap K V)
  | s, [] => pure s
  | s, (a, k, v) :: rest => do
      let r ← emplace H fuel s a (some (k, v))
      emplace_each H fuel r.1 rest

/-- No allocation fails while the pairs are emplaced one by one: no call ends in
`bad_alloc`, which is what a node request at an address that is not free and a request for
a bucket array that is too long throw. -/
def alloc_ok_each (H : Traits K) (fuel : Nat) :
    UnorderedMap K V → List (Nat × K × V) → Bool
  | _, [] => true
  | s, (a, k, v) :: rest =>
      match emplace H fuel s a (some (k, v)) with
      | .ok r => alloc_ok_each H fuel r.1 rest
      | .error e => decide (e ≠ Err.bad_alloc)

/-- The distinct keys of the sequence `ks` that are not among `present`, in order
of first occurrence. -/
def new_keys (H : Traits K) : List K → List K → List K
  | _, [] => []
  | present, k :: ks =>
      if present.any (fun x => H.cmp_equal x k) then new_keys H present ks
      else k :: new_keys H (k :: present) ks

/-- The input range of a bulk insert whose elements can all be copied. -/
def copyable (items : List (Nat × K × V)) : List (Nat × K × Option V) :=
  items.map (fun x => (x.1, x.2.1, some x.2.2))

/-- A range of 100 pairs `(i, i)`, except that pair 50 repeats the key of pair 0.  Pair `i`
is allocated at address `i + 1` up to pair 50, whose node is freed again because its key is
present; pair 51 is handed that address, and pair `i` the address `i` from there on. -/
def pairs100 : List (Nat × Nat × Nat) :=
  (List.range 100).map (fun i => ((if i ≤ 50 then i + 1 else i), (if i = 50 then 0 else i), i))

/-- The script used as an example: six calls on four keys.  The candidate node of the third
call (address 3) is freed because the key 5 is present, and the fourth call frees the node at
address 2; the last two calls are handed these addresses again. -/
def script6 : List (Call Nat Nat) :=
  [.emplace 1 5 50, .insert 2 6 60, .index 3 5, .erase 6, .emplace 3 7 70, .index 2 8]

end UnorderedMap

/-! ## Copy, move, swap and comparison

These members involve two container objects.  Both live in one memory: the
memory of the object the member is called on (or, for a constructor, of the
object it is built from); of the other object only the data members are read. -/

namespace Mem

variable {K V : Type}

/-- Write `static_cast<Node*>(p)->hash = h`. -/
def set_hash (m : Mem K V) (p : Ptr) (h : Nat) : Except Err (Mem K V) :=
  match p with
  | .fake _ => .error .undefined
  | .node a =>
      match m.node a with
      | some n => .ok { m with node := fun b => if b = a then some { n with hash := h } else m.node b }
      | none => .error .undefined

/-- Write `fake_node.next = q` in the container object `i`. -/
def set_fake (m : Mem K V) (i : Nat) (q : Option Ptr) : Mem K V :=
  { m with fake_node := fun j => if j = i then q else m.fake_node j }

end Mem

namespace ForwardList

variable {K V : Type}

/-- The helper `copy_node(copy, next)`: a new node at address `a` with the pair
and the cached hash of `copy`; `ctor_ok` is false when copying the pair throws. -/
def copy_node (m : Mem K V) (a : Nat) (ctor_ok : Bool) (copy : Ptr) (next : Option Ptr) :
    Except Err (Mem K V) := do
  let d ← get_data m copy
  let m1 ← place_construct m a (if ctor_ok then some d else none)
  let m2 ← m1.set_next (.node a) next
  let h ← get_hash m2 copy
  m2.set_hash (.node a) h

/-- The loop of `destroy()`. -/
def destroy_loop : Nat → Mem K V → Option Ptr → Except Err (Mem K V)
  | 0, _, _ => .error .diverge
  | _ + 1, m, none => .ok m
  | fuel + 1, m, some tmp => do
      let it ← m.next tmp
      let m1 ← delete_node m tmp
      destroy_loop fuel m1 it

/-- The member `destroy()` of the object `i`: delete every node of its chain. -/
def destroy (fuel : Nat) (m : Mem K V) (i : Nat) : Except Err (Mem K V) :=
  destroy_loop fuel m (m.fake_node i)

/-- The copying steps `last->next = copy_node(it); last = last->next; it = it->next`
of the copy constructor, repeated while `it` is not null.  `alloc k` is the
address the allocator hands out for the `k`-th node and whether the pair can
be copied into it.  The result is the memory reached and the exception thrown,
if any. -/
def copy_loop (alloc : Nat → Nat × Bool) :
    Nat → Mem K V → Ptr → Option Ptr → Nat → Except Err (Mem K V × Option Err)
  | 0, _, _, _, _ => .error .diverge
  | _ + 1, m, _, none, _ => .ok (m, none)
  | fuel + 1, m, last, some it, k =>
      match copy_node m (alloc k).1 (alloc k).2 it none with
      | .error e => if e.is_exception then .ok (m, some e) else .error e
      | .ok m1 => do
          let m2 ← m1.set_next last (some (.node (alloc k).1))
          let n ← m2.next it
          copy_loop alloc fuel m2 (.node (alloc k).1) n (k + 1)

/-- The constructor `ForwardList(const ForwardList& copy, const Allocator&)` of
the object `self` from the object `other` whose `sz` is `other_sz`: the memory
and the `sz` of the new object.  The first node is copied without a null test;
an exception destroys the nodes copied so far and propagates. -/
def copy_construct (fuel : Nat) (alloc : Nat → Nat × Bool) (m : Mem K V) (self other other_sz : Nat) :
    Except Err (Mem K V × Nat) :=
  let m0 := m.set_fake self none
  if other_sz = 0 then .ok (m0, other_sz)
  else
    match m0.fake_node other with
    | none => .error .undefined
    | some it => do
        let (m1, thrown) ← copy_loop alloc fuel m0 (.fake self) (some it) 0
        match thrown with
        | none => pure (m1, other_sz)
        | some e => do
            let _ ← destroy fuel m1 self
            .error e

/-- The helper `moveList(copy)`: the memory, the `sz` of this object and the `sz`
of `copy` afterwards. -/
def moveList (fuel : Nat) (m : Mem K V) (self other other_sz : Nat) :
    Except Err (Mem K V × Nat × Nat) := do
  let m1 ← destroy fuel m self
  let m2 := m1.set_fake self (m1.fake_node other)
  let m3 := m2.set_fake other none
  pure (m3, other_sz, 0)

/-- The constructor `ForwardList(ForwardList&& copy)`: an empty list, then `moveList`. -/
def move_construct (fuel : Nat) (m : Mem K V) (self other other_sz : Nat) :
    Except Err (Mem K V × Nat × Nat) :=
  moveList fuel (m.set_fake self none) self other other_sz

/-- The operator `ForwardList::operator=(const ForwardList& copy)`: the local
copy `res` is the object `tmp`; its chain is handed to this object and `res`
is destroyed.  The member `sz` is not assigned. -/
def copy_assign (fuel : Nat) (alloc : Nat → Nat × Bool) (m : Mem K V) (self other other_sz tmp : Nat) :
    Except Err (Mem K V) := do
  let (m1, _) ← copy_construct fuel alloc m tmp other other_sz
  let m2 := m1.set_fake self (m1.fake_node tmp)
  let m3 := m2.set_fake tmp none
  destroy fuel m3 tmp

/-- The operator `ForwardList::operator=(ForwardList&& copy)`: nothing happens when
both are one object, else `moveList`. -/
def move_assign (fuel : Nat) (m : Mem K V) (self other other_sz : Nat) :
    Except Err (Mem K V × Nat × Nat) :=
  if self = other then pure (m, other_sz, other_sz)
  else moveList fuel m self other other_sz

end ForwardList

namespace UnorderedMap

variable {K V : Type}

/-- The constructor `UnorderedMap(const UnorderedMap& copy)` of the object `self`
in the memory of `copy`: the list is copied, `bucket_count` and `max_load` are
taken over and a new array of `bucket_count` slots is filled with null. -/
def copy_construct (fuel : Nat) (alloc : Nat → Nat × Bool) (copy : UnorderedMap K V) (self : Nat) :
    Except Err (UnorderedMap K V) := do
  let (m, sz) ← ForwardList.copy_construct fuel alloc copy.mem self copy.self copy.sz
  pure { mem := m, self := self, sz := sz, bucket_count := copy.bucket_count,
         arr := fun _ => none, max_load := copy.max_load }

/-- The constructor `UnorderedMap(UnorderedMap&& copy)` of the object `self` in
the memory of `copy`: the new object and `copy` afterwards.  The null array
pointer left in `copy` is the all-null array; with `bucket_count = 0` no slot
of it can be read. -/
def move_construct (fuel : Nat) (copy : UnorderedMap K V) (self : Nat) :
    Except Err (UnorderedMap K V × UnorderedMap K V) := do
  let (m, sz, csz) ← ForwardList.move_construct fuel copy.mem self copy.self copy.sz
  pure ({ mem := m, self := self, sz := sz, bucket_count := copy.bucket_count,
          arr := copy.arr, max_load := copy.max_load },
        { copy with mem := m, sz := csz, arr := fun _ => none, bucket_count := 0 })

/-- The operator `operator=(const UnorderedMap& copy)` on the object `s`: `tmp` is
the local list object of `ForwardList::operator=`; the new array receives the
slots of `copy`. -/
def copy_assign (fuel : Nat) (alloc : Nat → Nat × Bool) (tmp : Nat) (s copy : UnorderedMap K V) :
    Except Err (UnorderedMap K V) :=
  if copy.self = s.self then pure s
  else do
    let m ← ForwardList.copy_assign fuel alloc s.mem s.self copy.self copy.sz tmp
    pure { s with mem := m, bucket_count := copy.bucket_count,
                  arr := fun h => if h < copy.bucket_count then copy.arr h else none,
                  max_load := copy.max_load }

/-- The operator `operator=(UnorderedMap&& copy)` on the object `s`: this object and
`copy` afterwards. -/
def move_assign (fuel : Nat) (s copy : UnorderedMap K V) :
    Except Err (UnorderedMap K V × UnorderedMap K V) :=
  if copy.self = s.self then pure (s, s)
  else do
    let (m, sz, csz) ← ForwardList.move_assign fuel s.mem s.self copy.self copy.sz
    pure ({ s with mem := m, sz := sz, bucket_count := copy.bucket_count, arr := copy.arr,
                   max_load := copy.max_load },
          { copy with mem := m, sz := csz, arr := fun _ => none, bucket_count := 0 })

/-- The member `swap(other)` on the object `s`: this object and `other` afterwards. -/
def swap (s other : UnorderedMap K V) : UnorderedMap K V × UnorderedMap K V :=
  let m := (s.mem.set_fake s.self (s.mem.fake_node other.self)).set_fake other.self
    (s.mem.fake_node s.self)
  ({ s with mem := m, sz := other.sz, bucket_count := other.bucket_count, arr := other.arr,
            max_load := other.max_load },
   { other with mem := m, sz := s.sz, bucket_count := s.bucket_count, arr := s.arr,
                max_load := s.max_load })

/-- The member `find(key) const`: its body calls `find(key)` on the const object,
which is this member again; `fuel` bounds the depth of the recursion. -/
def find_const (H : Traits K) : Nat → UnorderedMap K V → K → Except Err (Option Ptr)
  | 0, _, _ => .error .diverge
  | fuel + 1, s, key => find_const H fuel s key

/-- The loop of `operator==` over the entries of `s`. -/
def operator_eq_loop (H : Traits K) (conv : K × V → K) (fuel : Nat) (s other : UnorderedMap K V) :
    Nat → Option Ptr → Except Err Bool
  | 0, _ => .error .diverge
  | _ + 1, none => .ok true
  | n + 1, some it => do
      let d ← ForwardList.get_data s.mem it
      let r ← find_const H fuel other (conv d)
      if r = none then pure false
      else do
        let nx ← s.mem.next it
        operator_eq_loop H conv fuel s other n nx

/-- The operator `operator==(other)` on the object `s`.  The call `other.find(*it)`
passes the pair where a key is expected: `conv` is the conversion from the pair
to `Key` that the call needs. -/
def operator_eq (H : Traits K) (conv : K × V → K) (fuel : Nat) (s other : UnorderedMap K V) :
    Except Err Bool :=
  if s.sz ≠ other.sz then pure false
  else operator_eq_loop H conv fuel s other fuel s.begin

end UnorderedMap

/-! ## Concrete pairs of maps -/

namespace UnorderedMap

/-- An allocator handing out the addresses `base`, `base + 1`, ... for nodes whose
pairs can all be copied. -/
def fresh (base : Nat) : Nat → Nat × Bool := fun k => (base + k, true)

/-- A second map, default-constructed as object 1 in the memory of `map1`. -/
def other0 : UnorderedMap Nat Nat := init map1.mem 1

/-- A second map, default-constructed as object 1 in the memory of `map2`. -/
def other2 : UnorderedMap Nat Nat := init map2.mem 1

/-- The map `other0` after `emplace(1, 10)` allocated at address 2: the keys of `map1`
in another object. -/
def other1 : UnorderedMap Nat Nat :=
  match emplace natTraits 8 other0 2 (some (1, 10)) with
  | .ok r => r.1
  | .error _ => other0

end UnorderedMap

/-! ## The stages of `F32.roundPos`, named for the proofs -/

namespace F32

/-- The binary exponent that `roundPos n d` chooses for `n / d`. -/
def expo (n d : Nat) : Int :=
  let e0 : Int := (ilog2 n n : Int) - (ilog2 d d : Int)
  if (0 ≤ e0 ∧ d * 2 ^ e0.toNat ≤ n) ∨ (e0 < 0 ∧ d ≤ n * 2 ^ (-e0).toNat) then e0 else e0 - 1

/-- The exponent of the last mantissa bit for a number of binary exponent `e`. -/
def ulpExp (e : Int) : Int := max e (-126) - 23

/-- The numerator of `n / d / 2 ^ u`. -/
def scaledNum (n : Nat) (u : Int) : Nat := if 0 ≤ u then n else n * 2 ^ (-u).toNat

/-- The denominator of `n / d / 2 ^ u`. -/
def scaledDen (d : Nat) (u : Int) : Nat := if 0 ≤ u then d * 2 ^ u.toNat else d

/-- The integer nearest to `N / D`, ties to even. -/
def roundHalfEven (N D : Nat) : Nat :=
  let q0 := N / D
  let r := N % D
  if 2 * r < D then q0 else if D < 2 * r then q0 + 1 else if q0 % 2 = 0 then q0 else q0 + 1

/-- The rounding of `n / d` to 24 bits that `roundPos n d` makes once the exponent `e` is chosen. -/
def roundAt (n d : Nat) (e : Int) : F32 :=
  let m := roundHalfEven (scaledNum n (ulpExp e)) (scaledDen d (ulpExp e))
  if 0 ≤ ulpExp e ∧ 2 ^ 128 ≤ m * 2 ^ (ulpExp e).toNat then pinf else fin m (ulpExp e)

/-- The exact value of a finite binary32 number, as a rational. -/
def toRat : F32 → ℚ
  | fin m e => m * 2 ^ e
  | _ => 0

end F32

/-! ## The chain a copy builds -/

namespace UnorderedMap

variable {K V : Type}

/-- The entries of the chain built by copying the chain `l`: the pair of entry `i` of `l`, at
the address the allocator hands out for node `k + i`. -/
def copies (alloc : Nat → Nat × Bool) : Nat → List (Entry K V) → List (Entry K V)
  | _, [] => []
  | k, e :: l => ⟨(alloc k).1, e.key, e.val⟩ :: copies alloc (k + 1) l

end UnorderedMap

/-! ## The const overload of `at` -/

namespace UnorderedMap

variable {K V : Type}

/-- The member `at(key) const`: in a const member `find(key)` is the const overload. -/
def at_const (H : Traits K) (fuel : Nat) (s : UnorderedMap K V) (key : K) : Except Err V := do
  let it ← find_const H fuel s key
  match it with
  | some p => do
      let d ← ForwardList.get_data s.mem p
      pure d.2
  | none => .error .out_of_range

end UnorderedMap

/-! ## Concrete maps for the growth rule -/

namespace UnorderedMap

end UnorderedMap

/-! ## Lists: last position, slots and grouping -/

namespace UnorderedMap

variable {K V : Type}

theorem lastPtr_append (p : Ptr) (l1 l2 : List (Entry K V)) :
    lastPtr p (l1 ++ l2) = lastPtr (lastPtr p l1) l2 := by
  induction l1 generalizing p with
  | nil => rfl
  | cons e l ih => simp [lastPtr, ih]

theorem lastPtr_mem (p : Ptr) (l : List (Entry K V)) : lastPtr p l ∈ p :: l.map Entry.ptr := by
  induction l generalizing p with
  | nil => simp [lastPtr]
  | cons e l ih =>
    have := ih e.ptr
    simp only [lastPtr, List.map_cons, List.mem_cons] at this ⊢
    tauto

theorem lastPtr_cons_mem (p : Ptr) (e : Entry K V) (l : List (Entry K V)) :
    lastPtr p (e :: l) ∈ (e :: l).map Entry.ptr := by
  simpa [lastPtr] using lastPtr_mem e.ptr l

theorem nextOf_append (l1 l2 : List (Entry K V)) (q : Option Ptr) :
    nextOf (l1 ++ l2) q = nextOf l1 (nextOf l2 q) := by
  cases l1 <;> rfl

theorem slotOf_eq_none_iff (f : Entry K V → Nat) (p : Ptr) (l : List (Entry K V)) (h : Nat) :
    slotOf f p l h = none ↔ ∀ e ∈ l, f e ≠ h := by
  induction l generalizing p with
  | nil => simp [slotOf]
  | cons e l ih =>
    by_cases he : f e = h
    · simp [slotOf, he]
    · simp [slotOf, he, ih]

theorem slotOf_append_of_not_mem (f : Entry K V → Nat) (p : Ptr) (l1 l2 : List (Entry K V)) (h : Nat)
    (h1 : ∀ e ∈ l1, f e ≠ h) : slotOf f p (l1 ++ l2) h = slotOf f (lastPtr p l1) l2 h := by
  induction l1 generalizing p with
  | nil => rfl
  | cons e l ih =>
    have he : f e ≠ h := h1 e (List.mem_cons_self _ _)
    simp only [List.cons_append, slotOf, he, if_false, lastPtr]
    exact ih _ (fun x hx => h1 x (List.mem_cons_of_mem _ hx))

theorem slotOf_append_of_mem (f : Entry K V → Nat) (p : Ptr) (l1 l2 : List (Entry K V)) (h : Nat)
    (h1 : ∃ e ∈ l1, f e = h) : slotOf f p (l1 ++ l2) h = slotOf f p l1 h := by
  induction l1 generalizing p with
  | nil => simp at h1
  | cons e l ih =>
    by_cases he : f e = h
    · simp [slotOf, he]
    · simp only [List.cons_append, slotOf, he, if_false]
      apply ih
      obtain ⟨x, hx, hxh⟩ := h1
      rcases List.mem_cons.mp hx with rfl | hx
      · exact absurd hxh he
      · exact ⟨x, hx, hxh⟩

theorem slotOf_eq_some (f : Entry K V → Nat) (p : Ptr) (l : List (Entry K V)) (h : Nat) (x : Ptr)
    (hs : slotOf f p l h = some x) :
    ∃ l1 e l2, l = l1 ++ e :: l2 ∧ (∀ y ∈ l1, f y ≠ h) ∧ f e = h ∧ x = lastPtr p l1 := by
  induction l generalizing p with
  | nil => simp [slotOf] at hs
  | cons e l ih =>
    by_cases he : f e = h
    · simp only [slotOf, he, if_true, Option.some.injEq] at hs
      exact ⟨[], e, l, rfl, by simp, he, hs.symm⟩
    · simp only [slotOf, he, if_false] at hs
      obtain ⟨l1, e', l2, rfl, h1, h2, h3⟩ := ih _ hs
      refine ⟨e :: l1, e', l2, rfl, ?_, h2, ?_⟩
      · intro y hy
        rcases List.mem_cons.mp hy with rfl | hy
        · exact he
        · exact h1 y hy
      · simpa [lastPtr] using h3

theorem Grouped_cons (b : Nat) (bs : List Nat) :
    Grouped (b :: bs) ↔ (b ∈ bs → bs.head? = some b) ∧ Grouped bs := Iff.rfl

theorem Grouped.of_append_right (l1 l2 : List Nat) (h : Grouped (l1 ++ l2)) :
    Grouped l2 := by
  induction l1 with
  | nil => exact h
  | cons a l1 ih => exact ih h.2

theorem Grouped.not_mem_of_head_ne {h b : Nat} {bs : List Nat} (hg : Grouped (h :: b :: bs))
    (hne : b ≠ h) : h ∉ b :: bs := by
  intro hm
  have := hg.1 hm
  simp at this
  exact hne this

theorem Grouped.erase_mid (l1 : List Nat) (b : Nat) (l2 : List Nat)
    (h : Grouped (l1 ++ b :: l2)) : Grouped (l1 ++ l2) := by
  induction l1 with
  | nil => exact h.2
  | cons a l1 ih =>
    rw [List.cons_append, Grouped_cons] at h ⊢
    refine ⟨?_, ih h.2⟩
    intro ha
    have ha' : a ∈ l1 ++ b :: l2 := by
      simp only [List.mem_append, List.mem_cons] at ha ⊢
      tauto
    have hh := h.1 ha'
    cases l1 with
    | nil =>
      simp only [List.nil_append, List.head?_cons, Option.some.injEq] at hh
      subst hh
      simp only [List.nil_append] at ha ⊢
      exact h.2.1 ha
    | cons c l1 => simpa using hh

theorem Grouped.insert_mid (l1 : List Nat) (b : Nat) (l2 : List Nat)
    (h : Grouped (l1 ++ b :: l2)) : Grouped (l1 ++ b :: b :: l2) := by
  induction l1 with
  | nil => exact ⟨fun _ => by simp, h⟩
  | cons a l1 ih =>
    rw [List.cons_append, Grouped_cons] at h ⊢
    refine ⟨?_, ih h.2⟩
    intro ha
    have ha' : a ∈ l1 ++ b :: l2 := by
      simp only [List.mem_append, List.mem_cons] at ha ⊢
      tauto
    have hh := h.1 ha'
    cases l1 with
    | nil => simpa using hh
    | cons c l1 => simpa using hh

theorem Grouped.append_singleton (l : List Nat) (b : Nat) (h : Grouped l) (hb : b ∉ l) :
    Grouped (l ++ [b]) := by
  induction l with
  | nil => exact ⟨fun h => by simp at h, trivial⟩
  | cons a l ih =>
    have hb' : b ∉ l := fun hm => hb (List.mem_cons_of_mem _ hm)
    have hab : a ≠ b := fun e => hb (by simp [e])
    rw [List.cons_append, Grouped_cons]
    refine ⟨?_, ih h.2 hb'⟩
    intro ha
    have ha' : a ∈ l := by
      simp only [List.mem_append, List.mem_singleton] at ha
      rcases ha with ha | ha
      · exact ha
      · exact absurd ha hab
    have hh := h.1 ha'
    cases l with
    | nil => simp at ha'
    | cons c l => simpa using hh


/-! ## Memory: segments and frames -/


theorem next_node_of (m : Mem K V) (a : Nat) (n : Node K V) (h : m.node a = some n) :
    m.next (.node a) = .ok n.next := by
  simp [Mem.next, h]

theorem Frame.mono {m m' : Mem K V} {ps qs : List Ptr} (h : Frame m m' ps) (hsub : ∀ p ∈ ps, p ∈ qs) :
    Frame m m' qs :=
  ⟨fun b hb => h.1 b (fun hm => hb (hsub _ hm)), fun i hi => h.2 i (fun hm => hi (hsub _ hm))⟩

theorem Frame.refl (m : Mem K V) (ps : List Ptr) : Frame m m ps := ⟨fun _ _ => rfl, fun _ _ => rfl⟩

theorem Frame.trans {m1 m2 m3 : Mem K V} {ps : List Ptr} (h12 : Frame m1 m2 ps) (h23 : Frame m2 m3 ps) :
    Frame m1 m3 ps :=
  ⟨fun b hb => (h23.1 b hb).trans (h12.1 b hb), fun i hi => (h23.2 i hi).trans (h12.2 i hi)⟩

theorem Frame.next {m m' : Mem K V} {ps : List Ptr} (h : Frame m m' ps) (p : Ptr) (hp : p ∉ ps) :
    m'.next p = m.next p := by
  cases p with
  | fake i => simp [Mem.next, h.2 i hp]
  | node a => simp [Mem.next, h.1 a hp]

theorem Nodes.frame_nodes {H : Traits K} {m m' : Mem K V} {ps : List Ptr} (hf : Frame m m' ps)
    {l : List (Entry K V)} {q : Option Ptr} (hn : Nodes H m l q) (hd : ∀ e ∈ l, e.ptr ∉ ps) :
    Nodes H m' l q := by
  induction l with
  | nil => trivial
  | cons e l ih =>
    refine ⟨?_, ih hn.2 (fun x hx => hd x (List.mem_cons_of_mem _ hx))⟩
    rw [hf.1 e.addr (hd e (List.mem_cons_self _ _))]
    exact hn.1

theorem Nodes_cons {H : Traits K} {m : Mem K V} (e : Entry K V) (l : List (Entry K V)) (q : Option Ptr) :
    Nodes H m (e :: l) q ↔
      m.node e.addr = some ⟨nextOf l q, (e.key, e.val), H.hash_func e.key⟩ ∧ Nodes H m l q := Iff.rfl

theorem Nodes_append {H : Traits K} {m : Mem K V} (l1 l2 : List (Entry K V)) (q : Option Ptr) :
    Nodes H m (l1 ++ l2) q ↔ Nodes H m l1 (nextOf l2 q) ∧ Nodes H m l2 q := by
  induction l1 with
  | nil => simp [Nodes]
  | cons e l ih =>
    rw [List.cons_append, Nodes_cons, Nodes_cons, nextOf_append, ih]
    tauto

theorem Seg.next_last {H : Traits K} {m : Mem K V} {p : Ptr} {l : List (Entry K V)} {q : Option Ptr}
    (h : Seg H m p l q) : m.next (lastPtr p l) = .ok q := by
  induction l generalizing p with
  | nil => exact h.1
  | cons e l ih =>
    apply ih (p := e.ptr)
    exact ⟨next_node_of m e.addr _ h.2.1, h.2.2⟩

theorem Seg_append {H : Traits K} {m : Mem K V} (p : Ptr) (l1 l2 : List (Entry K V)) (q : Option Ptr) :
    Seg H m p (l1 ++ l2) q ↔ Seg H m p l1 (nextOf l2 q) ∧ Seg H m (lastPtr p l1) l2 q := by
  constructor
  · intro h
    have h1 : Seg H m p l1 (nextOf l2 q) := ⟨by rw [← nextOf_append]; exact h.1, ((Nodes_append l1 l2 q).1 h.2).1⟩
    exact ⟨h1, h1.next_last, ((Nodes_append l1 l2 q).1 h.2).2⟩
  · intro h
    exact ⟨by rw [nextOf_append]; exact h.1.1, (Nodes_append l1 l2 q).2 ⟨h.1.2, h.2.2⟩⟩

theorem set_next_spec (m : Mem K V) (p : Ptr) (x q : Option Ptr) (h : m.next p = .ok q) :
    ∃ m', m.set_next p x = .ok m' ∧ m'.next p = .ok x ∧ Frame m m' [p] ∧
      (∀ a n, p = .node a → m.node a = some n → m'.node a = some { n with next := x }) := by
  cases p with
  | fake i =>
    refine ⟨_, rfl, by simp [Mem.next], ⟨fun b _ => rfl, fun j hj => ?_⟩, fun a n ha => by cases ha⟩
    have : j ≠ i := fun e => hj (by simp [e])
    simp [this]
  | node a =>
    cases hn : m.node a with
    | none => simp [Mem.next, hn] at h
    | some n =>
      refine ⟨{ m with node := fun b => if b = a then some { n with next := x } else m.node b },
        by simp only [Mem.set_next, hn], by simp [Mem.next], ⟨fun b hb => ?_, fun j _ => rfl⟩, ?_⟩
      · have : b ≠ a := fun e => hb (by simp [e])
        simp [this]
      · intro a' n' ha hn'
        cases ha
        rw [hn] at hn'
        cases hn'
        simp

/-- Redirecting the last link of a segment. -/
theorem Seg.set_last {H : Traits K} {m : Mem K V} {p : Ptr} {l : List (Entry K V)} {q : Option Ptr}
    (h : Seg H m p l q) (hnd : (p :: l.map Entry.ptr).Nodup) (x : Option Ptr) :
    ∃ m', m.set_next (lastPtr p l) x = .ok m' ∧ Seg H m' p l x ∧ Frame m m' [lastPtr p l] := by
  induction l generalizing p with
  | nil =>
    obtain ⟨m', h1, h2, h3, _⟩ := set_next_spec m p x q h.1
    exact ⟨m', h1, ⟨h2, trivial⟩, h3⟩
  | cons e l ih =>
    have hnd' : (e.ptr :: l.map Entry.ptr).Nodup := (List.nodup_cons.mp hnd).2
    cases l with
    | nil =>
      have hnode := h.2.1
      obtain ⟨m', h1, h2, h3, h4⟩ := set_next_spec m e.ptr x _ (next_node_of m e.addr _ hnode)
      refine ⟨m', h1, ⟨?_, ?_, trivial⟩, h3⟩
      · rw [h3.next p (by
          intro hm
          have : p = e.ptr := by simpa using hm
          exact (List.nodup_cons.mp hnd).1 (by simp [this]))]
        exact h.1
      · have := h4 e.addr _ rfl hnode
        simpa [nextOf] using this
    | cons e' l' =>
      have hseg' : Seg H m e.ptr (e' :: l') q := ⟨next_node_of m e.addr _ h.2.1, h.2.2⟩
      obtain ⟨m', h1, h2, h3⟩ := ih hseg' hnd'
      have hmem : lastPtr e.ptr (e' :: l') ∈ (e' :: l').map Entry.ptr := lastPtr_cons_mem _ _ _
      have hne_e : lastPtr e.ptr (e' :: l') ≠ e.ptr := fun heq =>
        (List.nodup_cons.mp hnd').1 (heq ▸ hmem)
      have hne_p : lastPtr e.ptr (e' :: l') ≠ p := fun heq =>
        (List.nodup_cons.mp hnd).1 (List.mem_cons_of_mem _ (heq ▸ hmem))
      refine ⟨m', h1, ⟨?_, ?_, h2.2⟩, h3⟩
      · rw [h3.next p (by simpa using hne_p.symm)]
        exact h.1
      · rw [h3.1 e.addr (by simpa [Entry.ptr] using hne_e.symm)]
        exact h.2.1

end UnorderedMap

/-! ## Lookup -/

namespace UnorderedMap

variable {K V : Type}

theorem Nodes.node_of_mem {H : Traits K} {m : Mem K V} {l : List (Entry K V)} {q : Option Ptr}
    (hn : Nodes H m l q) {e : Entry K V} (he : e ∈ l) :
    ∃ nx, m.node e.addr = some ⟨nx, (e.key, e.val), H.hash_func e.key⟩ := by
  induction l with
  | nil => cases he
  | cons x l ih =>
    rcases List.mem_cons.mp he with rfl | he
    · exact ⟨_, hn.1⟩
    · exact ih hn.2 he

theorem get_hash_of_node {H : Traits K} (s : UnorderedMap K V) (e : Entry K V) (nx : Option Ptr)
    (hpos : 0 < s.bucket_count)
    (hn : s.mem.node e.addr = some ⟨nx, (e.key, e.val), H.hash_func e.key⟩) :
    s.get_hash e.ptr = .ok (bkt H s.bucket_count e) := by
  have : s.bucket_count ≠ 0 := Nat.pos_iff_ne_zero.mp hpos
  simp [get_hash, ForwardList.get_hash, Entry.ptr, hn, bind, Except.bind, this, bkt, pure, Except.pure]

theorem get_data_of_node {H : Traits K} (m : Mem K V) (e : Entry K V) (nx : Option Ptr)
    (hn : m.node e.addr = some ⟨nx, (e.key, e.val), H.hash_func e.key⟩) :
    ForwardList.get_data m e.ptr = .ok (e.key, e.val) := by
  simp [ForwardList.get_data, Entry.ptr, hn]

/-- The loop of `find_node` followed by its final test searches the run at the head of `r`. -/
theorem find_node_tail_spec {H : Traits K} (s : UnorderedMap K V) (key : K) (h : Nat)
    (hpos : 0 < s.bucket_count) (r : List (Entry K V)) (hn : Nodes H s.mem r none)
    (fuel : Nat) (hf : r.length < fuel) :
    (do
      let it ← find_node_loop H s key h fuel (nextOf r none)
      match it with
      | none => pure none
      | some p => do
          let h' ← s.get_hash p
          if h' = h then pure (some p) else pure none) =
      (.ok ((runSearch H s.bucket_count key h r).map Entry.ptr) : Except Err (Option Ptr)) := by
  induction r generalizing fuel with
  | nil =>
    cases fuel with
    | zero => simp at hf
    | succ f => simp [nextOf, find_node_loop, runSearch, bind, Except.bind, pure, Except.pure]
  | cons e r ih =>
    cases fuel with
    | zero => simp at hf
    | succ f =>
      have hgh := get_hash_of_node s e _ hpos hn.1
      have hgd := get_data_of_node (H := H) s.mem e _ hn.1
      have hnx := next_node_of s.mem e.addr _ hn.1
      have hgh' : s.get_hash (Ptr.node e.addr) = .ok (bkt H s.bucket_count e) := hgh
      have hgd' : ForwardList.get_data s.mem (Ptr.node e.addr) = .ok (e.key, e.val) := hgd
      by_cases hb : bkt H s.bucket_count e = h
      · by_cases hk : H.cmp_equal e.key key = true
        · simp [nextOf, find_node_loop, runSearch, bind, Except.bind, pure, Except.pure, hgh', hgd',
            hb, hk, Entry.ptr]
        · have hk' : H.cmp_equal e.key key = false := by simpa using hk
          have := ih hn.2 f (by simpa using hf)
          simp only [nextOf, find_node_loop, runSearch, bind, Except.bind, pure, Except.pure, hgh',
            hgd', hb, hk', Entry.ptr, hnx, if_true] at this ⊢
          simpa using this
      · simp [nextOf, find_node_loop, runSearch, bind, Except.bind, pure, Except.pure, hgh', hb,
          Entry.ptr]

theorem chainFind_append_of_not_mem (H : Traits K) (key : K) (l1 l2 : List (Entry K V))
    (h1 : ∀ e ∈ l1, H.cmp_equal e.key key = false) : chainFind H key (l1 ++ l2) = chainFind H key l2 := by
  induction l1 with
  | nil => rfl
  | cons e l ih =>
    have he := h1 e (List.mem_cons_self _ _)
    simp only [chainFind, List.cons_append, List.find?_cons, he]
    exact ih (fun x hx => h1 x (List.mem_cons_of_mem _ hx))

theorem chainFind_eq_none_iff (H : Traits K) (key : K) (l : List (Entry K V)) :
    chainFind H key l = none ↔ ∀ e ∈ l, H.cmp_equal e.key key = false := by
  simp [chainFind, List.find?_eq_none]

theorem chainFind_some {H : Traits K} {key : K} {l : List (Entry K V)} {e : Entry K V}
    (h : chainFind H key l = some e) : e ∈ l ∧ H.cmp_equal e.key key = true := by
  have h1 := List.find?_some h
  have h2 := List.mem_of_find?_eq_some h
  exact ⟨h2, h1⟩

/-- an entry whose key equals `key` lies in the bucket of `key` -/
theorem bkt_of_cmp_equal {H : Traits K} (hH : H.Lawful) (n : Nat) (key : K) (e : Entry K V)
    (h : H.cmp_equal e.key key = true) : bkt H n e = H.hash_func key % n := by
  simp [bkt, hH.hash_eq _ _ h]

theorem runSearch_eq_chainFind {H : Traits K} (hH : H.Lawful) (n : Nat) (key : K)
    (r : List (Entry K V))
    (hg : Grouped (H.hash_func key % n :: r.map (bkt H n))) :
    runSearch H n key (H.hash_func key % n) r = chainFind H key r := by
  induction r with
  | nil => rfl
  | cons e r ih =>
    by_cases hb : bkt H n e = H.hash_func key % n
    · by_cases hk : H.cmp_equal e.key key = true
      · simp [runSearch, chainFind, hb, hk]
      · have hk' : H.cmp_equal e.key key = false := by simpa using hk
        have hg' : Grouped (H.hash_func key % n :: r.map (bkt H n)) := by
          have := hg.2
          rw [List.map_cons, hb] at this
          exact this
        have := ih hg'
        simp only [runSearch, chainFind, hb, hk', List.find?_cons, if_true] at this ⊢
        simpa using this
    · have hnm : H.hash_func key % n ∉ (e :: r).map (bkt H n) := by
        rw [List.map_cons] at hg ⊢
        exact Grouped.not_mem_of_head_ne hg hb
      have hnone : chainFind H key (e :: r) = none := by
        rw [chainFind_eq_none_iff]
        intro x hx
        by_contra hc
        have hc' : H.cmp_equal x.key key = true := by simpa using hc
        exact hnm (List.mem_map.mpr ⟨x, hx, bkt_of_cmp_equal hH n key x hc'⟩)
      simp [runSearch, hb, hnone]

/-- `find_node` on the bucket of `key` is the linear search of the whole chain. -/
theorem find_node_spec {H : Traits K} (hH : H.Lawful) {s : UnorderedMap K V} {l : List (Entry K V)}
    (hinv : Inv H s l) (key : K) (fuel : Nat) (hf : l.length < fuel) :
    find_node H fuel s key (H.hash_func key % s.bucket_count) =
      .ok ((chainFind H key l).map Entry.ptr) := by
  have hslot := hinv.slots (H.hash_func key % s.bucket_count)
  cases harr : s.arr (H.hash_func key % s.bucket_count) with
  | none =>
    rw [harr] at hslot
    have hno := (slotOf_eq_none_iff _ _ _ _).mp hslot.symm
    have : chainFind H key l = none := by
      rw [chainFind_eq_none_iff]
      intro x hx
      by_contra hc
      have hc' : H.cmp_equal x.key key = true := by simpa using hc
      exact hno x hx (bkt_of_cmp_equal hH _ key x hc')
    simp [find_node, harr, this, pure, Except.pure]
  | some slot =>
    rw [harr] at hslot
    obtain ⟨l1, e, l2, rfl, h1, h2, h3⟩ := slotOf_eq_some _ _ _ _ _ hslot.symm
    have hseg := (Seg_append (H := H) (.fake s.self) l1 (e :: l2) none).mp hinv.chain.seg
    have hnext : s.mem.next slot = .ok (nextOf (e :: l2) none) := by
      rw [h3]; exact hseg.2.1
    have hlen : (e :: l2).length < fuel := by
      simp only [List.length_append, List.length_cons] at hf ⊢
      omega
    have htail := find_node_tail_spec s key (H.hash_func key % s.bucket_count) hinv.bc_pos
      (e :: l2) hseg.2.2 fuel hlen
    have hg : Grouped (H.hash_func key % s.bucket_count :: l2.map (bkt H s.bucket_count)) := by
      have := Grouped.of_append_right (l1.map (bkt H s.bucket_count))
        ((e :: l2).map (bkt H s.bucket_count)) (by simpa using hinv.grouped)
      rw [List.map_cons, h2] at this
      exact this
    have hrun := runSearch_eq_chainFind hH s.bucket_count key (e :: l2) (by
      rw [List.map_cons, h2]
      exact ⟨fun _ => by simp, hg⟩)
    have hcf : chainFind H key (l1 ++ e :: l2) = chainFind H key (e :: l2) := by
      apply chainFind_append_of_not_mem
      intro x hx
      by_contra hc
      have hc' : H.cmp_equal x.key key = true := by simpa using hc
      exact h1 x hx (bkt_of_cmp_equal hH _ key x hc')
    rw [hcf, ← hrun, ← htail]
    simp only [find_node, harr, hnext, bind, Except.bind]

theorem find_spec {H : Traits K} (hH : H.Lawful) {s : UnorderedMap K V} {l : List (Entry K V)}
    (hinv : Inv H s l) (key : K) (fuel : Nat) (hf : l.length < fuel) :
    find H fuel s key = .ok ((chainFind H key l).map Entry.ptr) := by
  have : s.bucket_count ≠ 0 := Nat.pos_iff_ne_zero.mp hinv.bc_pos
  simp only [find, this, if_false]
  exact find_node_spec hH hinv key fuel hf

end UnorderedMap

/-! ## Linking a node, and the rebuild of the bucket array -/

namespace UnorderedMap

variable {K V : Type}

theorem Seg.frame_seg {H : Traits K} {m m' : Mem K V} {ps : List Ptr} (hf : Frame m m' ps)
    {p : Ptr} {l : List (Entry K V)} {q : Option Ptr} (h : Seg H m p l q) (hp : p ∉ ps)
    (hd : ∀ e ∈ l, e.ptr ∉ ps) : Seg H m' p l q :=
  ⟨by rw [hf.next p hp]; exact h.1, h.2.frame_nodes hf hd⟩

theorem ptr_mem_map {l : List (Entry K V)} {e : Entry K V} (he : e ∈ l) :
    e.ptr ∈ l.map Entry.ptr := List.mem_map.mpr ⟨e, he, rfl⟩

theorem nodup_ptr_of_addr {l : List (Entry K V)} (h : (l.map Entry.addr).Nodup) (i : Nat) :
    (Ptr.fake i :: l.map Entry.ptr).Nodup := by
  refine List.nodup_cons.mpr ⟨?_, ?_⟩
  · intro hm
    obtain ⟨e, _, he⟩ := List.mem_map.mp hm
    cases he
  · have : l.map Entry.ptr = (l.map Entry.addr).map Ptr.node := by simp [Entry.ptr, List.map_map, Function.comp_def]
    rw [this]
    exact h.map (fun a b hab => by cases hab; rfl)

theorem addr_not_mem_of_ptr {l : List (Entry K V)} {a : Nat} (h : a ∉ l.map Entry.addr) :
    Ptr.node a ∉ l.map Entry.ptr := by
  intro hm
  obtain ⟨e, he, hea⟩ := List.mem_map.mp hm
  apply h
  have : e.addr = a := by simpa [Entry.ptr] using hea
  exact List.mem_map.mpr ⟨e, he, this⟩

/-- Linking the live node `a` after the last position of `l1`. -/
theorem insert_next_spec {H : Traits K} {m : Mem K V} {p : Ptr} {l1 r : List (Entry K V)}
    {q : Option Ptr} (hseg : Seg H m p (l1 ++ r) q) (hnd : (p :: (l1 ++ r).map Entry.ptr).Nodup)
    (a : Nat) (k : K) (v : V) (nx : Option Ptr)
    (ha : m.node a = some ⟨nx, (k, v), H.hash_func k⟩)
    (hfresh : Ptr.node a ∉ p :: (l1 ++ r).map Entry.ptr) :
    ∃ m', ForwardList.insert_next m (lastPtr p l1) (.node a) = .ok m' ∧
      Seg H m' p (l1 ++ (⟨a, k, v⟩ : Entry K V) :: r) q ∧ Frame m m' [lastPtr p l1, .node a] := by
  obtain ⟨hs1, hs2⟩ := (Seg_append p l1 r q).mp hseg
  have hnd1 : (p :: l1.map Entry.ptr).Nodup := by
    rw [List.map_append, ← List.cons_append] at hnd
    exact (List.nodup_append.mp hnd).1
  have hlast_mem : lastPtr p l1 ∈ p :: l1.map Entry.ptr := lastPtr_mem p l1
  have hlast_ne : lastPtr p l1 ≠ .node a := by
    intro heq
    apply hfresh
    rw [← heq]
    simp only [List.map_append, List.mem_cons, List.mem_append] at hlast_mem ⊢
    tauto
  have hr_disj : ∀ e ∈ r, e.ptr ∉ [lastPtr p l1, Ptr.node a] := by
    intro e he hm
    simp only [List.mem_cons, List.mem_singleton, List.not_mem_nil, or_false] at hm
    rcases hm with hm | hm
    · rw [List.map_append, ← List.cons_append] at hnd
      exact (List.nodup_append.mp hnd).2.2 (hm ▸ hlast_mem) (ptr_mem_map he)
    · apply hfresh
      rw [← hm]
      exact List.mem_cons_of_mem _ (by rw [List.map_append]; exact List.mem_append_right _ (ptr_mem_map he))
  obtain ⟨m1, e1, hn1, hf1, hnode1⟩ := set_next_spec m (.node a) (nextOf r q) nx (next_node_of m a _ ha)
  have ha1 : m1.node a = some ⟨nextOf r q, (k, v), H.hash_func k⟩ := hnode1 a _ rfl ha
  have hs1' : Seg H m1 p l1 (nextOf r q) := by
    refine hs1.frame_seg hf1 ?_ ?_
    · intro hm
      apply hfresh
      have : p = Ptr.node a := by simpa using hm
      simp [this]
    · intro e he hm
      apply hfresh
      have : e.ptr = Ptr.node a := by simpa using hm
      rw [← this]
      exact List.mem_cons_of_mem _ (by rw [List.map_append]; exact List.mem_append_left _ (ptr_mem_map he))
  obtain ⟨m2, e2, hseg2, hf2⟩ := hs1'.set_last hnd1 (some (.node a))
  have hf12 : Frame m m2 [lastPtr p l1, .node a] :=
    (hf1.mono (by simp)).trans (hf2.mono (by simp))
  have ha2 : m2.node a = some ⟨nextOf r q, (k, v), H.hash_func k⟩ := by
    rw [hf2.1 a (by simpa using hlast_ne.symm)]
    exact ha1
  refine ⟨m2, ?_, ?_, hf12⟩
  · simp only [ForwardList.insert_next, hs2.1, e1, e2, bind, Except.bind]
  · refine (Seg_append p l1 _ q).mpr ⟨hseg2, hseg2.next_last, ?_, ?_⟩
    · exact ha2
    · exact hs2.2.frame_nodes hf12 hr_disj

theorem lastPtr_insert_mid (p : Ptr) (l1 : List (Entry K V)) (x y : Entry K V) (l2 : List (Entry K V)) :
    lastPtr p (l1 ++ x :: y :: l2) = lastPtr p (l1 ++ y :: l2) := by
  simp [lastPtr_append, lastPtr]

theorem slotOf_insert_mid (f : Entry K V → Nat) (p : Ptr) (l1 : List (Entry K V)) (x y : Entry K V)
    (l2 : List (Entry K V)) (hxy : f x = f y) (h : Nat) :
    slotOf f p (l1 ++ x :: y :: l2) h = slotOf f p (l1 ++ y :: l2) h := by
  by_cases hm : ∃ e ∈ l1, f e = h
  · rw [slotOf_append_of_mem f p l1 _ h hm, slotOf_append_of_mem f p l1 _ h hm]
  · have hm' : ∀ e ∈ l1, f e ≠ h := fun e he hc => hm ⟨e, he, hc⟩
    rw [slotOf_append_of_not_mem f p l1 _ h hm', slotOf_append_of_not_mem f p l1 _ h hm']
    by_cases hx : f x = h
    · simp [slotOf, hx, ← hxy]
    · have hy : f y ≠ h := by rwa [← hxy]
      simp [slotOf, hx, hy]

theorem slotOf_append_singleton (f : Entry K V → Nat) (p : Ptr) (l : List (Entry K V)) (x : Entry K V)
    (hx : ∀ e ∈ l, f e ≠ f x) (h : Nat) :
    slotOf f p (l ++ [x]) h = if h = f x then some (lastPtr p l) else slotOf f p l h := by
  by_cases hh : h = f x
  · subst hh
    rw [slotOf_append_of_not_mem f p l _ _ hx]
    simp [slotOf]
  · by_cases hm : ∃ e ∈ l, f e = h
    · rw [slotOf_append_of_mem f p l _ h hm]
      simp [hh]
    · have hm' : ∀ e ∈ l, f e ≠ h := fun e he hc => hm ⟨e, he, hc⟩
      rw [slotOf_append_of_not_mem f p l _ h hm']
      have : f x ≠ h := fun e => hh e.symm
      simp [slotOf, this, hh, (slotOf_eq_none_iff f p l h).mpr hm']

/-- The loop of `fixed_rehash` moves the remaining entries into the rebuilt chain. -/
theorem fixed_rehash_loop_spec {H : Traits K} (rest : List (Entry K V)) :
    ∀ (fuel : Nat) (s : UnorderedMap K V) (done : List (Entry K V)) (q : Option Ptr),
      rest.length < fuel → 0 < s.bucket_count →
      Seg H s.mem (.fake s.self) done q → Nodes H s.mem rest none →
      ((done ++ rest).map Entry.addr).Nodup →
      Grouped (done.map (bkt H s.bucket_count)) →
      (∀ h, s.arr h = slotOf (bkt H s.bucket_count) (.fake s.self) done h) →
      ∃ s' done' q', fixed_rehash_loop fuel s (lastPtr (.fake s.self) done) (nextOf rest none) =
          .ok (s', lastPtr (.fake s.self) done') ∧
        done'.Perm (done ++ rest) ∧ Seg H s'.mem (.fake s.self) done' q' ∧
        Grouped (done'.map (bkt H s.bucket_count)) ∧
        (∀ h, s'.arr h = slotOf (bkt H s.bucket_count) (.fake s.self) done' h) ∧
        s'.self = s.self ∧ s'.bucket_count = s.bucket_count ∧ s'.sz = s.sz ∧
        s'.max_load = s.max_load := by
  induction rest with
  | nil =>
    intro fuel s done q hf _ hseg _ _ hg hsl
    cases fuel with
    | zero => simp at hf
    | succ f =>
      exact ⟨s, done, q, by simp [nextOf, fixed_rehash_loop], by simp, hseg, hg, hsl, rfl, rfl, rfl, rfl⟩
  | cons cur rest ih =>
    intro fuel s done q hf hpos hseg hrest hnd hg hsl
    cases fuel with
    | zero => simp at hf
    | succ f =>
      have hf' : rest.length < f := by simpa using hf
      have hcur := hrest.1
      have hnext : s.mem.next (Ptr.node cur.addr) = .ok (nextOf rest none) := next_node_of s.mem cur.addr _ hcur
      have hgh : s.get_hash (Ptr.node cur.addr) = .ok (bkt H s.bucket_count cur) :=
        get_hash_of_node s cur _ hpos hcur
      have hndp := nodup_ptr_of_addr hnd s.self
      have hnd_done : (Ptr.fake s.self :: (done ++ []).map Entry.ptr).Nodup := by
        rw [List.map_append, ← List.cons_append] at hndp
        simpa using (List.nodup_append.mp hndp).1
      have hcur_fresh : Ptr.node cur.addr ∉ Ptr.fake s.self :: done.map Entry.ptr := by
        rw [List.map_append, ← List.cons_append] at hndp
        intro hm
        exact (List.nodup_append.mp hndp).2.2 hm (by simp [Entry.ptr])
      have hrest_nd : ∀ e ∈ rest, e.ptr ∉ Ptr.fake s.self :: done.map Entry.ptr ∧ e.ptr ≠ Ptr.node cur.addr := by
        intro e he
        rw [List.map_append, ← List.cons_append, List.map_cons] at hndp
        have h1 := List.nodup_append.mp hndp
        refine ⟨fun hm => h1.2.2 hm (List.mem_cons_of_mem _ (ptr_mem_map he)), ?_⟩
        intro heq
        have h2 := ptr_mem_map he
        rw [heq] at h2
        exact (List.nodup_cons.mp h1.2.1).1 h2
      cases harr : s.arr (bkt H s.bucket_count cur) with
      | some slot =>
        have hslot := hsl (bkt H s.bucket_count cur)
        rw [harr] at hslot
        obtain ⟨d1, g, d2, rfl, h1, h2, h3⟩ := slotOf_eq_some _ _ _ _ _ hslot.symm
        have hnd' : (Ptr.fake s.self :: (d1 ++ g :: d2).map Entry.ptr).Nodup := by simpa using hnd_done
        obtain ⟨m1, e1, hseg1, hfr1⟩ := insert_next_spec hseg hnd' cur.addr cur.key cur.val _ hcur hcur_fresh
        have hlast_mem : lastPtr (Ptr.fake s.self) d1 ∈ Ptr.fake s.self :: (d1 ++ g :: d2).map Entry.ptr := by
          have := lastPtr_mem (Ptr.fake s.self) d1
          simp only [List.map_append, List.mem_cons, List.mem_append] at this ⊢
          tauto
        have hrest1 : Nodes H m1 rest none := by
          refine hrest.2.frame_nodes hfr1 ?_
          intro e he hm
          simp only [List.mem_cons, List.mem_singleton, List.not_mem_nil, or_false] at hm
          rcases hm with hm | hm
          · exact (hrest_nd e he).1 (hm ▸ hlast_mem)
          · exact (hrest_nd e he).2 hm
        have hcur_eq : (⟨cur.addr, cur.key, cur.val⟩ : Entry K V) = cur := rfl
        rw [hcur_eq] at hseg1
        have hnd1 : (((d1 ++ cur :: g :: d2) ++ rest).map Entry.addr).Nodup := by
          refine (List.Perm.nodup_iff ?_).mp hnd
          apply List.Perm.map
          simp only [List.append_assoc, List.cons_append]
          refine List.Perm.append_left d1 ?_
          exact (@List.perm_middle _ cur (g :: d2) rest).trans (List.Perm.refl _)
        have hg1 : Grouped ((d1 ++ cur :: g :: d2).map (bkt H s.bucket_count)) := by
          have := Grouped.insert_mid (d1.map (bkt H s.bucket_count)) (bkt H s.bucket_count g)
            (d2.map (bkt H s.bucket_count)) (by simpa using hg)
          simpa [h2] using this
        obtain ⟨s', done', q', e2, hperm, hseg', hg', hsl', hself, hbc, hsz, hml⟩ :=
          ih f { s with mem := m1 } (d1 ++ cur :: g :: d2) q hf' hpos hseg1 hrest1 hnd1 hg1
            (fun h => by
              rw [slotOf_insert_mid _ _ d1 cur g d2 (h2.symm ▸ rfl) h]
              exact hsl h)
        refine ⟨s', done', q', ?_, ?_, hseg', hg', hsl', hself, hbc, hsz, hml⟩
        · rw [lastPtr_insert_mid] at e2
          simp only [nextOf, Entry.ptr, fixed_rehash_loop, hnext, hgh, harr, h3, e1, bind,
            Except.bind] at e2 ⊢
          exact e2
        · refine hperm.trans ?_
          simp only [List.append_assoc, List.cons_append]
          refine List.Perm.append_left d1 ?_
          exact (@List.perm_middle _ cur (g :: d2) rest).symm
      | none =>
        have hslot := hsl (bkt H s.bucket_count cur)
        rw [harr] at hslot
        have hno := (slotOf_eq_none_iff _ _ _ _).mp hslot.symm
        obtain ⟨m1, e1, hseg1, hfr1⟩ := hseg.set_last (by simpa using hnd_done) (some (Ptr.node cur.addr))
        have hlast_mem := lastPtr_mem (Ptr.fake s.self) done
        have hcur1 : m1.node cur.addr = some ⟨nextOf rest none, (cur.key, cur.val), H.hash_func cur.key⟩ := by
          rw [hfr1.1 cur.addr (by
            intro hm
            have : Ptr.node cur.addr = lastPtr (Ptr.fake s.self) done := by simpa using hm
            exact hcur_fresh (this ▸ hlast_mem))]
          exact hcur
        have hrest1 : Nodes H m1 rest none := by
          refine hrest.2.frame_nodes hfr1 ?_
          intro e he hm
          have : e.ptr = lastPtr (Ptr.fake s.self) done := by simpa using hm
          exact (hrest_nd e he).1 (this ▸ hlast_mem)
        have hseg2 : Seg H m1 (Ptr.fake s.self) (done ++ [cur]) (nextOf rest none) :=
          (Seg_append _ done [cur] _).mpr ⟨hseg1, hseg1.next_last, hcur1, trivial⟩
        have hnd1 : (((done ++ [cur]) ++ rest).map Entry.addr).Nodup := by simpa using hnd
        have hg1 : Grouped ((done ++ [cur]).map (bkt H s.bucket_count)) := by
          rw [List.map_append]
          refine Grouped.append_singleton _ _ hg ?_
          intro hm
          obtain ⟨e, he, heq⟩ := List.mem_map.mp hm
          exact hno e he heq
        obtain ⟨s', done', q', e2, hperm, hseg', hg', hsl', hself, hbc, hsz, hml⟩ :=
          ih f { (s.set_arr (bkt H s.bucket_count cur) (some (lastPtr (Ptr.fake s.self) done))) with mem := m1 }
            (done ++ [cur]) (nextOf rest none) hf' hpos hseg2 hrest1 hnd1 hg1
            (fun h => by
              show (s.set_arr (bkt H s.bucket_count cur) (some (lastPtr (Ptr.fake s.self) done))).arr h =
                slotOf (bkt H s.bucket_count) (Ptr.fake s.self) (done ++ [cur]) h
              rw [slotOf_append_singleton _ _ done cur hno h]
              by_cases hh : h = bkt H s.bucket_count cur
              · simp [set_arr, hh]
              · simp only [set_arr, hh, if_false]
                exact hsl h)
        dsimp only [set_arr] at e2 hseg' hg' hsl' hself hbc hsz hml
        refine ⟨s', done', q', ?_, ?_, hseg', hg', hsl', hself, hbc, hsz, hml⟩
        · have hl : lastPtr (Ptr.fake s.self) (done ++ [cur]) = Ptr.node cur.addr := by
            simp [lastPtr_append, lastPtr, Entry.ptr]
          rw [hl] at e2
          simp only [nextOf, Entry.ptr, fixed_rehash_loop, hnext, hgh, harr, bind, Except.bind]
          dsimp only [set_arr]
          simp only [e1]
          exact e2
        · refine hperm.trans ?_
          simp

theorem keys_rel_symm {H : Traits K} (hH : H.Lawful) {x y : Entry K V}
    (h : H.cmp_equal x.key y.key = false) : H.cmp_equal y.key x.key = false := by
  cases hc : H.cmp_equal y.key x.key with
  | false => rfl
  | true => rw [hH.symm _ _ hc] at h; cases h

theorem fixed_rehash_ok_le {fuel : Nat} {s s' : UnorderedMap K V} {count : Nat}
    (h : fixed_rehash fuel s count = .ok s') : count ≤ max_array_count := by
  unfold fixed_rehash at h
  split at h
  · cases h
  · omega

theorem fixed_rehash_too_long (fuel : Nat) (s : UnorderedMap K V) {count : Nat}
    (h : max_array_count < count) : fixed_rehash fuel s count = .error .bad_alloc := by
  unfold fixed_rehash
  rw [if_pos h]

theorem fixed_rehash_spec {H : Traits K} (hH : H.Lawful) {s : UnorderedMap K V}
    {l : List (Entry K V)} (hc : Chain H s l) (hsz : s.sz = l.length)
    (hk : l.Pairwise (fun x y => H.cmp_equal x.key y.key = false))
    (count : Nat) (hcount : 0 < count) (hmax : count ≤ max_array_count)
    (fuel : Nat) (hf : l.length < fuel) :
    ∃ s' l', fixed_rehash fuel s count = .ok s' ∧ Inv H s' l' ∧ l'.Perm l ∧
      s'.bucket_count = count ∧ s'.max_load = s.max_load ∧ s'.self = s.self ∧ s'.sz = s.sz := by
  have hfirst : s.mem.next (Ptr.fake s.self) = .ok (nextOf l none) := hc.seg.1
  obtain ⟨s1, done, q, e1, hperm, hseg, hg, hsl, hself, hbc, hsz1, hml⟩ :=
    fixed_rehash_loop_spec (H := H) l fuel { s with bucket_count := count, arr := fun _ => none } []
      (nextOf l none) hf hcount ⟨hfirst, trivial⟩ hc.seg.2 (by simpa using hc.nodup) trivial
      (fun h => rfl)
  dsimp only at e1 hseg hg hsl hself hbc hsz1 hml
  have hperm' : done.Perm l := by simpa using hperm
  have hnd : (done.map Entry.addr).Nodup := (List.Perm.nodup_iff (hperm'.map _)).mpr hc.nodup
  rw [← hself] at hseg
  obtain ⟨m2, e2, hseg2, _⟩ := hseg.set_last (nodup_ptr_of_addr hnd s1.self) none
  refine ⟨{ s1 with mem := m2 }, done, ?_, ?_, hperm', hbc, hml, hself, hsz1⟩
  · have hgt : ¬ count > max_array_count := Nat.not_lt.mpr hmax
    simp only [fixed_rehash, hgt, if_false, hfirst, bind, Except.bind, pure, Except.pure]
    simp only [lastPtr] at e1
    rw [e1]
    dsimp only
    rw [← hself, e2]
  · refine ⟨⟨hseg2, hnd⟩, ?_, ?_, ?_, ?_, ?_⟩
    · show s1.sz = done.length
      rw [hsz1, hsz, hperm'.length_eq]
    · show 0 < s1.bucket_count
      rw [hbc]; exact hcount
    · exact (List.Perm.pairwise_iff (fun {x y} h => keys_rel_symm hH h) hperm').mpr hk
    · show Grouped (done.map (bkt H s1.bucket_count))
      rw [hbc]; exact hg
    · intro h
      show s1.arr h = slotOf (bkt H s1.bucket_count) (Ptr.fake s1.self) done h
      rw [hbc, hself]; exact hsl h

theorem traverse_from_spec {H : Traits K} (m : Mem K V) (l : List (Entry K V))
    (hn : Nodes H m l none) (fuel : Nat) (hf : l.length < fuel) :
    traverse_from m fuel (nextOf l none) = .ok (l.map Entry.view) := by
  induction l generalizing fuel with
  | nil =>
    cases fuel with
    | zero => simp at hf
    | succ f => simp [nextOf, traverse_from]
  | cons e l ih =>
    cases fuel with
    | zero => simp at hf
    | succ f =>
      have hgd : ForwardList.get_data m (Ptr.node e.addr) = .ok (e.key, e.val) :=
        get_data_of_node (H := H) m e _ hn.1
      have hnx := next_node_of m e.addr _ hn.1
      have := ih hn.2 f (by simpa using hf)
      have h0 : nextOf (e :: l) none = some (Ptr.node e.addr) := rfl
      rw [h0]
      simp only [traverse_from, hgd, hnx, this, bind, Except.bind, pure, Except.pure, List.map_cons,
        Entry.view, Entry.ptr]

theorem traversal_spec {H : Traits K} {s : UnorderedMap K V} {l : List (Entry K V)}
    (hc : Chain H s l) (fuel : Nat) (hf : l.length < fuel) :
    traversal fuel s = .ok (l.map Entry.view) := by
  have h1 : s.mem.fake_node s.self = nextOf l none := by
    have := hc.seg.1
    simpa [Mem.next] using this
  simp only [traversal, begin, h1]
  exact traverse_from_spec s.mem l hc.seg.2 fuel hf

/-! ## emplace -/

theorem emplace_new_node_eq (H : Traits K) (m : Mem K V) (a : Nat) (k : K) (v : V)
    (ha : m.node a = none) :
    ForwardList.emplace_new_node H m a (some (k, v)) =
      .ok { m with node := fun b => if b = a then some ⟨none, (k, v), H.hash_func k⟩ else m.node b } := by
  simp only [ForwardList.emplace_new_node, ForwardList.place_construct, ha, bind, Except.bind, pure,
    Except.pure, if_true]
  congr 2
  funext b
  by_cases hb : b = a <;> simp [hb]

theorem frame_alloc (m : Mem K V) (a : Nat) (n : Option (Node K V)) :
    Frame m { m with node := fun b => if b = a then n else m.node b } [Ptr.node a] := by
  refine ⟨fun b hb => ?_, fun _ _ => rfl⟩
  have : b ≠ a := fun e => hb (by simp [e])
  simp [this]

theorem Inv.addr_live {H : Traits K} {s : UnorderedMap K V} {l : List (Entry K V)} (hinv : Inv H s l)
    {a : Nat} (ha : s.mem.node a = none) : a ∉ l.map Entry.addr := by
  intro hm
  obtain ⟨e, he, rfl⟩ := List.mem_map.mp hm
  obtain ⟨nx, hn⟩ := hinv.chain.seg.2.node_of_mem he
  rw [ha] at hn
  cases hn

/-- The invariant does not depend on memory outside the chain and the sentinel. -/
theorem Inv.frame_inv {H : Traits K} {s : UnorderedMap K V} {l : List (Entry K V)} (hinv : Inv H s l)
    {m' : Mem K V} {ps : List Ptr} (hf : Frame s.mem m' ps) (hp : Ptr.fake s.self ∉ ps)
    (hd : ∀ e ∈ l, e.ptr ∉ ps) : Inv H { s with mem := m' } l :=
  ⟨⟨hinv.chain.seg.frame_seg hf hp hd, hinv.chain.nodup⟩, hinv.size, hinv.bc_pos, hinv.keys,
    hinv.grouped, hinv.slots⟩

theorem with_mem_self (s : UnorderedMap K V) : ({ s with mem := s.mem } : UnorderedMap K V) = s := by
  cases s; rfl

/-- Emplacing a key that is present returns the stored entry and changes nothing. -/
theorem emplace_existing {H : Traits K} (hH : H.Lawful) {s : UnorderedMap K V}
    {l : List (Entry K V)} (hinv : Inv H s l) (a : Nat) (k : K) (v : V)
    (ha : s.mem.node a = none) (e : Entry K V) (he : chainFind H k l = some e)
    (fuel : Nat) (hf : l.length < fuel) :
    emplace H fuel s a (some (k, v)) = .ok (s, some e.ptr, false) := by
  have hE := emplace_new_node_eq H s.mem a k v ha
  have hfr := frame_alloc s.mem a (some ⟨none, (k, v), H.hash_func k⟩)
  have hnot := hinv.addr_live ha
  have hinv1 := hinv.frame_inv hfr (by simp) (fun x hx hm => by
    have : x.ptr = Ptr.node a := by simpa using hm
    exact addr_not_mem_of_ptr hnot (this ▸ ptr_mem_map hx))
  have hbc : s.bucket_count ≠ 0 := Nat.pos_iff_ne_zero.mp hinv.bc_pos
  have hF := find_node_spec hH hinv1 k fuel hf
  rw [he] at hF
  simp only [emplace, hE, bind, Except.bind, get_hash, ForwardList.get_hash, ForwardList.get_key,
    ForwardList.get_data, if_true, hbc, if_false, pure, Except.pure]
  dsimp only at hF
  simp only [hF, Option.map, ForwardList.delete_node, if_true]
  congr 2
  have hm : ({ fake_node := s.mem.fake_node,
               node := fun b => if b = a then none else
                 if b = a then some ⟨none, (k, v), H.hash_func k⟩ else s.mem.node b } : Mem K V) = s.mem := by
    cases hs : s.mem with
    | mk fk nd =>
      congr 1
      funext b
      by_cases hb : b = a
      · subst hb; simp [← ha, hs]
      · simp [hb]
  rw [hm]

theorem slotOf_change_prev (f : Entry K V → Nat) (p p' : Ptr) (l : List (Entry K V)) (h : Nat) :
    slotOf f p' l h =
      match l with
      | [] => none
      | e :: _ => if f e = h then some p' else slotOf f p l h := by
  cases l with
  | nil => rfl
  | cons e l =>
    by_cases he : f e = h <;> simp [slotOf, he]

theorem alloc_node_self (m : Mem K V) (a : Nat) (n : Node K V) :
    ({ m with node := fun b => if b = a then some n else m.node b } : Mem K V).node a = some n := by
  simp

/-- The invariant after a new entry has been linked into the chain. -/
theorem Inv.of_link {H : Traits K} (hH : H.Lawful) {s : UnorderedMap K V} {l : List (Entry K V)}
    (hinv : Inv H s l) {s3 : UnorderedMap K V} {l1 r : List (Entry K V)} (hl : l = l1 ++ r)
    (new : Entry K V) (hseg : Seg H s3.mem (.fake s3.self) (l1 ++ new :: r) none)
    (hbc : s3.bucket_count = s.bucket_count)
    (hsz : s3.sz = s.sz + 1) (hfresh : new.addr ∉ l.map Entry.addr)
    (hkey : chainFind H new.key l = none)
    (hg : Grouped ((l1 ++ new :: r).map (bkt H s.bucket_count)))
    (hsl : ∀ h, s3.arr h = slotOf (bkt H s.bucket_count) (.fake s3.self) (l1 ++ new :: r) h) :
    Inv H s3 (l1 ++ new :: r) := by
  have hperm : (l1 ++ new :: r).Perm (new :: l) := by
    rw [hl]; exact List.perm_middle
  refine ⟨⟨hseg, ?_⟩, ?_, ?_, ?_, ?_, ?_⟩
  · refine (List.Perm.nodup_iff (hperm.map Entry.addr)).mpr ?_
    rw [List.map_cons]
    exact List.nodup_cons.mpr ⟨hfresh, hinv.chain.nodup⟩
  · rw [hsz, hinv.size, hperm.length_eq, List.length_cons]
  · rw [hbc]; exact hinv.bc_pos
  · refine (List.Perm.pairwise_iff (fun {x y} h => keys_rel_symm hH h) hperm).mpr ?_
    refine List.pairwise_cons.mpr ⟨?_, hinv.keys⟩
    intro x hx
    exact keys_rel_symm hH ((chainFind_eq_none_iff H new.key l).mp hkey x hx)
  · rw [hbc]; exact hg
  · rw [hbc]; exact hsl

/-- Emplacing a new key links its node in front of the run of its bucket (at
the head of the chain when the bucket is empty); the growth check follows. -/
theorem emplace_link_spec {H : Traits K} (hH : H.Lawful) {s : UnorderedMap K V}
    {l : List (Entry K V)} (hinv : Inv H s l) (a : Nat) (k : K) (v : V)
    (ha : s.mem.node a = none) (hnew : chainFind H k l = none)
    (fuel : Nat) (hf : l.length < fuel) :
    ∃ s3 l1 r, l = l1 ++ r ∧ Inv H s3 (l1 ++ (⟨a, k, v⟩ : Entry K V) :: r) ∧
      s3.bucket_count = s.bucket_count ∧ s3.max_load = s.max_load ∧ s3.self = s.self ∧
      s3.sz = s.sz + 1 ∧
      emplace H fuel s a (some (k, v)) =
        (do let s4 ← reallocate fuel s3; pure (s4, some (Ptr.node a), true)) := by
  have hE := emplace_new_node_eq H s.mem a k v ha
  have hfr := frame_alloc s.mem a (some ⟨none, (k, v), H.hash_func k⟩)
  have hnot := hinv.addr_live ha
  have hdisj : ∀ x ∈ l, x.ptr ∉ [Ptr.node a] := fun x hx hm => by
    have : x.ptr = Ptr.node a := by simpa using hm
    exact addr_not_mem_of_ptr hnot (this ▸ ptr_mem_map hx)
  have hinv1 := hinv.frame_inv hfr (by simp) hdisj
  have hbc : s.bucket_count ≠ 0 := Nat.pos_iff_ne_zero.mp hinv.bc_pos
  have hF := find_node_spec hH hinv1 k fuel hf
  rw [hnew] at hF
  dsimp only at hF
  have hndp := nodup_ptr_of_addr hinv.chain.nodup s.self
  have hfreshp : Ptr.node a ∉ Ptr.fake s.self :: l.map Entry.ptr := by
    intro hm
    rcases List.mem_cons.mp hm with hm | hm
    · cases hm
    · exact addr_not_mem_of_ptr hnot hm
  have ha1 := alloc_node_self s.mem a (⟨none, (k, v), H.hash_func k⟩ : Node K V)
  have hslot := hinv.slots (H.hash_func k % s.bucket_count)
  simp only [emplace, hE, bind, Except.bind, get_hash, ForwardList.get_hash, ForwardList.get_key,
    ForwardList.get_data, if_true, hbc, if_false, pure, Except.pure, hF, Option.map]
  cases harr : s.arr (H.hash_func k % s.bucket_count) with
  | some slot =>
    rw [harr] at hslot
    obtain ⟨l1, e, l2, rfl, h1, h2, h3⟩ := slotOf_eq_some _ _ _ _ _ hslot.symm
    obtain ⟨m3, e3, hseg3, _⟩ := insert_next_spec hinv1.chain.seg hndp a k v none ha1 hfreshp
    rw [← h3] at e3
    dsimp only at e3
    refine ⟨{ s with mem := m3, sz := s.sz + 1 }, l1, e :: l2, rfl, ?_, rfl, rfl, rfl, rfl, ?_⟩
    · refine Inv.of_link hH hinv rfl ⟨a, k, v⟩ hseg3 rfl rfl hnot hnew ?_ ?_
      · have := Grouped.insert_mid (l1.map (bkt H s.bucket_count)) (bkt H s.bucket_count e)
          (l2.map (bkt H s.bucket_count)) (by simpa using hinv.grouped)
        have hb : bkt H s.bucket_count (⟨a, k, v⟩ : Entry K V) = bkt H s.bucket_count e := by
          rw [h2]; rfl
        simpa [hb] using this
      · intro h
        show s.arr h = _
        rw [slotOf_insert_mid _ _ l1 ⟨a, k, v⟩ e l2 (by rw [h2]; rfl) h]
        exact hinv.slots h
    · simp only [harr, e3]
  | none =>
    rw [harr] at hslot
    have hno := (slotOf_eq_none_iff _ _ _ _).mp hslot.symm
    have hhead : s.mem.fake_node s.self = nextOf l none := by
      have := hinv.chain.seg.1
      simpa [Mem.next] using this
    obtain ⟨m3, e3, hseg3, _⟩ := @insert_next_spec K V H _ _ [] l _ hinv1.chain.seg hndp a k v none ha1 hfreshp
    simp only [lastPtr] at e3
    have hg : Grouped (([] ++ (⟨a, k, v⟩ : Entry K V) :: l).map (bkt H s.bucket_count)) := by
      refine ⟨fun hm => ?_, hinv.grouped⟩
      obtain ⟨x, hx, hxb⟩ := List.mem_map.mp hm
      exact absurd hxb (hno x hx)
    cases l with
    | nil =>
      refine ⟨{ (s.set_arr (H.hash_func k % s.bucket_count) (some (Ptr.fake s.self))) with
          mem := m3, sz := s.sz + 1 }, [], [], rfl, ?_, rfl, rfl, rfl, rfl, ?_⟩
      · refine Inv.of_link hH hinv rfl ⟨a, k, v⟩ hseg3 rfl rfl hnot hnew hg ?_
        intro h
        by_cases hh : h = H.hash_func k % s.bucket_count
        · simp [set_arr, hh, slotOf, bkt]
        · have hh' : H.hash_func k % s.bucket_count ≠ h := fun e => hh e.symm
          have := hinv.slots h
          simp only [slotOf] at this
          simp [set_arr, hh, slotOf, bkt, hh', this]
      · simp only [nextOf] at hhead
        simp only [hhead, set_arr, if_true, e3]
    | cons e0 l' =>
      have hgh0 : (H.hash_func e0.key % s.bucket_count) = bkt H s.bucket_count e0 := rfl
      have hn0 := hinv.chain.seg.2.1
      refine ⟨{ ((s.set_arr (bkt H s.bucket_count e0) (some (Ptr.node a))).set_arr
          (H.hash_func k % s.bucket_count) (some (Ptr.fake s.self))) with
          mem := m3, sz := s.sz + 1 }, [], e0 :: l', rfl, ?_, rfl, rfl, rfl, rfl, ?_⟩
      · refine Inv.of_link hH hinv rfl ⟨a, k, v⟩ hseg3 rfl rfl hnot hnew hg ?_
        intro h
        have hold := hinv.slots h
        have hne0 : bkt H s.bucket_count e0 ≠ H.hash_func k % s.bucket_count :=
          hno e0 (List.mem_cons_self _ _)
        by_cases hh : h = H.hash_func k % s.bucket_count
        · simp [set_arr, hh, slotOf, bkt]
        · have hh' : H.hash_func k % s.bucket_count ≠ h := fun e => hh e.symm
          have hk : bkt H s.bucket_count (⟨a, k, v⟩ : Entry K V) ≠ h := hh'
          show (if h = H.hash_func k % s.bucket_count then _ else
            if h = bkt H s.bucket_count e0 then some (Ptr.node a) else s.arr h) = _
          rw [if_neg hh, hold]
          simp only [List.nil_append, slotOf, hk, if_false, Entry.ptr]
          by_cases h0 : h = bkt H s.bucket_count e0
          · simp [h0]
          · have h0' : bkt H s.bucket_count e0 ≠ h := fun e => h0 e.symm
            simp [h0, h0']
      · simp only [nextOf, Entry.ptr] at hhead
        have hne0a : ¬ e0.addr = a := fun e => hnot (by simp [← e])
        simp only [hhead, hn0, hne0a, hbc, if_false, set_arr, if_true, e3, hgh0]

theorem reallocate_spec {H : Traits K} (hH : H.Lawful) {s : UnorderedMap K V}
    {l : List (Entry K V)} (hinv : Inv H s l) (fuel : Nat) (hf : l.length < fuel)
    (hgrow : F32.gt s.load_factor s.max_load = true → 2 * s.bucket_count ≤ max_array_count) :
    ∃ s' l', reallocate fuel s = .ok s' ∧ Inv H s' l' ∧ l'.Perm l ∧ s'.self = s.self ∧
      s'.max_load = s.max_load ∧ s'.sz = s.sz ∧
      (s'.bucket_count = s.bucket_count ∨ s'.bucket_count = 2 * s.bucket_count) := by
  unfold reallocate
  by_cases hgt : F32.gt s.load_factor s.max_load = true
  · obtain ⟨s', l', e1, hinv', hperm, hbc, hml, hself, hsz⟩ :=
      fixed_rehash_spec hH hinv.chain hinv.size hinv.keys (2 * s.bucket_count)
        (Nat.mul_pos (by decide) hinv.bc_pos) (hgrow hgt) fuel hf
    exact ⟨s', l', by simp [hgt, e1], hinv', hperm, hself, hml, hsz, Or.inr hbc⟩
  · exact ⟨s, l, by simp [hgt, pure, Except.pure], hinv, List.Perm.refl _, rfl, rfl, rfl, Or.inl rfl⟩

/-- What a returning `reallocate()` leaves. -/
theorem reallocate_ok_spec {H : Traits K} (hH : H.Lawful) {s s' : UnorderedMap K V}
    {l : List (Entry K V)} (hinv : Inv H s l) (fuel : Nat) (hf : l.length < fuel)
    (h : reallocate fuel s = .ok s') :
    ∃ l', Inv H s' l' ∧ l'.Perm l ∧ s'.self = s.self ∧
      s'.max_load = s.max_load ∧ s'.sz = s.sz ∧
      (s'.bucket_count = s.bucket_count ∨ s'.bucket_count = 2 * s.bucket_count) := by
  by_cases hgt : F32.gt s.load_factor s.max_load = true
  · have h2 : fixed_rehash fuel s (2 * s.bucket_count) = .ok s' := by
      unfold reallocate at h
      rw [if_pos hgt] at h
      exact h
    obtain ⟨s2, l', e1, hinv', hperm, hbc, hml, hself, hsz⟩ :=
      fixed_rehash_spec hH hinv.chain hinv.size hinv.keys (2 * s.bucket_count)
        (Nat.mul_pos (by decide) hinv.bc_pos) (fixed_rehash_ok_le h2) fuel hf
    rw [e1] at h2
    cases h2
    exact ⟨l', hinv', hperm, hself, hml, hsz, Or.inr hbc⟩
  · have h2 : s' = s := by
      unfold reallocate at h
      rw [if_neg hgt] at h
      simp only [pure, Except.pure, Except.ok.injEq] at h
      exact h.symm
    subst h2
    exact ⟨l, hinv, List.Perm.refl _, rfl, rfl, rfl, Or.inl rfl⟩

/-- Emplacing a key that is absent inserts one entry holding the pair, at the address given. -/
theorem emplace_new {H : Traits K} (hH : H.Lawful) {s : UnorderedMap K V}
    {l : List (Entry K V)} (hinv : Inv H s l) (a : Nat) (k : K) (v : V)
    (ha : s.mem.node a = none) (hnew : chainFind H k l = none)
    (fuel : Nat) (hf : l.length + 1 < fuel)
    (hgrow : F32.gt (F32.div (F32.ofNat (s.sz + 1)) (F32.ofNat s.bucket_count)) s.max_load = true →
      2 * s.bucket_count ≤ max_array_count) :
    ∃ s' l', emplace H fuel s a (some (k, v)) = .ok (s', some (Ptr.node a), true) ∧ Inv H s' l' ∧
      l'.Perm ((⟨a, k, v⟩ : Entry K V) :: l) ∧ s'.self = s.self ∧ s'.max_load = s.max_load ∧
      s'.sz = s.sz + 1 ∧
      (s'.bucket_count = s.bucket_count ∨ s'.bucket_count = 2 * s.bucket_count) := by
  obtain ⟨s3, l1, r, hl, hinv3, hbc3, hml3, hself3, hsz3, he⟩ :=
    emplace_link_spec hH hinv a k v ha hnew fuel (by omega)
  have hlen : (l1 ++ (⟨a, k, v⟩ : Entry K V) :: r).length < fuel := by
    have : (l1 ++ (⟨a, k, v⟩ : Entry K V) :: r).length = l.length + 1 := by
      rw [hl]; simp; omega
    omega
  obtain ⟨s', l', e1, hinv', hperm, hself, hml, hsz, hbc⟩ :=
    reallocate_spec hH hinv3 fuel hlen (fun hg => by
      rw [hbc3]
      apply hgrow
      simpa only [load_factor, hsz3, hbc3, hml3] using hg)
  refine ⟨s', l', ?_, hinv', ?_, hself.trans hself3, hml.trans hml3, hsz.trans hsz3, ?_⟩
  · rw [he, e1]; rfl
  · refine hperm.trans ?_
    rw [hl]; exact List.perm_middle
  · rw [hbc3] at hbc; exact hbc

/-- What a returning `emplace` of an absent key leaves. -/
theorem emplace_new_of_ok {H : Traits K} (hH : H.Lawful) {s : UnorderedMap K V}
    {l : List (Entry K V)} (hinv : Inv H s l) (a : Nat) (k : K) (v : V)
    (ha : s.mem.node a = none) (hnew : chainFind H k l = none)
    (fuel : Nat) (hf : l.length + 1 < fuel) {r : UnorderedMap K V × Option Ptr × Bool}
    (h : emplace H fuel s a (some (k, v)) = .ok r) :
    ∃ l', r = (r.1, some (Ptr.node a), true) ∧ Inv H r.1 l' ∧
      l'.Perm ((⟨a, k, v⟩ : Entry K V) :: l) ∧ r.1.self = s.self ∧ r.1.max_load = s.max_load ∧
      r.1.sz = s.sz + 1 ∧
      (r.1.bucket_count = s.bucket_count ∨ r.1.bucket_count = 2 * s.bucket_count) := by
  obtain ⟨s3, l1, r3, hl, hinv3, hbc3, hml3, hself3, hsz3, he⟩ :=
    emplace_link_spec hH hinv a k v ha hnew fuel (by omega)
  have hlen : (l1 ++ (⟨a, k, v⟩ : Entry K V) :: r3).length < fuel := by
    have : (l1 ++ (⟨a, k, v⟩ : Entry K V) :: r3).length = l.length + 1 := by
      rw [hl]; simp; omega
    omega
  rw [he] at h
  cases h4 : reallocate fuel s3 with
  | error e =>
    rw [h4] at h
    cases h
  | ok s4 =>
    rw [h4] at h
    simp only [bind, Except.bind, pure, Except.pure, Except.ok.injEq] at h
    subst h
    obtain ⟨l', hinv', hperm, hself, hml, hsz, hbc⟩ := reallocate_ok_spec hH hinv3 fuel hlen h4
    refine ⟨l', rfl, hinv', ?_, hself.trans hself3, hml.trans hml3, hsz.trans hsz3, ?_⟩
    · refine hperm.trans ?_
      rw [hl]; exact List.perm_middle
    · rw [hbc3] at hbc; exact hbc

/-! ## erase -/

theorem erase_loop_spec {H : Traits K} (m : Mem K V) (e : Entry K V) (l2 : List (Entry K V))
    (q : Option Ptr) (mid : List (Entry K V)) :
    ∀ (p : Ptr) (fuel : Nat), Seg H m p (mid ++ e :: l2) q → e.addr ∉ mid.map Entry.addr →
      mid.length < fuel → erase_loop m e.ptr fuel (some p) = .ok (lastPtr p mid) := by
  induction mid with
  | nil =>
    intro p fuel hseg _ hf
    cases fuel with
    | zero => simp at hf
    | succ f =>
      have h1 : m.next p = .ok (some e.ptr) := hseg.1
      simp [erase_loop, h1, lastPtr, bind, Except.bind, pure, Except.pure]
  | cons x mid ih =>
    intro p fuel hseg hne hf
    cases fuel with
    | zero => simp at hf
    | succ f =>
      have h1 : m.next p = .ok (some x.ptr) := hseg.1
      have hx : x.ptr ≠ e.ptr := by
        intro heq
        apply hne
        have : x.addr = e.addr := by simpa [Entry.ptr] using heq
        simp [this]
      have hseg' : Seg H m x.ptr (mid ++ e :: l2) q :=
        ⟨next_node_of m x.addr _ hseg.2.1, hseg.2.2⟩
      have := ih x.ptr f hseg' (fun hm => hne (by simp [hm])) (by simpa using hf)
      simp only [erase_loop, h1, bind, Except.bind, lastPtr]
      rw [if_neg (by simpa using hx)]
      exact this

theorem Grouped.not_mem_before {b c : Nat} (hne : c ≠ b) (bs1 bs2 : List Nat)
    (hg : Grouped (bs1 ++ b :: c :: bs2)) : c ∉ bs1 := by
  induction bs1 with
  | nil => simp
  | cons a bs1 ih =>
    rw [List.cons_append, Grouped_cons] at hg
    intro hm
    rcases List.mem_cons.mp hm with rfl | hm
    · have hh := hg.1 (by simp)
      cases bs1 with
      | nil =>
        simp only [List.nil_append, List.head?_cons, Option.some.injEq] at hh
        exact hne hh.symm
      | cons a' bs1' =>
        simp only [List.cons_append, List.head?_cons, Option.some.injEq] at hh
        exact ih hg.2 (by simp [hh])
    · exact ih hg.2 hm

/-- The slots of the chain without `e`, from the slots of the chain with it. -/
theorem slotOf_erase (f : Entry K V → Nat) (p : Ptr) (l1 : List (Entry K V)) (e : Entry K V)
    (l2 : List (Entry K V)) (hg : Grouped ((l1 ++ e :: l2).map f)) (h : Nat) :
    slotOf f p (l1 ++ l2) h =
      if (l2.head?.map f = some h ∧ h ≠ f e) then some (lastPtr p l1)
      else if (h = f e ∧ (∀ x ∈ l1, f x ≠ f e) ∧ l2.head?.map f ≠ some (f e)) then none
      else slotOf f p (l1 ++ e :: l2) h := by
  cases l2 with
  | nil =>
    have c1 : ¬ ((([] : List (Entry K V)).head?.map f = some h) ∧ h ≠ f e) := by simp
    rw [if_neg c1, List.append_nil]
    by_cases hc : h = f e ∧ ∀ x ∈ l1, f x ≠ f e
    · have c2 : h = f e ∧ (∀ x ∈ l1, f x ≠ f e) ∧ ([] : List (Entry K V)).head?.map f ≠ some (f e) :=
        ⟨hc.1, hc.2, by simp⟩
      rw [if_pos c2, slotOf_eq_none_iff]
      intro x hx; rw [hc.1]; exact hc.2 x hx
    · have c2 : ¬ (h = f e ∧ (∀ x ∈ l1, f x ≠ f e) ∧ ([] : List (Entry K V)).head?.map f ≠ some (f e)) :=
        fun hh => hc ⟨hh.1, hh.2.1⟩
      rw [if_neg c2]
      by_cases hm : ∃ x ∈ l1, f x = h
      · rw [slotOf_append_of_mem f p l1 _ h hm]
      · have hm' : ∀ x ∈ l1, f x ≠ h := fun x hx hxe => hm ⟨x, hx, hxe⟩
        have hne : f e ≠ h := by
          intro heq
          apply hc
          refine ⟨heq.symm, ?_⟩
          rw [heq]; exact hm'
        rw [slotOf_append_of_not_mem f p l1 _ h hm', (slotOf_eq_none_iff f p l1 h).mpr hm']
        simp [slotOf, hne]
  | cons g l2 =>
    simp only [List.head?_cons, Option.map_some', Option.some.injEq, ne_eq]
    by_cases hge : f g = f e
    · have c1 : ¬ (f g = h ∧ ¬ h = f e) := by
        rintro ⟨h1, h2⟩; exact h2 (h1 ▸ hge)
      have c2 : ¬ (h = f e ∧ (∀ x ∈ l1, ¬ f x = f e) ∧ ¬ f g = f e) := by
        rintro ⟨_, _, h3⟩; exact h3 hge
      rw [if_neg c1, if_neg c2]
      exact (slotOf_insert_mid f p l1 e g l2 hge.symm h).symm
    · have hgl1 : ∀ x ∈ l1, f x ≠ f g := by
        intro x hx hxe
        have := Grouped.not_mem_before (b := f e) (c := f g) hge (l1.map f) (l2.map f)
          (by simpa using hg)
        exact this (List.mem_map.mpr ⟨x, hx, hxe⟩)
      by_cases h1 : f g = h
      · have c1 : f g = h ∧ ¬ h = f e := ⟨h1, fun hh => hge (h1.trans hh)⟩
        rw [if_pos c1, ← h1, slotOf_append_of_not_mem f p l1 _ _ hgl1]
        simp [slotOf]
      · have c1 : ¬ (f g = h ∧ ¬ h = f e) := fun hc => h1 hc.1
        rw [if_neg c1]
        by_cases hc : h = f e ∧ (∀ x ∈ l1, ¬ f x = f e) ∧ ¬ f g = f e
        · rw [if_pos hc, slotOf_eq_none_iff]
          intro x hx
          rw [hc.1]
          rcases List.mem_append.mp hx with hx | hx
          · exact hc.2.1 x hx
          · have hsuf : Grouped (f e :: f g :: l2.map f) := by
              have := Grouped.of_append_right (l1.map f) ((e :: g :: l2).map f)
                (by simpa using hg)
              simpa using this
            have hnm := Grouped.not_mem_of_head_ne hsuf hge
            intro hxe
            apply hnm
            rw [← hxe]
            have : f x ∈ (g :: l2).map f := List.mem_map.mpr ⟨x, hx, rfl⟩
            simpa using this
        · rw [if_neg hc]
          by_cases hm : ∃ x ∈ l1, f x = h
          · rw [slotOf_append_of_mem f p l1 _ h hm, slotOf_append_of_mem f p l1 _ h hm]
          · have hm' : ∀ x ∈ l1, f x ≠ h := fun x hx hxe => hm ⟨x, hx, hxe⟩
            have hne : f e ≠ h := by
              intro heq
              apply hc
              refine ⟨heq.symm, ?_, hge⟩
              rw [heq]; exact hm'
            rw [slotOf_append_of_not_mem f p l1 _ h hm', slotOf_append_of_not_mem f p l1 _ h hm']
            simp [slotOf, hne, h1]

/-- The invariant after `e` has been unlinked and its node released. -/
theorem Inv.of_unlink {H : Traits K} {s : UnorderedMap K V} {l1 l2 : List (Entry K V)}
    {e : Entry K V} (hinv : Inv H s (l1 ++ e :: l2)) (m4 : Mem K V) (arr4 : Nat → Option Ptr)
    (hseg : Seg H m4 (.fake s.self) (l1 ++ l2) none)
    (hsl : ∀ h, arr4 h = slotOf (bkt H s.bucket_count) (.fake s.self) (l1 ++ l2) h) :
    Inv H { s with mem := m4, sz := s.sz - 1, arr := arr4 } (l1 ++ l2) := by
  have hsub : (l1 ++ l2).Sublist (l1 ++ e :: l2) :=
    List.Sublist.append_left (List.sublist_cons_self e l2) l1
  refine ⟨⟨hseg, ?_⟩, ?_, hinv.bc_pos, hinv.keys.sublist hsub, ?_, hsl⟩
  · exact hinv.chain.nodup.sublist (hsub.map _)
  · show s.sz - 1 = (l1 ++ l2).length
    rw [hinv.size]; simp
  · have := Grouped.erase_mid (l1.map (bkt H s.bucket_count)) (bkt H s.bucket_count e)
      (l2.map (bkt H s.bucket_count)) (by simpa using hinv.grouped)
    simpa using this

/-- Where the slot of the bucket of `e` points, and what the predecessor search returns. -/
theorem erase_slot_spec {H : Traits K} {s : UnorderedMap K V} {l1 l2 : List (Entry K V)}
    {e : Entry K V} (hinv : Inv H s (l1 ++ e :: l2)) (fuel : Nat)
    (hf : (l1 ++ e :: l2).length < fuel) :
    ∃ slot, s.arr (bkt H s.bucket_count e) = some slot ∧
      erase_loop s.mem e.ptr fuel (some slot) = .ok (lastPtr (.fake s.self) l1) ∧
      ((slot = lastPtr (.fake s.self) l1 ∧
          ∀ x ∈ l1, bkt H s.bucket_count x ≠ bkt H s.bucket_count e) ∨
       (slot ≠ lastPtr (.fake s.self) l1 ∧
          ∃ f ∈ l1, bkt H s.bucket_count f = bkt H s.bucket_count e ∧
            s.mem.next slot = .ok (some f.ptr))) := by
  have hseg := hinv.chain.seg
  have hnd := hinv.chain.nodup
  by_cases hm : ∃ x ∈ l1, bkt H s.bucket_count x = bkt H s.bucket_count e
  · have h1 := hinv.slots (bkt H s.bucket_count e)
    rw [slotOf_append_of_mem _ _ l1 _ _ hm] at h1
    cases hsl : slotOf (bkt H s.bucket_count) (Ptr.fake s.self) l1 (bkt H s.bucket_count e) with
    | none =>
      obtain ⟨x, hx, hxe⟩ := hm
      exact absurd hxe ((slotOf_eq_none_iff _ _ _ _).mp hsl x hx)
    | some slot =>
      obtain ⟨l0, f, mid, rfl, _, hf0, hsl0⟩ := slotOf_eq_some _ _ _ _ _ hsl
      subst hsl0
      have hseg' : Seg H s.mem (.fake s.self) (l0 ++ ((f :: mid) ++ e :: l2)) none := by
        simpa using hseg
      obtain ⟨_, hsA⟩ := (Seg_append _ l0 _ none).mp hseg'
      have hnd' : (l0.map Entry.addr ++ ((f :: mid).map Entry.addr ++ e.addr :: l2.map Entry.addr)).Nodup := by
        simpa using hnd
      have hndB := (List.nodup_append.mp hnd').2.1
      have hnotin : e.addr ∉ (f :: mid).map Entry.addr := fun hmem =>
        (List.nodup_append.mp hndB).2.2 hmem (List.mem_cons_self _ _)
      have hlen : (f :: mid).length < fuel := by
        simp only [List.length_append, List.length_cons] at hf ⊢
        omega
      have hloop := erase_loop_spec s.mem e l2 none (f :: mid) _ fuel hsA hnotin hlen
      refine ⟨_, by rw [h1, hsl], ?_, Or.inr ⟨?_, f, by simp, hf0, hsA.1⟩⟩
      · rw [hloop, lastPtr_append]
      · intro heq
        have hndp := nodup_ptr_of_addr hnd s.self
        have hndp' : ((Ptr.fake s.self :: l0.map Entry.ptr) ++
            ((f :: mid).map Entry.ptr ++ (e :: l2).map Entry.ptr)).Nodup := by
          simpa using hndp
        have hd := (List.nodup_append.mp hndp').2.2
        have h1 := lastPtr_mem (Ptr.fake s.self) l0
        have h2 : lastPtr (Ptr.fake s.self) (l0 ++ f :: mid) ∈ (f :: mid).map Entry.ptr := by
          rw [lastPtr_append]; exact lastPtr_cons_mem _ _ _
        rw [← heq] at h2
        exact hd h1 (List.mem_append_left _ h2)
  · have hm' : ∀ x ∈ l1, bkt H s.bucket_count x ≠ bkt H s.bucket_count e :=
      fun x hx hxe => hm ⟨x, hx, hxe⟩
    have h1 := hinv.slots (bkt H s.bucket_count e)
    rw [slotOf_append_of_not_mem _ _ l1 _ _ hm'] at h1
    simp only [slotOf, if_true] at h1
    obtain ⟨_, hsB⟩ := (Seg_append _ l1 _ none).mp hseg
    have hloop := erase_loop_spec s.mem e l2 none [] _ fuel hsB (by simp) (by
      simp only [List.length_nil]; omega)
    exact ⟨_, h1, hloop, Or.inl ⟨rfl, hm'⟩⟩

/-- Erasing the entry `e` unlinks it and keeps the invariant. -/
theorem erase_spec {H : Traits K} {s : UnorderedMap K V} {l1 l2 : List (Entry K V)}
    {e : Entry K V} (hinv : Inv H s (l1 ++ e :: l2)) (fuel : Nat)
    (hf : (l1 ++ e :: l2).length < fuel) :
    ∃ s', erase fuel s (some e.ptr) = .ok (s', nextOf l2 none) ∧ Inv H s' (l1 ++ l2) ∧
      s'.bucket_count = s.bucket_count ∧ s'.max_load = s.max_load ∧ s'.self = s.self ∧
      s'.sz = s.sz - 1 := by
  have hseg := hinv.chain.seg
  obtain ⟨hs1, hs2⟩ := (Seg_append (.fake s.self) l1 (e :: l2) none).mp hseg
  have he_node := hs2.2.1
  have hbc : s.bucket_count ≠ 0 := Nat.pos_iff_ne_zero.mp hinv.bc_pos
  have hGH : s.get_hash (Ptr.node e.addr) = .ok (bkt H s.bucket_count e) :=
    get_hash_of_node s e _ hinv.bc_pos he_node
  have hnx : s.mem.next (Ptr.node e.addr) = .ok (nextOf l2 none) := next_node_of _ _ _ he_node
  have hndp := nodup_ptr_of_addr hinv.chain.nodup s.self
  have hndp' : ((Ptr.fake s.self :: l1.map Entry.ptr) ++ (e :: l2).map Entry.ptr).Nodup := by
    simpa using hndp
  obtain ⟨hnd1, hnd2, hdisj⟩ := List.nodup_append.mp hndp'
  have hit_mem := lastPtr_mem (Ptr.fake s.self) l1
  obtain ⟨slot, harr, hloop, hcase⟩ := erase_slot_spec hinv fuel hf
  have hloop' : erase_loop s.mem (Ptr.node e.addr) fuel (some slot) =
      .ok (lastPtr (.fake s.self) l1) := hloop
  obtain ⟨m1, e1, hseg1, hfr1⟩ := hs1.set_last hnd1 (nextOf l2 none)
  have hl2 : Nodes H m1 l2 none := by
    refine hs2.2.2.frame_nodes hfr1 ?_
    intro x hx hmem
    have : x.ptr = lastPtr (Ptr.fake s.self) l1 := by simpa using hmem
    exact hdisj hit_mem (this ▸ List.mem_cons_of_mem _ (ptr_mem_map hx))
  have he1 : m1.node e.addr = some ⟨nextOf l2 none, (e.key, e.val), H.hash_func e.key⟩ := by
    rw [hfr1.1 e.addr (by
      intro hmem
      have : Ptr.node e.addr = lastPtr (Ptr.fake s.self) l1 := by simpa using hmem
      exact hdisj hit_mem (this ▸ List.mem_cons_self _ _))]
    exact he_node
  have hseg1' : Seg H m1 (.fake s.self) (l1 ++ l2) none :=
    (Seg_append _ l1 l2 none).mpr ⟨hseg1, hseg1.next_last, hl2⟩
  have hfr4 := frame_alloc m1 e.addr none
  have hseg4 := hseg1'.frame_seg hfr4 (by simp) (fun x hx hmem => by
    have hxe : x.ptr = Ptr.node e.addr := by simpa using hmem
    rcases List.mem_append.mp hx with hx | hx
    · exact hdisj (List.mem_cons_of_mem _ (ptr_mem_map hx)) (hxe ▸ List.mem_cons_self _ _)
    · exact (List.nodup_cons.mp hnd2).1 (by
        have := ptr_mem_map hx
        rw [hxe] at this
        exact this))
  have hdel : ForwardList.delete_node m1 (Ptr.node e.addr) =
      .ok { m1 with node := fun b => if b = e.addr then none else m1.node b } := by
    simp [ForwardList.delete_node, he1]
  have hslots := fun h => (slotOf_erase (bkt H s.bucket_count) (Ptr.fake s.self) l1 e l2
    hinv.grouped h).trans (by rw [← hinv.slots h])
  have hsz0 : s.sz ≠ 0 := by
    rw [hinv.size]; simp
  simp only [erase, Entry.ptr, hGH, harr, hloop', hnx, e1, bind, Except.bind, pure, Except.pure,
    set_arr, hsz0, if_false]
  -- what `arr[hash]->next` is after the unlinking
  have hfirst : (slot = lastPtr (.fake s.self) l1 ∧ m1.next slot = .ok (nextOf l2 none) ∧
        ∀ x ∈ l1, bkt H s.bucket_count x ≠ bkt H s.bucket_count e) ∨
      (∃ f : Entry K V, m1.next slot = .ok (some (Ptr.node f.addr)) ∧
        (∀ arr', get_hash { s with mem := m1, arr := arr' } (Ptr.node f.addr) =
          .ok (bkt H s.bucket_count e)) ∧
        ¬ ∀ x ∈ l1, bkt H s.bucket_count x ≠ bkt H s.bucket_count e) := by
    rcases hcase with ⟨h1, h2⟩ | ⟨h1, f, hfl, hfb, hfn⟩
    · exact Or.inl ⟨h1, h1 ▸ hseg1.next_last, h2⟩
    · refine Or.inr ⟨f, ?_, ?_, fun hall => hall f hfl hfb⟩
      · rw [hfr1.next slot (by simpa using h1)]; exact hfn
      · intro arr'
        obtain ⟨nx, hnf⟩ := hseg1.2.node_of_mem hfl
        rw [← hfb]
        exact get_hash_of_node (H := H) { s with mem := m1, arr := arr' } f nx hinv.bc_pos hnf
  cases l2 with
  | nil =>
    simp only [nextOf, harr]
    rcases hfirst with ⟨h1, h2, h3⟩ | ⟨f, h2, h3, h4⟩
    · simp only [nextOf] at h2
      refine ⟨_, ?_, Inv.of_unlink hinv _ (fun j => if j = bkt H s.bucket_count e then none else s.arr j)
        hseg4 ?_, rfl, rfl, rfl, rfl⟩
      · simp only [h2, set_arr]
        simp only [hdel, hsz0, if_false]
      · intro h
        rw [hslots h]
        have h3' : ∀ x ∈ l1, ¬ bkt H s.bucket_count x = bkt H s.bucket_count e := h3
        by_cases hh : h = bkt H s.bucket_count e
        · simp [hh]
          rw [if_pos h3']
        · simp [hh]
    · refine ⟨_, ?_, Inv.of_unlink hinv _ s.arr hseg4 ?_, rfl, rfl, rfl, rfl⟩
      · simp only [h2, h3 s.arr, if_true, ne_eq, not_true_eq_false, if_false]
        simp only [hdel, hsz0, if_false]
      · intro h
        rw [hslots h]
        by_cases hh : h = bkt H s.bucket_count e
        · have : ¬ ∀ x ∈ l1, ¬ bkt H s.bucket_count x = bkt H s.bucket_count e := h4
          simp [hh, this]
        · simp [hh]
  | cons g l2 =>
    have hg1 := hl2.1
    have hgh_g : ∀ arr', get_hash { s with mem := m1, arr := arr' } (Ptr.node g.addr) =
        .ok (bkt H s.bucket_count g) := fun arr' =>
      get_hash_of_node (H := H) { s with mem := m1, arr := arr' } g _ hinv.bc_pos hg1
    simp only [nextOf, Entry.ptr, hgh_g s.arr]
    by_cases hge : bkt H s.bucket_count g = bkt H s.bucket_count e
    · simp only [hge, ne_eq, not_true_eq_false, if_false, harr]
      refine ⟨_, ?_, Inv.of_unlink hinv _ s.arr hseg4 ?_, rfl, rfl, rfl, rfl⟩
      · rcases hfirst with ⟨h1, h2, h3⟩ | ⟨f, h2, h3, h4⟩
        · simp only [nextOf, Entry.ptr] at h2
          simp only [h2, hgh_g s.arr, hge, if_true, ne_eq, not_true_eq_false, if_false]
          simp only [hdel, hsz0, if_false]
        · simp only [h2, h3 s.arr, if_true, ne_eq, not_true_eq_false, if_false]
          simp only [hdel, hsz0, if_false]
      · intro h
        rw [hslots h]
        have c1 : ¬ (bkt H s.bucket_count e = h ∧ ¬ h = bkt H s.bucket_count e) :=
          fun hc => hc.2 hc.1.symm
        simp [hge, c1]
    · have hne' : ¬ bkt H s.bucket_count e = bkt H s.bucket_count g := fun h => hge h.symm
      simp only [hge, ne_eq, not_false_eq_true, if_true, set_arr, hne', if_false, harr]
      rcases hfirst with ⟨h1, h2, h3⟩ | ⟨f, h2, h3, h4⟩
      · simp only [nextOf, Entry.ptr] at h2
        refine ⟨_, ?_, Inv.of_unlink hinv _ (fun j => if j = bkt H s.bucket_count e then none else
          if j = bkt H s.bucket_count g then some (lastPtr (.fake s.self) l1) else s.arr j)
          hseg4 ?_, rfl, rfl, rfl, rfl⟩
        · simp only [h2, hgh_g, hge, ne_eq, not_false_eq_true, if_true, set_arr]
          simp only [hdel, hsz0, if_false]
        · intro h
          rw [hslots h]
          have h3' : ∀ x ∈ l1, ¬ bkt H s.bucket_count x = bkt H s.bucket_count e := h3
          by_cases hh : h = bkt H s.bucket_count e
          · simp [hh, hge, hne']
            rw [if_pos h3']
          · by_cases hh2 : h = bkt H s.bucket_count g
            · simp [hh2, hge]
            · have : ¬ bkt H s.bucket_count g = h := fun x => hh2 x.symm
              simp [hh, hh2, this]
      · refine ⟨_, ?_, Inv.of_unlink hinv _ (fun j =>
          if j = bkt H s.bucket_count g then some (lastPtr (.fake s.self) l1) else s.arr j)
          hseg4 ?_, rfl, rfl, rfl, rfl⟩
        · simp only [h2, h3, if_true, ne_eq, not_true_eq_false, if_false]
          simp only [hdel, hsz0, if_false]
        · intro h
          rw [hslots h]
          have h4' : ¬ ∀ x ∈ l1, ¬ bkt H s.bucket_count x = bkt H s.bucket_count e := h4
          by_cases hh2 : h = bkt H s.bucket_count g
          · simp [hh2, hge]
          · have : ¬ bkt H s.bucket_count g = h := fun x => hh2 x.symm
            simp [hh2, this, h4']

/-! ## Which addresses are live -/

theorem bind_ok {α β : Type} {x : Except Err α} {f : α → Except Err β} {r : β} :
    (x >>= f) = .ok r ↔ ∃ a, x = .ok a ∧ f a = .ok r := by
  cases x with
  | error e => simp [bind, Except.bind]
  | ok a => simp [bind, Except.bind]

theorem set_next_live {m m' : Mem K V} {p : Ptr} {x : Option Ptr} (h : m.set_next p x = .ok m')
    (b : Nat) : m'.node b = none ↔ m.node b = none := by
  cases p with
  | fake i =>
    simp only [Mem.set_next, Except.ok.injEq] at h
    subst h; rfl
  | node a =>
    cases hn : m.node a with
    | none => simp [Mem.set_next, hn] at h
    | some n =>
      simp only [Mem.set_next, hn, Except.ok.injEq] at h
      subst h
      by_cases hb : b = a
      · subst hb; simp [hn]
      · simp [hb]

theorem insert_next_live {m m' : Mem K V} {it elem : Ptr}
    (h : ForwardList.insert_next m it elem = .ok m') (b : Nat) :
    m'.node b = none ↔ m.node b = none := by
  simp only [ForwardList.insert_next, bind_ok] at h
  obtain ⟨n, _, m1, h1, h2⟩ := h
  exact (set_next_live h2 b).trans (set_next_live h1 b)

theorem fixed_rehash_loop_live : ∀ (fuel : Nat) (s : UnorderedMap K V) (last : Ptr) (it : Option Ptr)
    (r : UnorderedMap K V × Ptr), fixed_rehash_loop fuel s last it = .ok r →
    ∀ b, r.1.mem.node b = none ↔ s.mem.node b = none
  | 0, _, _, _, _, h => by simp [fixed_rehash_loop] at h
  | _ + 1, _, _, none, _, h => by
    simp only [fixed_rehash_loop, Except.ok.injEq] at h
    subst h; intro b; rfl
  | fuel + 1, s, last, some cur, r, h => by
    simp only [fixed_rehash_loop, bind_ok] at h
    obtain ⟨it, _, ind, _, h⟩ := h
    cases harr : s.arr ind with
    | some slot =>
      simp only [harr, bind_ok] at h
      obtain ⟨m1, h1, h2⟩ := h
      intro b
      exact (fixed_rehash_loop_live fuel _ _ _ _ h2 b).trans (insert_next_live h1 b)
    | none =>
      simp only [harr, bind_ok] at h
      obtain ⟨m1, h1, h2⟩ := h
      intro b
      exact (fixed_rehash_loop_live fuel _ _ _ _ h2 b).trans (set_next_live h1 b)

theorem fixed_rehash_live {fuel : Nat} {s s' : UnorderedMap K V} {count : Nat}
    (h : fixed_rehash fuel s count = .ok s') (b : Nat) :
    s'.mem.node b = none ↔ s.mem.node b = none := by
  have hgt : ¬ count > max_array_count := Nat.not_lt.mpr (fixed_rehash_ok_le h)
  simp only [fixed_rehash, hgt, if_false, bind_ok] at h
  obtain ⟨first, _, ⟨s1, last⟩, h1, m1, h2, h3⟩ := h
  simp only [pure, Except.pure, Except.ok.injEq] at h3
  subst h3
  exact (set_next_live h2 b).trans (fixed_rehash_loop_live _ _ _ _ _ h1 b)

theorem reallocate_live {fuel : Nat} {s s' : UnorderedMap K V}
    (h : reallocate fuel s = .ok s') (b : Nat) :
    s'.mem.node b = none ↔ s.mem.node b = none := by
  unfold reallocate at h
  split at h
  · exact fixed_rehash_live h b
  · simp only [pure, Except.pure, Except.ok.injEq] at h
    subst h; rfl

/-! ## More fuel does not change a result -/

theorem find_node_loop_mono {H : Traits K} (s : UnorderedMap K V) (key : K) (hash : Nat) :
    ∀ (fuel : Nat) (it : Option Ptr) (r : Option Ptr),
      find_node_loop H s key hash fuel it = .ok r →
      ∀ fuel', fuel ≤ fuel' → find_node_loop H s key hash fuel' it = .ok r
  | 0, _, _, h => by simp [find_node_loop] at h
  | fuel + 1, it, r, h => by
    intro fuel' hle
    obtain ⟨f', rfl⟩ : ∃ f', fuel' = f' + 1 := ⟨fuel' - 1, by omega⟩
    cases it with
    | none => simpa [find_node_loop] using h
    | some p =>
      simp only [find_node_loop, bind_ok] at h ⊢
      obtain ⟨hh, h1, h2⟩ := h
      refine ⟨hh, h1, ?_⟩
      by_cases hc : hh = hash
      · simp only [hc, if_true, bind_ok] at h2 ⊢
        obtain ⟨d, h3, h4⟩ := h2
        refine ⟨d, h3, ?_⟩
        by_cases hk : H.cmp_equal d.1 key = true
        · simpa [hk] using h4
        · have hk' : H.cmp_equal d.1 key = false := by simpa using hk
          simp only [hk', Bool.false_eq_true, if_false, bind_ok] at h4 ⊢
          obtain ⟨n, h5, h6⟩ := h4
          exact ⟨n, h5, find_node_loop_mono s key hash fuel n r h6 f' (by omega)⟩
      · simpa [hc] using h2

theorem find_node_mono {H : Traits K} {fuel fuel' : Nat} {s : UnorderedMap K V} {key : K}
    {hash : Nat} {r : Option Ptr} (h : find_node H fuel s key hash = .ok r) (hle : fuel ≤ fuel') :
    find_node H fuel' s key hash = .ok r := by
  unfold find_node at h ⊢
  cases harr : s.arr hash with
  | none => simpa [harr] using h
  | some slot =>
    simp only [harr, bind_ok] at h ⊢
    obtain ⟨first, h1, it, h2, h3⟩ := h
    exact ⟨first, h1, it, find_node_loop_mono s key hash fuel first it h2 fuel' hle, h3⟩

theorem find_mono {H : Traits K} {fuel fuel' : Nat} {s : UnorderedMap K V} {key : K}
    {r : Option Ptr} (h : find H fuel s key = .ok r) (hle : fuel ≤ fuel') :
    find H fuel' s key = .ok r := by
  unfold find at h ⊢
  split at h
  · cases h
  · rename_i hbc
    rw [if_neg hbc]
    exact find_node_mono h hle

theorem fixed_rehash_loop_mono : ∀ (fuel : Nat) (s : UnorderedMap K V) (last : Ptr)
    (it : Option Ptr) (r : UnorderedMap K V × Ptr), fixed_rehash_loop fuel s last it = .ok r →
    ∀ fuel', fuel ≤ fuel' → fixed_rehash_loop fuel' s last it = .ok r
  | 0, _, _, _, _, h => by simp [fixed_rehash_loop] at h
  | fuel + 1, s, last, it, r, h => by
    intro fuel' hle
    obtain ⟨f', rfl⟩ : ∃ f', fuel' = f' + 1 := ⟨fuel' - 1, by omega⟩
    cases it with
    | none => simpa [fixed_rehash_loop] using h
    | some cur =>
      simp only [fixed_rehash_loop, bind_ok] at h ⊢
      obtain ⟨it, h1, ind, h2, h⟩ := h
      refine ⟨it, h1, ind, h2, ?_⟩
      cases harr : s.arr ind with
      | some slot =>
        simp only [harr, bind_ok] at h ⊢
        obtain ⟨m1, h3, h4⟩ := h
        exact ⟨m1, h3, fixed_rehash_loop_mono fuel _ _ _ _ h4 f' (by omega)⟩
      | none =>
        simp only [harr, bind_ok] at h ⊢
        obtain ⟨m1, h3, h4⟩ := h
        exact ⟨m1, h3, fixed_rehash_loop_mono fuel _ _ _ _ h4 f' (by omega)⟩

theorem fixed_rehash_mono {fuel fuel' : Nat} {s s' : UnorderedMap K V} {count : Nat}
    (h : fixed_rehash fuel s count = .ok s') (hle : fuel ≤ fuel') :
    fixed_rehash fuel' s count = .ok s' := by
  have hgt : ¬ count > max_array_count := Nat.not_lt.mpr (fixed_rehash_ok_le h)
  simp only [fixed_rehash, hgt, if_false, bind_ok] at h ⊢
  obtain ⟨first, h0, r, h1, h2⟩ := h
  exact ⟨first, h0, r, fixed_rehash_loop_mono _ _ _ _ _ h1 _ hle, h2⟩

theorem reallocate_mono {fuel fuel' : Nat} {s s' : UnorderedMap K V}
    (h : reallocate fuel s = .ok s') (hle : fuel ≤ fuel') : reallocate fuel' s = .ok s' := by
  unfold reallocate at h ⊢
  split
  · rename_i hc
    rw [if_pos hc] at h
    exact fixed_rehash_mono h hle
  · rename_i hc
    rw [if_neg hc] at h
    exact h

theorem emplace_mono {H : Traits K} {fuel fuel' : Nat} {s : UnorderedMap K V} {a : Nat}
    {args : Option (K × V)} {r : UnorderedMap K V × Option Ptr × Bool}
    (h : emplace H fuel s a args = .ok r) (hle : fuel ≤ fuel') :
    emplace H fuel' s a args = .ok r := by
  simp only [emplace, bind_ok] at h ⊢
  obtain ⟨m1, h1, hash, h2, key, h3, it, h4, h5⟩ := h
  refine ⟨m1, h1, hash, h2, key, h3, it, find_node_mono h4 hle, ?_⟩
  cases it with
  | some p => exact h5
  | none =>
    simp only [bind_ok] at h5 ⊢
    obtain ⟨s2, h6, h7⟩ := h5
    refine ⟨s2, h6, ?_⟩
    cases harr : s2.arr hash with
    | none => simp [harr] at h7
    | some slot =>
      simp only [harr, bind_ok] at h7 ⊢
      obtain ⟨m3, h8, s4, h9, h10⟩ := h7
      exact ⟨m3, h8, s4, reallocate_mono h9 hle, h10⟩

theorem erase_loop_mono (m : Mem K V) (target : Ptr) :
    ∀ (fuel : Nat) (it : Option Ptr) (r : Ptr), erase_loop m target fuel it = .ok r →
    ∀ fuel', fuel ≤ fuel' → erase_loop m target fuel' it = .ok r
  | 0, _, _, h => by simp [erase_loop] at h
  | fuel + 1, it, r, h => by
    intro fuel' hle
    obtain ⟨f', rfl⟩ : ∃ f', fuel' = f' + 1 := ⟨fuel' - 1, by omega⟩
    cases it with
    | none => simp [erase_loop] at h
    | some p =>
      simp only [erase_loop, bind_ok] at h ⊢
      obtain ⟨n, h1, h2⟩ := h
      refine ⟨n, h1, ?_⟩
      by_cases hc : n = some target
      · simpa [hc] using h2
      · simp only [hc, if_false] at h2 ⊢
        exact erase_loop_mono m target fuel n r h2 f' (by omega)

theorem erase_mono {fuel fuel' : Nat} {s : UnorderedMap K V} {pos : Option Ptr}
    {r : UnorderedMap K V × Option Ptr} (h : erase fuel s pos = .ok r) (hle : fuel ≤ fuel') :
    erase fuel' s pos = .ok r := by
  cases pos with
  | none => simp [erase] at h
  | some item =>
    simp only [erase, bind_ok] at h ⊢
    obtain ⟨hash, h1, it, h2, h3⟩ := h
    exact ⟨hash, h1, it, erase_loop_mono _ _ _ _ _ h2 _ hle, h3⟩

theorem rehash_mono {fuel fuel' : Nat} {s s' : UnorderedMap K V} {count : Nat}
    (h : rehash fuel s count = .ok s') (hle : fuel ≤ fuel') : rehash fuel' s count = .ok s' := by
  simp only [rehash, bind_ok] at h ⊢
  obtain ⟨c, h1, h2⟩ := h
  exact ⟨c, h1, fixed_rehash_mono h2 hle⟩

theorem reserve_mono {fuel fuel' : Nat} {s s' : UnorderedMap K V} {count : Nat}
    (h : reserve fuel s count = .ok s') (hle : fuel ≤ fuel') : reserve fuel' s count = .ok s' := by
  simp only [reserve, bind_ok] at h ⊢
  obtain ⟨c, h1, h2⟩ := h
  refine ⟨c, h1, ?_⟩
  split
  · rename_i hc
    rw [if_pos hc] at h2
    exact fixed_rehash_mono h2 hle
  · rename_i hc
    rw [if_neg hc] at h2
    exact h2

theorem max_load_factor_mono {fuel fuel' : Nat} {s s' : UnorderedMap K V} {ml : F32}
    (h : max_load_factor fuel s ml = .ok s') (hle : fuel ≤ fuel') :
    max_load_factor fuel' s ml = .ok s' := by
  unfold max_load_factor at h ⊢
  simp only [bind_ok, pure, Except.pure] at h ⊢
  split
  · rename_i hc
    rw [if_pos hc] at h
    simp only [bind_ok] at h ⊢
    obtain ⟨c, h1, h2⟩ := h
    exact ⟨c, h1, fixed_rehash_mono h2 hle⟩
  · rename_i hc
    rw [if_neg hc] at h
    exact h

theorem traverse_from_mono (m : Mem K V) :
    ∀ (fuel : Nat) (it : Option Ptr) (r : List (Ptr × K × V)), traverse_from m fuel it = .ok r →
    ∀ fuel', fuel ≤ fuel' → traverse_from m fuel' it = .ok r
  | 0, _, _, h => by simp [traverse_from] at h
  | fuel + 1, it, r, h => by
    intro fuel' hle
    obtain ⟨f', rfl⟩ : ∃ f', fuel' = f' + 1 := ⟨fuel' - 1, by omega⟩
    cases it with
    | none => simpa [traverse_from] using h
    | some p =>
      simp only [traverse_from, bind_ok] at h ⊢
      obtain ⟨d, h1, n, h2, rest, h3, h4⟩ := h
      exact ⟨d, h1, n, h2, rest, traverse_from_mono m fuel n rest h3 f' (by omega), h4⟩

/-! ## Every reachable map satisfies the invariant -/

theorem Inv.init (H : Traits K) (mem : Mem K V) (self : Nat) :
    Inv H (init mem self) ([] : List (Entry K V)) := by
  refine ⟨⟨⟨?_, trivial⟩, List.nodup_nil⟩, rfl, Nat.one_pos, List.Pairwise.nil, trivial, fun _ => rfl⟩
  simp [UnorderedMap.init, Mem.next, nextOf]

theorem emplace_ok_inv {H : Traits K} (hH : H.Lawful) {s : UnorderedMap K V}
    {l : List (Entry K V)} (hinv : Inv H s l) {fuel a : Nat} {args : Option (K × V)}
    {r : UnorderedMap K V × Option Ptr × Bool} (h : emplace H fuel s a args = .ok r) :
    ∃ l', Inv H r.1 l' := by
  cases hnode : s.mem.node a with
  | some n =>
    simp [emplace, ForwardList.emplace_new_node, ForwardList.place_construct, hnode, bind,
      Except.bind] at h
  | none =>
    cases args with
    | none =>
      simp [emplace, ForwardList.emplace_new_node, ForwardList.place_construct, hnode, bind,
        Except.bind] at h
    | some kv =>
      obtain ⟨k, v⟩ := kv
      have hbig := emplace_mono h (Nat.le_max_left fuel (l.length + 2))
      have hfuel : l.length + 1 < max fuel (l.length + 2) := by
        have := Nat.le_max_right fuel (l.length + 2)
        omega
      cases hfind : chainFind H k l with
      | none =>
        obtain ⟨l', _, hinv', _⟩ := emplace_new_of_ok hH hinv a k v hnode hfind _ hfuel hbig
        exact ⟨l', hinv'⟩
      | some e =>
        have e1 := emplace_existing hH hinv a k v hnode e hfind (max fuel (l.length + 2)) (by omega)
        rw [e1] at hbig
        cases hbig
        exact ⟨l, hinv⟩

theorem IsPos.mem_chain {H : Traits K} {s : UnorderedMap K V} {l : List (Entry K V)}
    (hc : Chain H s l) {p : Ptr} (hp : IsPos s p) : ∃ e ∈ l, p = e.ptr := by
  obtain ⟨fuel, t, ht, hm⟩ := hp
  have hbig := traverse_from_mono s.mem fuel _ t ht (max fuel (l.length + 1)) (Nat.le_max_left _ _)
  have hspec := traversal_spec hc (max fuel (l.length + 1)) (by
    have := Nat.le_max_right fuel (l.length + 1)
    omega)
  have : t = l.map Entry.view := by
    have h2 : traversal (max fuel (l.length + 1)) s = .ok t := hbig
    rw [hspec] at h2
    cases h2; rfl
  subst this
  simp only [List.map_map, List.mem_map, Function.comp] at hm
  obtain ⟨e, he, hpe⟩ := hm
  exact ⟨e, he, hpe.symm⟩

theorem erase_ok_inv {H : Traits K} {s : UnorderedMap K V}
    {l : List (Entry K V)} (hinv : Inv H s l) {fuel : Nat} {p : Ptr}
    {r : UnorderedMap K V × Option Ptr} (hp : IsPos s p) (h : erase fuel s (some p) = .ok r) :
    ∃ l', Inv H r.1 l' := by
  obtain ⟨e, he, rfl⟩ := hp.mem_chain hinv.chain
  obtain ⟨l1, l2, rfl⟩ := List.append_of_mem he
  have hbig := erase_mono h (Nat.le_max_left fuel ((l1 ++ e :: l2).length + 1))
  obtain ⟨s', e1, hinv', _⟩ := erase_spec hinv (max fuel ((l1 ++ e :: l2).length + 1)) (by
    have := Nat.le_max_right fuel ((l1 ++ e :: l2).length + 1)
    omega)
  rw [e1] at hbig
  cases hbig
  exact ⟨_, hinv'⟩

theorem scaled_count_zero {s : UnorderedMap K V} {c : Nat} (h : s.scaled_count 0 = .ok c) :
    c = 1 := by
  unfold scaled_count at h
  cases hml : s.max_load with
  | fin b eb =>
    by_cases hb : b = 0
    · simp [hml, F32.ofNat, F32.div, hb, F32.toSizeT] at h
    · simp [hml, F32.ofNat, F32.div, hb, F32.toSizeT, pure, Except.pure] at h
      exact h.symm
  | pinf =>
    simp [hml, F32.ofNat, F32.div, F32.toSizeT, pure, Except.pure] at h
    exact h.symm
  | ninf =>
    simp [hml, F32.ofNat, F32.div, F32.toSizeT, pure, Except.pure] at h
    exact h.symm
  | nan => simp [hml, F32.ofNat, F32.div, F32.toSizeT] at h

theorem fixed_rehash_zero_fails {H : Traits K} {s s' : UnorderedMap K V} {e : Entry K V}
    {l : List (Entry K V)} (hc : Chain H s (e :: l)) {fuel : Nat}
    (h : fixed_rehash fuel s 0 = .ok s') : False := by
  have hfirst : s.mem.next (Ptr.fake s.self) = .ok (some (Ptr.node e.addr)) := hc.seg.1
  have hgt : ¬ 0 > max_array_count := Nat.not_lt.mpr (fixed_rehash_ok_le h)
  simp only [fixed_rehash, hgt, if_false, hfirst, bind_ok] at h
  obtain ⟨first, h0, r, h1, _⟩ := h
  cases h0
  cases fuel with
  | zero => simp [fixed_rehash_loop] at h1
  | succ f =>
    simp only [fixed_rehash_loop, bind_ok, get_hash] at h1
    obtain ⟨_, _, _, ⟨_, _, h2⟩, _⟩ := h1
    simp at h2

theorem fixed_rehash_ok_inv {H : Traits K} (hH : H.Lawful) {s s' : UnorderedMap K V}
    {l : List (Entry K V)} (hinv : Inv H s l) {fuel count : Nat}
    (hcount : l = [] → 0 < count) (h : fixed_rehash fuel s count = .ok s') :
    ∃ l', Inv H s' l' := by
  have hpos : 0 < count := by
    cases l with
    | nil => exact hcount rfl
    | cons e l =>
      rcases Nat.eq_zero_or_pos count with hz | hz
      · subst hz
        exact (fixed_rehash_zero_fails hinv.chain h).elim
      · exact hz
  have hbig := fixed_rehash_mono h (Nat.le_max_left fuel (l.length + 1))
  obtain ⟨s2, l', e1, hinv', _⟩ := fixed_rehash_spec hH hinv.chain hinv.size hinv.keys count hpos
    (fixed_rehash_ok_le h) (max fuel (l.length + 1)) (by
      have := Nat.le_max_right fuel (l.length + 1)
      omega)
  rw [e1] at hbig
  cases hbig
  exact ⟨l', hinv'⟩

theorem Inv.with_max_load {H : Traits K} {s : UnorderedMap K V} {l : List (Entry K V)}
    (hinv : Inv H s l) (ml : F32) : Inv H { s with max_load := ml } l :=
  ⟨⟨hinv.chain.seg, hinv.chain.nodup⟩, hinv.size, hinv.bc_pos, hinv.keys, hinv.grouped, hinv.slots⟩

/-- Every reachable map satisfies the representation invariant for some chain. -/
theorem Reachable.inv {H : Traits K} (hH : H.Lawful) {s : UnorderedMap K V}
    (hr : Reachable H s) : ∃ l, Inv H s l := by
  induction hr with
  | init mem self => exact ⟨[], Inv.init H mem self⟩
  | emplace _ h ih =>
    obtain ⟨l, hinv⟩ := ih
    exact emplace_ok_inv hH hinv h
  | insert _ h ih =>
    obtain ⟨l, hinv⟩ := ih
    exact emplace_ok_inv hH hinv h
  | index inst _ h ih =>
    obtain ⟨l, hinv⟩ := ih
    simp only [UnorderedMap.index, bind_ok] at h
    obtain ⟨⟨s1, it, b⟩, h1, h2⟩ := h
    obtain ⟨l', hinv'⟩ := emplace_ok_inv hH hinv h1
    cases it with
    | none => simp at h2
    | some p =>
      simp only [bind_ok, pure, Except.pure, Except.ok.injEq] at h2
      obtain ⟨d, _, h3⟩ := h2
      subst h3
      exact ⟨l', hinv'⟩
  | erase _ hp h ih =>
    obtain ⟨l, hinv⟩ := ih
    exact erase_ok_inv hinv hp h
  | @rehash s s' fuel count _ h ih =>
    obtain ⟨l, hinv⟩ := ih
    simp only [UnorderedMap.rehash, bind_ok] at h
    obtain ⟨c, h1, h2⟩ := h
    refine fixed_rehash_ok_inv hH hinv ?_ h2
    intro hl
    subst hl
    have hsz : s.sz = 0 := hinv.size
    rw [hsz] at h1
    have := scaled_count_zero h1
    omega
  | @reserve s s' fuel count _ h ih =>
    obtain ⟨l, hinv⟩ := ih
    simp only [UnorderedMap.reserve, bind_ok] at h
    obtain ⟨c, h1, h2⟩ := h
    split at h2
    · rename_i hc
      exact fixed_rehash_ok_inv hH hinv (fun _ => by omega) h2
    · simp only [pure, Except.pure, Except.ok.injEq] at h2
      subst h2
      exact ⟨l, hinv⟩
  | @max_load_factor s s' fuel ml _ h ih =>
    obtain ⟨l, hinv⟩ := ih
    unfold UnorderedMap.max_load_factor at h
    simp only [pure, Except.pure] at h
    split at h
    · simp only [bind_ok] at h
      obtain ⟨c, h1, h2⟩ := h
      refine fixed_rehash_ok_inv hH (hinv.with_max_load ml) ?_ h2
      intro hl
      subst hl
      have hsz : s.sz = 0 := hinv.size
      simp only [hsz] at h1
      have := scaled_count_zero h1
      omega
    · simp only [Except.ok.injEq] at h
      subst h
      exact ⟨l, hinv.with_max_load ml⟩

/-! ## Consequences of the invariant for the claims -/

theorem chainFind_unique {H : Traits K} (hH : H.Lawful) {l : List (Entry K V)}
    (hk : l.Pairwise (fun x y => H.cmp_equal x.key y.key = false)) {e : Entry K V} (he : e ∈ l)
    {k : K} (hek : H.cmp_equal e.key k = true) : chainFind H k l = some e := by
  cases hc : chainFind H k l with
  | none =>
    have := (chainFind_eq_none_iff H k l).mp hc e he
    rw [hek] at this; cases this
  | some e' =>
    obtain ⟨he', hek'⟩ := chainFind_some hc
    by_cases heq : e' = e
    · rw [heq]
    · have hsym : Symmetric (fun x y : Entry K V => H.cmp_equal x.key y.key = false) :=
        fun x y h => keys_rel_symm hH h
      have hne := hk.forall hsym he' he heq
      have : H.cmp_equal e'.key e.key = true := hH.trans _ _ _ hek' (hH.symm _ _ hek)
      rw [this] at hne; cases hne

theorem find_view (H : Traits K) (k : K) (l : List (Entry K V)) :
    ((l.map Entry.view).find? (fun x => H.cmp_equal x.2.1 k)).map (fun x => x.1) =
      (chainFind H k l).map Entry.ptr := by
  induction l with
  | nil => rfl
  | cons e l ih =>
    by_cases hk : H.cmp_equal e.key k = true
    · simp [chainFind, List.find?_cons, Entry.view, hk]
    · have hk' : H.cmp_equal e.key k = false := by simpa using hk
      simp only [chainFind, List.map_cons, List.find?_cons, Entry.view, hk'] at ih ⊢
      exact ih

theorem mem_view_iff {l : List (Entry K V)} {p : Ptr} {k : K} {v : V} :
    (p, k, v) ∈ l.map Entry.view ↔ ∃ e ∈ l, e.ptr = p ∧ e.key = k ∧ e.val = v := by
  simp [Entry.view, List.mem_map]

theorem get_data_of_mem {H : Traits K} {s : UnorderedMap K V} {l : List (Entry K V)}
    (hinv : Inv H s l) {e : Entry K V} (he : e ∈ l) :
    ForwardList.get_data s.mem e.ptr = .ok (e.key, e.val) := by
  obtain ⟨nx, hn⟩ := hinv.chain.seg.2.node_of_mem he
  exact get_data_of_node (H := H) s.mem e nx hn

theorem at_spec {H : Traits K} (hH : H.Lawful) {s : UnorderedMap K V} {l : List (Entry K V)}
    (hinv : Inv H s l) (k : K) (fuel : Nat) (hf : l.length < fuel) :
    UnorderedMap.at H fuel s k =
      match chainFind H k l with
      | some e => .ok e.val
      | none => .error .out_of_range := by
  have hfind := find_spec hH hinv k fuel hf
  cases hc : chainFind H k l with
  | none =>
    rw [hc] at hfind
    simp [UnorderedMap.at, hfind, bind, Except.bind]
  | some e =>
    rw [hc] at hfind
    have hd := get_data_of_mem hinv (chainFind_some hc).1
    simp [UnorderedMap.at, hfind, bind, Except.bind, hd, pure, Except.pure]

theorem natTraits_lawful : natTraits.Lawful := by
  refine ⟨?_, ?_, ?_, ?_⟩
  · intro a; simp [natTraits]
  · intro a b h; simp [natTraits] at h ⊢; exact h.symm
  · intro a b c h1 h2; simp [natTraits] at h1 h2 ⊢; exact h1.trans h2
  · intro a b h; simp [natTraits] at h ⊢; exact h

theorem map1_eq : emplace natTraits 8 map0 1 (some (1, 10)) = .ok (map1, some (.node 1), true) := rfl

theorem map1_reachable : Reachable natTraits map1 :=
  Reachable.emplace (r := (map1, some (.node 1), true)) (Reachable.init emptyMem 0) map1_eq

theorem map2_eq : emplace natTraits 8 map1 2 (some (2, 20)) = .ok (map2, some (.node 2), true) := rfl

theorem map2_reachable : Reachable natTraits map2 :=
  Reachable.emplace (r := (map2, some (.node 2), true)) map1_reachable map2_eq

end UnorderedMap

/-! ## The claims -/

namespace UnorderedMap

variable {K V : Type}

/-- C1: on every reachable map, with a hash consistent with the key equality,
`find(k)` is the linear search of the whole chain: it returns the position of
the entry whose key equals `k` when the chain has one, and `end()` otherwise. -/
theorem find_agrees_with_chain_search {H : Traits K} (hH : H.Lawful) {s : UnorderedMap K V}
    (hr : Reachable H s) (k : K) (fuel : Nat) (hf : s.sz < fuel) :
    ∃ t, traversal fuel s = .ok t ∧
      find H fuel s k = .ok ((t.find? (fun x => H.cmp_equal x.2.1 k)).map (fun x => x.1)) ∧
      (∀ p, find H fuel s k = .ok (some p) ↔
        ∃ key v, (p, key, v) ∈ t ∧ H.cmp_equal key k = true) ∧
      (find H fuel s k = .ok none ↔ ∀ x ∈ t, H.cmp_equal x.2.1 k = false) := by
  obtain ⟨l, hinv⟩ := hr.inv hH
  have hlen : l.length < fuel := by rw [← hinv.size]; exact hf
  have hfind := find_spec hH hinv k fuel hlen
  refine ⟨l.map Entry.view, traversal_spec hinv.chain fuel hlen, ?_, ?_, ?_⟩
  · rw [hfind, find_view]
  · intro p
    rw [hfind]
    constructor
    · intro h
      cases hc : chainFind H k l with
      | none => rw [hc] at h; cases h
      | some e =>
        rw [hc] at h
        have hp : e.ptr = p := by simpa using h
        obtain ⟨he, hek⟩ := chainFind_some hc
        exact ⟨e.key, e.val, mem_view_iff.mpr ⟨e, he, hp, rfl, rfl⟩, hek⟩
    · rintro ⟨key, v, hm, hk⟩
      obtain ⟨e, he, rfl, rfl, rfl⟩ := mem_view_iff.mp hm
      rw [chainFind_unique hH hinv.keys he hk]
      rfl
  · rw [hfind]
    constructor
    · intro h
      have hc : chainFind H k l = none := by
        cases hc : chainFind H k l with
        | none => rfl
        | some e => rw [hc] at h; cases h
      intro x hx
      obtain ⟨e, he, rfl⟩ := List.mem_map.mp hx
      exact (chainFind_eq_none_iff H k l).mp hc e he
    · intro h
      have hc : chainFind H k l = none := by
        rw [chainFind_eq_none_iff]
        intro e he
        exact h e.view (List.mem_map.mpr ⟨e, he, rfl⟩)
      rw [hc]; rfl

/-- Witness of C1 on the two-entry map `map2`, for the key 2. -/
theorem find_agrees_with_chain_search_witness :
    ∃ t, traversal 8 map2 = .ok t ∧
      find natTraits 8 map2 2 =
        .ok ((t.find? (fun x => natTraits.cmp_equal x.2.1 2)).map (fun x => x.1)) ∧
      (∀ p, find natTraits 8 map2 2 = .ok (some p) ↔
        ∃ key v, (p, key, v) ∈ t ∧ natTraits.cmp_equal key 2 = true) ∧
      (find natTraits 8 map2 2 = .ok none ↔ ∀ x ∈ t, natTraits.cmp_equal x.2.1 2 = false) :=
  find_agrees_with_chain_search natTraits_lawful map2_reachable 2 8 (by decide)

/-- C3: re-inserting a present key is a no-op: `emplace` and `insert` return the
stored entry with `false` and the whole container state is unchanged. -/
theorem emplace_present_key_noop {H : Traits K} (hH : H.Lawful) {s : UnorderedMap K V}
    (hr : Reachable H s) (k : K) (v : V) (a : Nat) (fuel : Nat)
    (ha : s.mem.node a = none) (hf : s.sz < fuel) (p : Ptr)
    (hpres : find H fuel s k = .ok (some p)) :
    emplace H fuel s a (some (k, v)) = .ok (s, some p, false) ∧
      insert H fuel s a (some (k, v)) = .ok (s, some p, false) := by
  obtain ⟨l, hinv⟩ := hr.inv hH
  have hlen : l.length < fuel := by rw [← hinv.size]; exact hf
  have hfs := find_spec hH hinv k fuel hlen
  rw [hpres] at hfs
  cases hc : chainFind H k l with
  | none => rw [hc] at hfs; cases hfs
  | some e =>
    rw [hc] at hfs
    have hpe : p = e.ptr := by
      simp only [Option.map_some', Except.ok.injEq, Option.some.injEq] at hfs
      exact hfs
    have := emplace_existing hH hinv a k v ha e hc fuel hlen
    rw [hpe]
    exact ⟨this, this⟩

/-- Witness of C3: `emplace(1, 99)` and `insert({1, 99})` on `map2`, which holds the key 1. -/
theorem emplace_present_key_noop_witness :
    emplace natTraits 8 map2 3 (some (1, 99)) = .ok (map2, some (Ptr.node 1), false) ∧
      insert natTraits 8 map2 3 (some (1, 99)) = .ok (map2, some (Ptr.node 1), false) :=
  emplace_present_key_noop natTraits_lawful map2_reachable 1 99 3 8 rfl (by decide) (Ptr.node 1) rfl

/-- C5: after `erase(pos)` of the entry with key `k`, `find(k)` is `end()`, and
every other key found before is found at the same entry with the same pair. -/
theorem erase_then_find {H : Traits K} (hH : H.Lawful) {s : UnorderedMap K V}
    (hr : Reachable H s) (fuel : Nat) (hf : s.sz < fuel) (t : List (Ptr × K × V))
    (ht : traversal fuel s = .ok t) (pos : Ptr) (k : K) (v : V) (hpos : (pos, k, v) ∈ t) :
    ∃ s' nxt, erase fuel s (some pos) = .ok (s', nxt) ∧
      find H fuel s' k = .ok none ∧
      ∀ k' p, H.cmp_equal k' k = false → find H fuel s k' = .ok (some p) →
        find H fuel s' k' = .ok (some p) ∧
        ForwardList.get_data s'.mem p = ForwardList.get_data s.mem p := by
  obtain ⟨l, hinv⟩ := hr.inv hH
  have hlen : l.length < fuel := by rw [← hinv.size]; exact hf
  have hts := traversal_spec hinv.chain fuel hlen
  rw [ht] at hts
  cases hts
  obtain ⟨e, he, rfl, rfl, rfl⟩ := mem_view_iff.mp hpos
  obtain ⟨l1, l2, rfl⟩ := List.append_of_mem he
  obtain ⟨s', e1, hinv', _, _, _, _⟩ := erase_spec hinv fuel hlen
  have hlen' : (l1 ++ l2).length < fuel := by
    simp only [List.length_append, List.length_cons] at hlen ⊢
    omega
  have hsym : Symmetric (fun x y : Entry K V => H.cmp_equal x.key y.key = false) :=
    fun x y h => keys_rel_symm hH h
  have hne : ∀ x ∈ l1 ++ l2, x ≠ e := by
    intro x hx hxe
    subst hxe
    have hnd := hinv.chain.nodup
    simp only [List.map_append, List.map_cons] at hnd
    have h1 := List.nodup_append.mp hnd
    rcases List.mem_append.mp hx with hx | hx
    · exact h1.2.2 (List.mem_map.mpr ⟨x, hx, rfl⟩) (List.mem_cons_self _ _)
    · exact (List.nodup_cons.mp h1.2.1).1 (List.mem_map.mpr ⟨x, hx, rfl⟩)
  have hsub : ∀ x ∈ l1 ++ l2, x ∈ l1 ++ e :: l2 := by
    intro x hx
    simp only [List.mem_append, List.mem_cons] at hx ⊢
    tauto
  refine ⟨s', nextOf l2 none, e1, ?_, ?_⟩
  · rw [find_spec hH hinv' e.key fuel hlen']
    have : chainFind H e.key (l1 ++ l2) = none := by
      rw [chainFind_eq_none_iff]
      intro x hx
      exact hinv.keys.forall hsym (hsub x hx) he (hne x hx)
    rw [this]; rfl
  · intro k' p hk' hp
    have hfs := find_spec hH hinv k' fuel hlen
    rw [hp] at hfs
    cases hc : chainFind H k' (l1 ++ e :: l2) with
    | none => rw [hc] at hfs; cases hfs
    | some e' =>
      rw [hc] at hfs
      have hpe : p = e'.ptr := by
        simp only [Option.map_some', Except.ok.injEq, Option.some.injEq] at hfs
        exact hfs
      obtain ⟨he', hek'⟩ := chainFind_some hc
      have hee : e' ≠ e := by
        intro heq
        rw [heq] at hek'
        rw [hH.symm _ _ hek'] at hk'
        cases hk'
      have he'' : e' ∈ l1 ++ l2 := by
        simp only [List.mem_append, List.mem_cons] at he' ⊢
        tauto
      refine ⟨?_, ?_⟩
      · rw [find_spec hH hinv' k' fuel hlen', chainFind_unique hH hinv'.keys he'' hek', hpe]; rfl
      · rw [hpe, get_data_of_mem hinv' he'', get_data_of_mem hinv he']

/-- Witness of C5: erasing the entry of key 1 from `map2`. -/
theorem erase_then_find_witness :
    ∃ s' nxt, erase 8 map2 (some (Ptr.node 1)) = .ok (s', nxt) ∧
      find natTraits 8 s' 1 = .ok none ∧
      ∀ k' p, natTraits.cmp_equal k' 1 = false → find natTraits 8 map2 k' = .ok (some p) →
        find natTraits 8 s' k' = .ok (some p) ∧
        ForwardList.get_data s'.mem p = ForwardList.get_data map2.mem p :=
  erase_then_find natTraits_lawful map2_reachable 8 (by decide)
    [(Ptr.node 2, 2, 20), (Ptr.node 1, 1, 10)] rfl (Ptr.node 1) 1 10 (by simp)

theorem nextOf_eq_head_view (l : List (Entry K V)) :
    nextOf l none = (l.map Entry.view).head?.map (fun x => x.1) := by
  cases l <;> rfl

/-- C6: `erase(pos)` returns the position that followed `pos` in the chain
(`end()` after the last entry), takes one off the size, keeps the bucket count,
and the traversal afterwards is the old one without that entry, in the same order. -/
theorem erase_returns_next {H : Traits K} (hH : H.Lawful) {s : UnorderedMap K V}
    (hr : Reachable H s) (fuel : Nat) (hf : s.sz < fuel) (t1 t2 : List (Ptr × K × V))
    (pos : Ptr) (k : K) (v : V) (ht : traversal fuel s = .ok (t1 ++ (pos, k, v) :: t2)) :
    ∃ s', erase fuel s (some pos) = .ok (s', t2.head?.map (fun x => x.1)) ∧
      s'.size + 1 = s.size ∧ s'.bucket_count = s.bucket_count ∧
      traversal fuel s' = .ok (t1 ++ t2) := by
  obtain ⟨l, hinv⟩ := hr.inv hH
  have hlen : l.length < fuel := by rw [← hinv.size]; exact hf
  have hts := traversal_spec hinv.chain fuel hlen
  rw [ht] at hts
  have hmap : l.map Entry.view = t1 ++ (pos, k, v) :: t2 := (Except.ok.inj hts).symm
  obtain ⟨l1, r, rfl, h1, h2⟩ := List.map_eq_append_iff.mp hmap
  obtain ⟨e, l2, rfl, h3, h4⟩ := List.map_eq_cons_iff.mp h2
  have hpe : e.ptr = pos := by
    have := congrArg (fun x => x.1) h3
    simpa [Entry.view] using this
  obtain ⟨s', e1, hinv', hbc, _, _, hsz⟩ := erase_spec hinv fuel hlen
  have hlen' : (l1 ++ l2).length < fuel := by
    simp only [List.length_append, List.length_cons] at hlen ⊢
    omega
  refine ⟨s', ?_, ?_, hbc, ?_⟩
  · rw [← hpe, e1, nextOf_eq_head_view, h4]
  · show s'.sz + 1 = s.sz
    rw [hsz, hinv.size]
    simp only [List.length_append, List.length_cons]
    omega
  · rw [traversal_spec hinv'.chain fuel hlen', List.map_append, h1, h4]

/-- Witness of C6: erasing the first entry of `map2`, whose traversal is
`[(node 2, 2, 20), (node 1, 1, 10)]`. -/
theorem erase_returns_next_witness :
    ∃ s', erase 8 map2 (some (Ptr.node 2)) =
        .ok (s', [(Ptr.node 1, 1, 10)].head?.map (fun x => x.1)) ∧
      s'.size + 1 = map2.size ∧ s'.bucket_count = map2.bucket_count ∧
      traversal 8 s' = .ok ([] ++ [(Ptr.node 1, 1, 10)]) :=
  erase_returns_next natTraits_lawful map2_reachable 8 (by decide) []
    [(Ptr.node 1, 1, 10)] (Ptr.node 2) 2 20 rfl

/-- C7: `at(k)` returns the value stored for `k` when `k` is present and throws
`std::out_of_range` exactly when `k` is absent; it is a function of the state
alone and yields no new state. -/
theorem at_returns_value_or_throws {H : Traits K} (hH : H.Lawful) {s : UnorderedMap K V}
    (hr : Reachable H s) (k : K) (fuel : Nat) (hf : s.sz < fuel) :
    ∃ t, traversal fuel s = .ok t ∧
      (∀ v, UnorderedMap.at H fuel s k = .ok v ↔ ∃ p key, (p, key, v) ∈ t ∧ H.cmp_equal key k = true) ∧
      (UnorderedMap.at H fuel s k = .error .out_of_range ↔ ∀ x ∈ t, H.cmp_equal x.2.1 k = false) := by
  obtain ⟨l, hinv⟩ := hr.inv hH
  have hlen : l.length < fuel := by rw [← hinv.size]; exact hf
  have hat := at_spec hH hinv k fuel hlen
  refine ⟨l.map Entry.view, traversal_spec hinv.chain fuel hlen, ?_, ?_⟩
  · intro v
    constructor
    · intro h
      rw [hat] at h
      cases hc : chainFind H k l with
      | none => rw [hc] at h; cases h
      | some e =>
        rw [hc] at h
        have hv : e.val = v := by simpa using h
        obtain ⟨he, hek⟩ := chainFind_some hc
        exact ⟨e.ptr, e.key, mem_view_iff.mpr ⟨e, he, rfl, rfl, hv⟩, hek⟩
    · rintro ⟨p, key, hm, hk⟩
      obtain ⟨e, he, rfl, rfl, rfl⟩ := mem_view_iff.mp hm
      rw [hat, chainFind_unique hH hinv.keys he hk]
  · constructor
    · intro h
      rw [hat] at h
      have hc : chainFind H k l = none := by
        cases hc : chainFind H k l with
        | none => rfl
        | some e => rw [hc] at h; cases h
      intro x hx
      obtain ⟨e, he, rfl⟩ := List.mem_map.mp hx
      exact (chainFind_eq_none_iff H k l).mp hc e he
    · intro h
      have hc : chainFind H k l = none := by
        rw [chainFind_eq_none_iff]
        intro e he
        exact h e.view (List.mem_map.mpr ⟨e, he, rfl⟩)
      rw [hat, hc]

/-- Witness of C7 on `map2` for the absent key 7. -/
theorem at_returns_value_or_throws_witness :
    ∃ t, traversal 8 map2 = .ok t ∧
      (∀ v, UnorderedMap.at natTraits 8 map2 7 = .ok v ↔
        ∃ p key, (p, key, v) ∈ t ∧ natTraits.cmp_equal key 7 = true) ∧
      (UnorderedMap.at natTraits 8 map2 7 = .error .out_of_range ↔
        ∀ x ∈ t, natTraits.cmp_equal x.2.1 7 = false) :=
  at_returns_value_or_throws natTraits_lawful map2_reachable 7 8 (by decide)

theorem emplace_new_node_other {H : Traits K} {m m1 : Mem K V} {a : Nat} {args : Option (K × V)}
    (h : ForwardList.emplace_new_node H m a args = .ok m1) (b : Nat) (hb : b ≠ a) :
    m1.node b = m.node b := by
  simp only [ForwardList.emplace_new_node, ForwardList.place_construct, bind_ok] at h
  obtain ⟨m0, h0, h1⟩ := h
  cases hn : m.node a with
  | some n => simp [hn] at h0
  | none =>
    cases args with
    | none => simp [hn] at h0
    | some d =>
      simp only [hn, Except.ok.injEq] at h0
      subst h0
      simp only [if_true, pure, Except.pure, Except.ok.injEq] at h1
      subst h1
      simp [hb]

theorem delete_node_live {m m' : Mem K V} {p : Ptr} (h : ForwardList.delete_node m p = .ok m')
    (b : Nat) (hb : m.node b = none) : m'.node b = none := by
  cases p with
  | fake i => simp [ForwardList.delete_node] at h
  | node a =>
    cases hn : m.node a with
    | none => simp [ForwardList.delete_node, hn] at h
    | some n =>
      simp only [ForwardList.delete_node, hn, Except.ok.injEq] at h
      subst h
      by_cases hba : b = a
      · simp [hba]
      · simp [hba, hb]

theorem emplace_live {H : Traits K} {fuel : Nat} {s : UnorderedMap K V} {a : Nat}
    {args : Option (K × V)} {r : UnorderedMap K V × Option Ptr × Bool}
    (h : emplace H fuel s a args = .ok r) (b : Nat) (hb : b ≠ a) (hfree : s.mem.node b = none) :
    r.1.mem.node b = none := by
  simp only [emplace, bind_ok] at h
  obtain ⟨m1, h1, hash, _, key, _, it, _, h5⟩ := h
  have hm1 : m1.node b = none := by rw [emplace_new_node_other h1 b hb]; exact hfree
  cases it with
  | some p =>
    simp only [bind_ok, pure, Except.pure, Except.ok.injEq] at h5
    obtain ⟨m2, h6, h7⟩ := h5
    subst h7
    exact delete_node_live h6 b hm1
  | none =>
    simp only [bind_ok] at h5
    obtain ⟨s2, h6, h7⟩ := h5
    have hs2 : s2.mem = m1 := by
      cases harr : s.arr hash with
      | some slot =>
        simp only [harr, pure, Except.pure, Except.ok.injEq] at h6
        subst h6; rfl
      | none =>
        simp only [harr, bind_ok, pure, Except.pure, Except.ok.injEq] at h6
        obtain ⟨s1a, h8, h9⟩ := h6
        subst h9
        cases hfk : m1.fake_node s.self with
        | none =>
          simp only [hfk, Except.ok.injEq] at h8
          subst h8; rfl
        | some f =>
          simp only [hfk, bind_ok, Except.ok.injEq] at h8
          obtain ⟨hf, _, h10⟩ := h8
          subst h10; rfl
    cases harr2 : s2.arr hash with
    | none => simp [harr2] at h7
    | some slot =>
      simp only [harr2, bind_ok, pure, Except.pure, Except.ok.injEq] at h7
      obtain ⟨m3, h8, s4, h9, h10⟩ := h7
      subst h10
      rw [reallocate_live h9 b]
      show m3.node b = none
      rw [insert_next_live h8 b, hs2]
      exact hm1

theorem erase_live {fuel : Nat} {s : UnorderedMap K V} {pos : Option Ptr}
    {r : UnorderedMap K V × Option Ptr} (h : erase fuel s pos = .ok r) (b : Nat)
    (hfree : s.mem.node b = none) : r.1.mem.node b = none := by
  cases pos with
  | none => simp [erase] at h
  | some item =>
    simp only [erase, bind_ok] at h
    obtain ⟨hash, _, it, _, next_elem, _, m1, h1, s2, h2, h3⟩ := h
    have hm1 : m1.node b = none := by rw [set_next_live h1 b]; exact hfree
    have hs2 : s2.mem = m1 := by
      cases next_elem with
      | none =>
        simp only [pure, Except.pure, Except.ok.injEq] at h2
        subst h2; rfl
      | some ne =>
        simp only [bind_ok, pure, Except.pure] at h2
        obtain ⟨hn, _, h4⟩ := h2
        split at h4 <;> (simp only [Except.ok.injEq] at h4; subst h4; rfl)
    cases harr : s2.arr hash with
    | none => simp [harr] at h3
    | some slot =>
      simp only [harr, bind_ok, pure, Except.pure, Except.ok.injEq] at h3
      obtain ⟨first, _, s3, h4, m4, h5, h6⟩ := h3
      subst h6
      have hs3 : s3.mem = m1 := by
        cases first with
        | none =>
          simp only [Except.ok.injEq] at h4
          subst h4; exact hs2
        | some f =>
          simp only [bind_ok] at h4
          obtain ⟨hf, _, h7⟩ := h4
          split at h7 <;> (simp only [Except.ok.injEq] at h7; subst h7; exact hs2)
      rw [hs3] at h5
      exact delete_node_live h5 b hm1

/-! ## Scripts -/

theorem any_of_chainFind_some {H : Traits K} {l : List (Entry K V)} {ks : List K}
    (hp : ks.Perm (l.map Entry.key)) {k : K} {e : Entry K V} (hc : chainFind H k l = some e) :
    ks.any (fun x => H.cmp_equal x k) = true := by
  obtain ⟨he, hek⟩ := chainFind_some hc
  rw [List.any_eq_true]
  exact ⟨e.key, hp.symm.subset (List.mem_map.mpr ⟨e, he, rfl⟩), hek⟩

theorem any_of_chainFind_none {H : Traits K} {l : List (Entry K V)} {ks : List K}
    (hp : ks.Perm (l.map Entry.key)) {k : K} (hc : chainFind H k l = none) :
    ks.any (fun x => H.cmp_equal x k) = false := by
  cases h : ks.any (fun x => H.cmp_equal x k) with
  | false => rfl
  | true =>
    rw [List.any_eq_true] at h
    obtain ⟨x, hx, hxk⟩ := h
    obtain ⟨e, he, rfl⟩ := List.mem_map.mp (hp.subset hx)
    have := (chainFind_eq_none_iff H k l).mp hc e he
    rw [hxk] at this; cases this

/-- A returning `emplace` was handed a free address. -/
theorem emplace_ok_free {H : Traits K} {fuel : Nat} {s : UnorderedMap K V} {a : Nat}
    {args : Option (K × V)} {r : UnorderedMap K V × Option Ptr × Bool}
    (h : emplace H fuel s a args = .ok r) : s.mem.node a = none := by
  cases hnode : s.mem.node a with
  | none => rfl
  | some n =>
    simp [emplace, ForwardList.emplace_new_node, ForwardList.place_construct, hnode, bind,
      Except.bind] at h

/-- With enough fuel, `emplace` of a pair returns unless an allocation fails: that of the node
(the address is not free) or that of the doubled bucket array. -/
theorem emplace_or_throw {H : Traits K} (hH : H.Lawful) {s : UnorderedMap K V}
    {l : List (Entry K V)} (hinv : Inv H s l) (a : Nat) (k : K) (v : V) (fuel : Nat)
    (hf : l.length + 1 < fuel) :
    emplace H fuel s a (some (k, v)) = .error .bad_alloc ∨
      ∃ r, emplace H fuel s a (some (k, v)) = .ok r := by
  cases hnode : s.mem.node a with
  | some n =>
    left
    simp [emplace, ForwardList.emplace_new_node, ForwardList.place_construct, hnode, bind,
      Except.bind]
  | none =>
    cases hc : chainFind H k l with
    | some e => exact Or.inr ⟨_, emplace_existing hH hinv a k v hnode e hc fuel (by omega)⟩
    | none =>
      by_cases hg : 2 * s.bucket_count ≤ max_array_count
      · obtain ⟨s', l', e1, _⟩ := emplace_new hH hinv a k v hnode hc fuel hf (fun _ => hg)
        exact Or.inr ⟨_, e1⟩
      · obtain ⟨s3, l1, r, hl, hinv3, hbc3, hml3, hself3, hsz3, he⟩ :=
          emplace_link_spec hH hinv a k v hnode hc fuel (by omega)
        rw [he]
        unfold reallocate
        by_cases hgt : F32.gt s3.load_factor s3.max_load = true
        · left
          rw [if_pos hgt, fixed_rehash_too_long fuel s3 (by rw [hbc3]; omega)]
          rfl
        · right
          rw [if_neg hgt]
          exact ⟨_, rfl⟩

/-- One returning `emplace` keeps the invariant, and the keys of the chain are the distinct
keys inserted and not erased. -/
theorem emplace_step {H : Traits K} (hH : H.Lawful) {s : UnorderedMap K V}
    {l : List (Entry K V)} (hinv : Inv H s l) (ks : List K) (hks : ks.Perm (l.map Entry.key))
    (a : Nat) (k : K) (v : V) (fuel : Nat) (hf : l.length + 1 < fuel)
    {r : UnorderedMap K V × Option Ptr × Bool} (h : emplace H fuel s a (some (k, v)) = .ok r) :
    ∃ l' it b, r = (r.1, some it, b) ∧ Inv H r.1 l' ∧
      (if ks.any (fun x => H.cmp_equal x k) then ks else k :: ks).Perm (l'.map Entry.key) ∧
      l.length ≤ l'.length ∧ l'.length ≤ l.length + 1 ∧
      (∃ d, ForwardList.get_data r.1.mem it = .ok d) ∧
      (∀ e ∈ l, e ∈ l') ∧
      (chainFind H k l = none → l'.Perm ((⟨a, k, v⟩ : Entry K V) :: l)) ∧
      (∀ e, chainFind H k l = some e → l' = l) := by
  have ha := emplace_ok_free h
  cases hc : chainFind H k l with
  | some e =>
    have he := emplace_existing hH hinv a k v ha e hc fuel (by omega)
    rw [he] at h
    cases h
    refine ⟨l, e.ptr, false, rfl, hinv, ?_, le_refl _, by omega,
      ⟨_, get_data_of_mem hinv (chainFind_some hc).1⟩, fun _ h => h,
      fun h => Option.noConfusion h, fun _ _ => rfl⟩
    rw [any_of_chainFind_some hks hc]
    exact hks
  | none =>
    obtain ⟨l', hr, hinv', hperm, _⟩ := emplace_new_of_ok hH hinv a k v ha hc fuel hf h
    have hmem : (⟨a, k, v⟩ : Entry K V) ∈ l' := hperm.symm.subset (List.mem_cons_self _ _)
    have hlen : l'.length = l.length + 1 := by rw [hperm.length_eq]; simp
    refine ⟨l', Ptr.node a, true, hr, hinv', ?_, by omega, by omega,
      ⟨_, get_data_of_mem hinv' hmem⟩,
      fun e he => hperm.symm.subset (List.mem_cons_of_mem _ he), fun _ => hperm,
      fun e h => Option.noConfusion h⟩
    rw [any_of_chainFind_none hks hc]
    simp only [Bool.false_eq_true, if_false]
    exact (List.Perm.cons k hks).trans (hperm.map Entry.key).symm

theorem filter_keys_erase {H : Traits K} (hH : H.Lawful) {l1 l2 : List (Entry K V)}
    {e : Entry K V} (hk : (l1 ++ e :: l2).Pairwise (fun x y => H.cmp_equal x.key y.key = false))
    (hnd : ((l1 ++ e :: l2).map Entry.addr).Nodup) {k : K} (hek : H.cmp_equal e.key k = true) :
    ((l1 ++ e :: l2).map Entry.key).filter (fun x => !H.cmp_equal x k) =
      (l1 ++ l2).map Entry.key := by
  have hsym : Symmetric (fun x y : Entry K V => H.cmp_equal x.key y.key = false) :=
    fun x y h => keys_rel_symm hH h
  have hother : ∀ x ∈ l1 ++ l2, H.cmp_equal x.key k = false := by
    intro x hx
    have hxl : x ∈ l1 ++ e :: l2 := by
      simp only [List.mem_append, List.mem_cons] at hx ⊢
      tauto
    have hne : x ≠ e := by
      intro hxe
      subst hxe
      simp only [List.map_append, List.map_cons] at hnd
      have h1 := List.nodup_append.mp hnd
      rcases List.mem_append.mp hx with hx | hx
      · exact h1.2.2 (List.mem_map.mpr ⟨x, hx, rfl⟩) (List.mem_cons_self _ _)
      · exact (List.nodup_cons.mp h1.2.1).1 (List.mem_map.mpr ⟨x, hx, rfl⟩)
    have hxe := hk.forall hsym hxl (by simp) hne
    cases hc : H.cmp_equal x.key k with
    | false => rfl
    | true =>
      rw [hH.trans _ _ _ hc (hH.symm _ _ hek)] at hxe
      cases hxe
  have hf : ∀ (r : List (Entry K V)), (∀ x ∈ r, H.cmp_equal x.key k = false) →
      (r.map Entry.key).filter (fun x => !H.cmp_equal x k) = r.map Entry.key := by
    intro r hr
    rw [List.filter_eq_self]
    intro y hy
    obtain ⟨x, hx, rfl⟩ := List.mem_map.mp hy
    simp [hr x hx]
  rw [List.map_append, List.map_cons, List.filter_append, List.filter_cons, List.map_append,
    hf l1 (fun x hx => hother x (List.mem_append_left _ hx)),
    hf l2 (fun x hx => hother x (List.mem_append_right _ hx))]
  simp [hek]

/-- One returning call of a script keeps the invariant, and the keys of the chain are the
distinct keys inserted and not erased. -/
theorem run_call_spec [Inhabited V] {H : Traits K} (hH : H.Lawful) {s s' : UnorderedMap K V}
    {l : List (Entry K V)} (hinv : Inv H s l) (ks : List K) (hks : ks.Perm (l.map Entry.key))
    (c : Call K V) (fuel : Nat) (hf : l.length + 1 < fuel) (h : run_call H fuel s c = .ok s') :
    ∃ l', Inv H s' l' ∧ (keys_step H ks c).Perm (l'.map Entry.key) ∧
      l'.length ≤ l.length + 1 := by
  cases c with
  | emplace a k v =>
    simp only [run_call, bind_ok, pure, Except.pure, Except.ok.injEq] at h
    obtain ⟨r, h1, rfl⟩ := h
    obtain ⟨l', _, _, _, hinv', hperm, _, hlen, _⟩ := emplace_step hH hinv ks hks a k v fuel hf h1
    exact ⟨l', hinv', hperm, hlen⟩
  | insert a k v =>
    simp only [run_call, insert, bind_ok, pure, Except.pure, Except.ok.injEq] at h
    obtain ⟨r, h1, rfl⟩ := h
    obtain ⟨l', _, _, _, hinv', hperm, _, hlen, _⟩ := emplace_step hH hinv ks hks a k v fuel hf h1
    exact ⟨l', hinv', hperm, hlen⟩
  | index a k =>
    simp only [run_call, bind_ok, pure, Except.pure, Except.ok.injEq] at h
    obtain ⟨r, h1, rfl⟩ := h
    simp only [index, bind_ok] at h1
    obtain ⟨⟨s1, it, b⟩, h2, h3⟩ := h1
    obtain ⟨l', _, _, _, hinv', hperm, _, hlen, _⟩ :=
      emplace_step hH hinv ks hks a k default fuel hf h2
    cases it with
    | none => simp at h3
    | some p =>
      simp only [bind_ok, pure, Except.pure, Except.ok.injEq] at h3
      obtain ⟨d, _, h4⟩ := h3
      subst h4
      exact ⟨l', hinv', hperm, hlen⟩
  | erase k =>
    have hfs := find_spec hH hinv k fuel (by omega)
    cases hc : chainFind H k l with
    | none =>
      rw [hc] at hfs
      simp only [run_call, hfs, Option.map_none', bind, Except.bind, pure, Except.pure,
        Except.ok.injEq] at h
      subst h
      refine ⟨l, hinv, ?_, by omega⟩
      have hall : ∀ x ∈ ks, (!H.cmp_equal x k) = true := by
        intro x hx
        obtain ⟨e, he, rfl⟩ := List.mem_map.mp (hks.subset hx)
        simp [(chainFind_eq_none_iff H k l).mp hc e he]
      simp only [keys_step]
      rw [List.filter_eq_self.mpr hall]
      exact hks
    | some e =>
      rw [hc] at hfs
      obtain ⟨he, hek⟩ := chainFind_some hc
      obtain ⟨l1, l2, rfl⟩ := List.append_of_mem he
      obtain ⟨s2, e1, hinv', _⟩ := erase_spec hinv fuel (by omega)
      simp only [run_call, hfs, Option.map_some', bind, Except.bind, e1, pure, Except.pure,
        Except.ok.injEq] at h
      subst h
      refine ⟨l1 ++ l2, hinv', ?_, ?_⟩
      · simp only [keys_step]
        rw [← filter_keys_erase hH hinv.keys hinv.chain.nodup hek]
        exact hks.filter _
      · simp only [List.length_append, List.length_cons]
        omega

/-- With enough fuel, a call of a script returns unless an allocation fails. -/
theorem run_call_or_throw [Inhabited V] {H : Traits K} (hH : H.Lawful) {s : UnorderedMap K V}
    {l : List (Entry K V)} (hinv : Inv H s l) (c : Call K V) (fuel : Nat)
    (hf : l.length + 1 < fuel) :
    run_call H fuel s c = .error .bad_alloc ∨ ∃ s', run_call H fuel s c = .ok s' := by
  cases c with
  | emplace a k v =>
    rcases emplace_or_throw hH hinv a k v fuel hf with h | ⟨r, h⟩
    · exact Or.inl (by simp only [run_call, h, bind, Except.bind])
    · exact Or.inr ⟨r.1, by simp only [run_call, h, bind, Except.bind, pure, Except.pure]⟩
  | insert a k v =>
    rcases emplace_or_throw hH hinv a k v fuel hf with h | ⟨r, h⟩
    · exact Or.inl (by simp only [run_call, insert, h, bind, Except.bind])
    · exact Or.inr ⟨r.1, by simp only [run_call, insert, h, bind, Except.bind, pure, Except.pure]⟩
  | index a k =>
    rcases emplace_or_throw hH hinv a k default fuel hf with h | ⟨r, h⟩
    · exact Or.inl (by simp only [run_call, index, h, bind, Except.bind])
    · obtain ⟨l', it, b, hr, _, _, _, _, ⟨d, hd⟩, _⟩ :=
        emplace_step hH hinv (l.map Entry.key) (List.Perm.refl _) a k default fuel hf h
      rw [hr] at h
      exact Or.inr ⟨r.1, by
        simp only [run_call, index, h, hd, bind, Except.bind, pure, Except.pure]⟩
  | erase k =>
    right
    have hfs := find_spec hH hinv k fuel (by omega)
    cases hc : chainFind H k l with
    | none =>
      rw [hc] at hfs
      exact ⟨s, by simp [run_call, hfs, bind, Except.bind, pure, Except.pure]⟩
    | some e =>
      rw [hc] at hfs
      obtain ⟨he, hek⟩ := chainFind_some hc
      obtain ⟨l1, l2, rfl⟩ := List.append_of_mem he
      obtain ⟨s2, e1, _⟩ := erase_spec hinv fuel (by omega)
      exact ⟨s2, by
        simp only [run_call, hfs, Option.map_some', bind, Except.bind, e1, pure, Except.pure]⟩

theorem run_calls_spec [Inhabited V] {H : Traits K} (hH : H.Lawful) (fuel : Nat)
    (cs : List (Call K V)) :
    ∀ (s : UnorderedMap K V) (l : List (Entry K V)) (ks : List K), Inv H s l →
      ks.Perm (l.map Entry.key) → l.length + cs.length + 1 < fuel →
      alloc_ok H fuel s cs = true →
      ∃ s' l', run_calls H fuel s cs = .ok s' ∧ Inv H s' l' ∧
        (keys_after H ks cs).Perm (l'.map Entry.key) ∧ l'.length ≤ l.length + cs.length := by
  induction cs with
  | nil =>
    intro s l ks hinv hks _ _
    exact ⟨s, l, rfl, hinv, hks, by simp⟩
  | cons c cs ih =>
    intro s l ks hinv hks hf hal
    have hf1 : l.length + 1 < fuel := by
      simp only [List.length_cons] at hf
      omega
    rcases run_call_or_throw hH hinv c fuel hf1 with e1 | ⟨s1, e1⟩
    · simp [alloc_ok, e1] at hal
    · obtain ⟨l1, hinv1, hks1, hlen1⟩ := run_call_spec hH hinv ks hks c fuel hf1 e1
      have hal1 : alloc_ok H fuel s1 cs = true := by
        simpa only [alloc_ok, e1] using hal
      obtain ⟨s', l', e2, hinv', hks', hlen'⟩ := ih s1 l1 (keys_step H ks c) hinv1 hks1 (by
        simp only [List.length_cons] at hf
        omega) hal1
      refine ⟨s', l', by simp only [run_calls, e1, bind, Except.bind]; exact e2, hinv', hks', ?_⟩
      simp only [List.length_cons]
      omega

/-- C4: after any script of `emplace`, `insert`, `operator[]` and `erase` calls on
a default-constructed map during which no allocation fails (each node address handed out,
freed ones included, is free, and each doubled bucket array can be allocated), `size()` is the
number of distinct keys inserted and not erased, and the traversal visits exactly `size()`
entries, one for each of these keys and none twice. -/
theorem size_counts_distinct_keys [Inhabited V] {H : Traits K} (hH : H.Lawful)
    (mem : Mem K V) (self : Nat) (cs : List (Call K V)) (fuel : Nat)
    (hf : cs.length + 1 < fuel) (hal : alloc_ok H fuel (init mem self) cs = true) :
    ∃ s t, run_calls H fuel (init mem self) cs = .ok s ∧ traversal fuel s = .ok t ∧
      s.size = (keys_after H [] cs).length ∧ t.length = s.size ∧
      (t.map (fun x => x.2.1)).Perm (keys_after H [] cs) ∧
      (t.map (fun x => x.1)).Nodup ∧
      (keys_after H [] cs).Pairwise (fun x y => H.cmp_equal x y = false) := by
  obtain ⟨s, l, e1, hinv, hks, hle⟩ := run_calls_spec hH fuel cs (init mem self) [] []
    (Inv.init H mem self) (List.Perm.refl _) (by simpa using hf) hal
  have hlen : l.length < fuel := by
    simp only [List.length_nil, Nat.zero_add] at hle
    omega
  have hkeys : (l.map Entry.view).map (fun x => x.2.1) = l.map Entry.key := by
    simp [Entry.view, List.map_map, Function.comp_def]
  have hptrs : (l.map Entry.view).map (fun x => x.1) = l.map Entry.ptr := by
    simp [Entry.view, List.map_map, Function.comp_def]
  refine ⟨s, l.map Entry.view, e1, traversal_spec hinv.chain fuel hlen, ?_, ?_, ?_, ?_, ?_⟩
  · show s.sz = _
    rw [hinv.size, hks.length_eq, List.length_map]
  · show _ = s.sz
    rw [hinv.size, List.length_map]
  · rw [hkeys]; exact hks.symm
  · rw [hptrs]
    exact (List.nodup_cons.mp (nodup_ptr_of_addr hinv.chain.nodup s.self)).2
  · have hpw : (l.map Entry.key).Pairwise (fun x y => H.cmp_equal x y = false) :=
      List.pairwise_map.mpr hinv.keys
    refine (List.Perm.pairwise_iff ?_ hks).mpr hpw
    intro x y h
    cases hc : H.cmp_equal y x with
    | false => rfl
    | true => rw [hH.symm _ _ hc] at h; cases h

/-- Witness of C4: a script of six calls, two of which are handed an address that an earlier
call has freed, leaves the three keys 8, 7 and 5. -/
theorem size_counts_distinct_keys_witness :
    ∃ s t, run_calls natTraits 16 (init emptyMem 0) script6 = .ok s ∧ traversal 16 s = .ok t ∧
      s.size = (keys_after natTraits [] script6).length ∧ t.length = s.size ∧
      (t.map (fun x => x.2.1)).Perm (keys_after natTraits [] script6) ∧
      (t.map (fun x => x.1)).Nodup ∧
      (keys_after natTraits [] script6).Pairwise (fun x y => natTraits.cmp_equal x y = false) :=
  size_counts_distinct_keys natTraits_lawful emptyMem 0 script6 16 (by decide) rfl

/-! ## Bulk insert -/

theorem any_congr_of_perm {H : Traits K} {p1 p2 : List K} (hp : p1.Perm p2) (k : K) :
    p1.any (fun x => H.cmp_equal x k) = p2.any (fun x => H.cmp_equal x k) := by
  cases h1 : p1.any (fun x => H.cmp_equal x k) with
  | true =>
    rw [List.any_eq_true] at h1
    obtain ⟨x, hx, hxk⟩ := h1
    exact (List.any_eq_true.mpr ⟨x, hp.subset hx, hxk⟩).symm
  | false =>
    cases h2 : p2.any (fun x => H.cmp_equal x k) with
    | false => rfl
    | true =>
      rw [List.any_eq_true] at h2
      obtain ⟨x, hx, hxk⟩ := h2
      rw [List.any_eq_true.mpr ⟨x, hp.symm.subset hx, hxk⟩] at h1
      cases h1

theorem new_keys_congr_of_perm (H : Traits K) (ks : List K) :
    ∀ (p1 p2 : List K), p1.Perm p2 → new_keys H p1 ks = new_keys H p2 ks := by
  induction ks with
  | nil => intro _ _ _; rfl
  | cons k ks ih =>
    intro p1 p2 hp
    simp only [new_keys, any_congr_of_perm hp k]
    rw [ih p1 p2 hp, ih (k :: p1) (k :: p2) (List.Perm.cons k hp)]

/-- A bulk insert of copyable pairs during which no allocation fails is the one-by-one
insertion. -/
theorem insert_all_spec {H : Traits K} (hH : H.Lawful) (fuel : Nat) (items : List (Nat × K × V)) :
    ∀ (s : UnorderedMap K V) (l : List (Entry K V)) (i : Nat), Inv H s l →
      l.length + items.length + 1 < fuel → alloc_ok_each H fuel s items = true →
      ∃ s' l', insert_range_try H fuel s (copyable items) i = .ok (s', none) ∧
        emplace_each H fuel s items = .ok s' ∧ Inv H s' l' ∧
        l'.length = l.length + (new_keys H (l.map Entry.key) (items.map (fun x => x.2.1))).length ∧
        (∀ e ∈ l, e ∈ l') ∧
        (∀ k, chainFind H k l = none → ∀ x, items.find? (fun y => H.cmp_equal y.2.1 k) = some x →
          (⟨x.1, x.2.1, x.2.2⟩ : Entry K V) ∈ l') := by
  induction items with
  | nil =>
    intro s l i hinv _ _
    exact ⟨s, l, rfl, rfl, hinv, by simp [new_keys], fun _ h => h, fun _ _ x hx => by simp at hx⟩
  | cons it rest ih =>
    obtain ⟨a, k, v⟩ := it
    intro s l i hinv hf hal
    have hlenr : rest.length + 1 = ((a, k, v) :: rest).length := by simp
    rcases emplace_or_throw hH hinv a k v fuel (by omega) with he | ⟨⟨s1, it0, b0⟩, he⟩
    · simp [alloc_ok_each, he] at hal
    · have hal1 : alloc_ok_each H fuel s1 rest = true := by
        simpa only [alloc_ok_each, he] using hal
      obtain ⟨l1, _, _, _, hinv1, hksp, hge, hle, _, hold1, hnone, hsome⟩ :=
        emplace_step hH hinv (l.map Entry.key) (List.Perm.refl _) a k v fuel (by omega) he
      dsimp only at hinv1 hksp hge hle hold1 hnone hsome
      obtain ⟨s', l', e1, e2, hinv', hlen, hold, hfirst⟩ :=
        ih s1 l1 (i + 1) hinv1 (by omega) hal1
      refine ⟨s', l', ?_, ?_, hinv', ?_, fun e he' => hold e (hold1 e he'), ?_⟩
      · simp only [copyable, List.map_cons, insert_range_try, insert, Option.map_some', he]
        exact e1
      · simp only [emplace_each, he, bind, Except.bind]
        exact e2
      · cases hc : chainFind H k l with
        | some e =>
          have hl1 := hsome e hc
          subst hl1
          rw [hlen]
          simp only [List.map_cons, new_keys]
          rw [any_of_chainFind_some (List.Perm.refl _) hc]
          simp
        | none =>
          have hperm := hnone hc
          have hlen1 : l1.length = l.length + 1 := by rw [hperm.length_eq]; simp
          rw [hlen, hlen1]
          simp only [List.map_cons, new_keys]
          rw [any_of_chainFind_none (List.Perm.refl _) hc]
          simp only [Bool.false_eq_true, if_false, List.length_cons]
          rw [new_keys_congr_of_perm H _ (l1.map Entry.key) (k :: l.map Entry.key)
            (hperm.map Entry.key)]
          omega
      · intro k2 hk2 x hx
        cases hc : chainFind H k l with
        | some e =>
          have hl1 := hsome e hc
          subst hl1
          have hkk : H.cmp_equal k k2 = false := by
            cases hkk : H.cmp_equal k k2 with
            | false => rfl
            | true =>
              have := (chainFind_eq_none_iff H k2 l1).mp hk2 e (chainFind_some hc).1
              rw [hH.trans _ _ _ (chainFind_some hc).2 hkk] at this
              cases this
          rw [List.find?_cons] at hx
          simp only [hkk] at hx
          exact hfirst k2 hk2 x hx
        | none =>
          have hperm := hnone hc
          have hnew_mem : (⟨a, k, v⟩ : Entry K V) ∈ l1 :=
            hperm.symm.subset (List.mem_cons_self _ _)
          rw [List.find?_cons] at hx
          cases hkk : H.cmp_equal k k2 with
          | true =>
            simp only [hkk, Option.some.injEq] at hx
            subst hx
            exact hold _ hnew_mem
          | false =>
            simp only [hkk] at hx
            refine hfirst k2 ?_ x hx
            rw [chainFind_eq_none_iff]
            intro y hy
            rcases List.mem_cons.mp (hperm.subset hy) with rfl | hy
            · exact hkk
            · exact (chainFind_eq_none_iff H k2 l).mp hk2 y hy

/-- C9: a bulk insert of pairs whose insertion does not fail (no allocation of a node or
of a doubled bucket array fails; a node address may be one that an earlier insertion of the
range has freed) yields the map obtained by emplacing the pairs one by one in order: the size
grows by the number of distinct keys of the sequence that were not in the map, every key of
the sequence is found afterwards, a key of the map keeps its value, and a new key gets the
value of its first occurrence. -/
theorem insert_range_is_emplace_each {H : Traits K} (hH : H.Lawful) {s : UnorderedMap K V}
    (hr : Reachable H s) (items : List (Nat × K × V)) (fuel : Nat)
    (hf : s.sz + items.length + 1 < fuel) (hal : alloc_ok_each H fuel s items = true)
    (t : List (Ptr × K × V)) (ht : traversal fuel s = .ok t) :
    ∃ s', insert_range H fuel s (copyable items) = .ok (s', none) ∧
      emplace_each H fuel s items = .ok s' ∧
      s'.size = s.size +
        (new_keys H (t.map (fun x => x.2.1)) (items.map (fun x => x.2.1))).length ∧
      (∀ x ∈ items, ∃ p, find H fuel s' x.2.1 = .ok (some p)) ∧
      (∀ k v, UnorderedMap.at H fuel s k = .ok v → UnorderedMap.at H fuel s' k = .ok v) ∧
      (∀ k x, UnorderedMap.at H fuel s k = .error .out_of_range →
        items.find? (fun y => H.cmp_equal y.2.1 k) = some x → UnorderedMap.at H fuel s' k = .ok x.2.2) := by
  obtain ⟨l, hinv⟩ := hr.inv hH
  have hlen : l.length + items.length + 1 < fuel := by rw [← hinv.size]; exact hf
  have hts := traversal_spec hinv.chain fuel (by omega)
  rw [ht] at hts
  have htl : t = l.map Entry.view := Except.ok.inj hts
  have hkeys : t.map (fun x => x.2.1) = l.map Entry.key := by
    rw [htl]; simp [Entry.view, List.map_map, Function.comp_def]
  obtain ⟨s', l', e1, e2, hinv', hlen', hold, hfirst⟩ :=
    insert_all_spec hH fuel items s l 0 hinv hlen hal
  have hfuel' : l'.length < fuel := by
    have : (new_keys H (l.map Entry.key) (items.map (fun x => x.2.1))).length ≤ items.length := by
      have hgen : ∀ (ks p : List K), (new_keys H p ks).length ≤ ks.length := by
        intro ks
        induction ks with
        | nil => intro p; simp [new_keys]
        | cons k ks ih =>
          intro p
          simp only [new_keys]
          split
          · have := ih p
            simp only [List.length_cons]; omega
          · have := ih (k :: p)
            simp only [List.length_cons]; omega
      simpa using hgen (items.map (fun x => x.2.1)) (l.map Entry.key)
    omega
  have hat : ∀ k, UnorderedMap.at H fuel s k = (match chainFind H k l with
      | some e => .ok e.val | none => .error .out_of_range) := fun k =>
    at_spec hH hinv k fuel (by omega)
  refine ⟨s', ?_, e2, ?_, ?_, ?_, ?_⟩
  · simp only [insert_range, e1, bind, Except.bind, pure, Except.pure]
  · show s'.sz = s.sz + _
    rw [hinv'.size, hlen', hinv.size, hkeys]
  · intro x hx
    rw [find_spec hH hinv' x.2.1 fuel hfuel']
    cases hc : chainFind H x.2.1 l with
    | some e =>
      obtain ⟨he, hek⟩ := chainFind_some hc
      rw [chainFind_unique hH hinv'.keys (hold e he) hek]
      exact ⟨_, rfl⟩
    | none =>
      cases hfx : items.find? (fun y => H.cmp_equal y.2.1 x.2.1) with
      | none =>
        have := List.find?_eq_none.mp hfx x hx
        simp [hH.refl] at this
      | some y =>
        have hy := List.find?_some hfx
        rw [chainFind_unique hH hinv'.keys (hfirst _ hc y hfx) hy]
        exact ⟨_, rfl⟩
  · intro k v hv
    rw [hat k] at hv
    cases hc : chainFind H k l with
    | none => rw [hc] at hv; cases hv
    | some e =>
      rw [hc] at hv
      obtain ⟨he, hek⟩ := chainFind_some hc
      rw [at_spec hH hinv' k fuel hfuel', chainFind_unique hH hinv'.keys (hold e he) hek]
      exact hv
  · intro k x hk hx
    rw [hat k] at hk
    have hc : chainFind H k l = none := by
      cases hc : chainFind H k l with
      | none => rfl
      | some e => rw [hc] at hk; cases hk
    have hy := List.find?_some hx
    rw [at_spec hH hinv' k fuel hfuel', chainFind_unique hH hinv'.keys (hfirst k hc x hx) hy]

set_option maxRecDepth 100000 in
/-- Witness of C9: the bulk insert of 100 pairs, pair 50 repeating the key of pair 0 and
pair 51 reusing the address of the node freed for pair 50, into a default-constructed map
gives size 99 and keeps the value of pair 0. -/
theorem insert_range_is_emplace_each_witness :
    alloc_ok_each natTraits 102 map0 pairs100 = true ∧
    ∃ s', insert_range natTraits 102 map0 (copyable pairs100) = .ok (s', none) ∧
      emplace_each natTraits 102 map0 pairs100 = .ok s' ∧
      s'.size = 99 ∧ UnorderedMap.at natTraits 102 s' 0 = .ok 0 := by
  have hal : alloc_ok_each natTraits 102 map0 pairs100 = true := by decide
  obtain ⟨s', h1, h2, h3, _, _, h6⟩ := insert_range_is_emplace_each natTraits_lawful
    (Reachable.init emptyMem 0) pairs100 102 (by decide) hal [] rfl
  refine ⟨hal, s', h1, h2, ?_, ?_⟩
  · rw [h3]; rfl
  · exact h6 0 (1, 0, 0) rfl rfl

/-- C10, at the failing input: the map holds the key 1 (value 10); the bulk
insert of `(1, 20)` followed by an element whose construction throws lets the
exception out after a roll back that erased the key 1, which was in the map
before the call. -/
theorem insert_range_rollback_erases_present_key :
    find natTraits 8 map1 1 = .ok (some (Ptr.node 1)) ∧ UnorderedMap.at natTraits 8 map1 1 = .ok 10 ∧
    ∃ s', insert_range natTraits 8 map1 [(2, 1, some 20), (3, 2, none)] =
        .ok (s', some Err.construct) ∧
      find natTraits 8 s' 1 = .ok none ∧ UnorderedMap.at natTraits 8 s' 1 = .error .out_of_range ∧
      s'.size = 0 :=
  ⟨rfl, rfl, _, rfl, rfl, rfl, rfl⟩

/-! ## binary32: the precision of a rounded quotient -/

end UnorderedMap

namespace F32

theorem roundPos_eq (n d : Nat) : roundPos n d = roundAt n d (expo n d) := rfl

theorem ilog2_spec : ∀ (fuel n : Nat), 1 ≤ n → n ≤ fuel →
    2 ^ ilog2 fuel n ≤ n ∧ n < 2 ^ (ilog2 fuel n + 1)
  | 0, n, h1, h2 => by omega
  | fuel + 1, n, h1, h2 => by
    unfold ilog2
    by_cases h : n < 2
    · simp only [h, if_true]; omega
    · have ih := ilog2_spec fuel (n / 2) (by omega) (by omega)
      simp only [h, if_false]
      obtain ⟨ha, hb⟩ := ih
      constructor
      · rw [pow_succ]; omega
      · rw [pow_succ]; omega

theorem expo_lower (n d : Nat) (hn : 0 < n) (hd : 0 < d) :
    (0 ≤ expo n d → d * 2 ^ (expo n d).toNat ≤ n) ∧
    (expo n d < 0 → d ≤ n * 2 ^ (-(expo n d)).toNat) := by
  obtain ⟨ha1, ha2⟩ := ilog2_spec n n hn (le_refl _)
  obtain ⟨hb1, hb2⟩ := ilog2_spec d d hd (le_refl _)
  unfold expo
  simp only []
  generalize ilog2 n n = a at *
  generalize ilog2 d d = b at *
  split
  · rename_i hc
    constructor
    · intro h0; rcases hc with ⟨_, h⟩ | ⟨h, _⟩
      · exact h
      · omega
    · intro h0; rcases hc with ⟨h, _⟩ | ⟨_, h⟩
      · omega
      · exact h
  · -- e = a - b - 1
    constructor
    · intro h0
      have hab : b + 1 ≤ a := by omega
      have : ((a : Int) - b - 1).toNat = a - b - 1 := by omega
      rw [this]
      have h2 : 2 ^ a = 2 ^ (b + 1) * 2 ^ (a - b - 1) := by
        rw [← pow_add]; congr 1; omega
      calc d * 2 ^ (a - b - 1) ≤ 2 ^ (b + 1) * 2 ^ (a - b - 1) :=
            Nat.mul_le_mul_right _ (le_of_lt hb2)
        _ = 2 ^ a := h2.symm
        _ ≤ n := ha1
    · intro h0
      have hab : a < b + 1 := by omega
      have : (-((a : Int) - b - 1)).toNat = b + 1 - a := by omega
      rw [this]
      have h2 : 2 ^ (b + 1) = 2 ^ a * 2 ^ (b + 1 - a) := by
        rw [← pow_add]; congr 1; omega
      calc d ≤ 2 ^ (b + 1) := le_of_lt hb2
        _ = 2 ^ a * 2 ^ (b + 1 - a) := h2
        _ ≤ n * 2 ^ (b + 1 - a) := Nat.mul_le_mul_right _ ha1

theorem expo_upper (n d : Nat) (hn : 0 < n) (hd : 0 < d) :
    (0 ≤ expo n d + 1 → n < d * 2 ^ (expo n d + 1).toNat) ∧
    (expo n d + 1 < 0 → n * 2 ^ (-(expo n d + 1)).toNat < d) := by
  obtain ⟨ha1, ha2⟩ := ilog2_spec n n hn (le_refl _)
  obtain ⟨hb1, hb2⟩ := ilog2_spec d d hd (le_refl _)
  unfold expo
  simp only []
  generalize ilog2 n n = a at *
  generalize ilog2 d d = b at *
  split
  · constructor
    · intro h0
      have : ((a : Int) - b + 1).toNat = a + 1 - b := by omega
      rw [this]
      have h2 : 2 ^ (a + 1) = 2 ^ b * 2 ^ (a + 1 - b) := by
        rw [← pow_add]; congr 1; omega
      calc n < 2 ^ (a + 1) := ha2
        _ = 2 ^ b * 2 ^ (a + 1 - b) := h2
        _ ≤ d * 2 ^ (a + 1 - b) := Nat.mul_le_mul_right _ hb1
    · intro h0
      have : (-((a : Int) - b + 1)).toNat = b - a - 1 := by omega
      rw [this]
      have h2 : 2 ^ b = 2 ^ (a + 1) * 2 ^ (b - a - 1) := by
        rw [← pow_add]; congr 1; omega
      calc n * 2 ^ (b - a - 1) < 2 ^ (a + 1) * 2 ^ (b - a - 1) :=
            Nat.mul_lt_mul_of_pos_right ha2 (by positivity)
        _ = 2 ^ b := h2.symm
        _ ≤ d := hb1
  · rename_i hc
    have e1 : (a : Int) - b - 1 + 1 = a - b := by ring
    rw [e1]
    constructor
    · intro h0
      by_contra hlt
      exact hc (Or.inl ⟨h0, by omega⟩)
    · intro h0
      by_contra hlt
      exact hc (Or.inr ⟨h0, by omega⟩)

theorem roundHalfEven_bounds (N D : Nat) :
    N / D ≤ roundHalfEven N D ∧ roundHalfEven N D ≤ N / D + 1 := by
  unfold roundHalfEven
  simp only []
  split
  · omega
  · split
    · omega
    · split <;> omega

theorem roundAt_fin {n d : Nat} {e m u : Int} (h : roundAt n d e = fin m u) :
    m = roundHalfEven (scaledNum n (ulpExp e)) (scaledDen d (ulpExp e)) ∧ u = ulpExp e := by
  unfold roundAt at h
  simp only [] at h
  split at h
  · exact absurd h (by simp)
  · injection h with hm hu
    exact ⟨hm.symm, hu.symm⟩

theorem scaled_quot_lt (n d : Nat) (e : Int) (hd : 0 < d)
    (hup : (0 ≤ e + 1 → n < d * 2 ^ (e + 1).toNat) ∧ (e + 1 < 0 → n * 2 ^ (-(e + 1)).toNat < d)) :
    scaledNum n (ulpExp e) / scaledDen d (ulpExp e) < 2 ^ 24 := by
  unfold scaledNum scaledDen ulpExp
  by_cases hu0 : 0 ≤ max e (-126) - 23
  · simp only [hu0, if_true]
    have he : 23 ≤ e := by omega
    have h1 := hup.1 (by omega)
    have : (e + 1).toNat = (max e (-126) - 23).toNat + 24 := by omega
    rw [this, pow_add] at h1
    rw [Nat.div_lt_iff_lt_mul (by positivity)]
    calc n < d * (2 ^ (max e (-126) - 23).toNat * 2 ^ 24) := h1
      _ = 2 ^ 24 * (d * 2 ^ (max e (-126) - 23).toNat) := by ring
  · simp only [hu0, if_false]
    rw [Nat.div_lt_iff_lt_mul hd]
    by_cases he : 0 ≤ e + 1
    · have h1 := hup.1 he
      have h3 : (e + 1).toNat + (-(max e (-126) - 23)).toNat = 24 := by omega
      calc n * 2 ^ (-(max e (-126) - 23)).toNat
          < d * 2 ^ (e + 1).toNat * 2 ^ (-(max e (-126) - 23)).toNat :=
            Nat.mul_lt_mul_of_pos_right h1 (by positivity)
        _ = d * 2 ^ ((e + 1).toNat + (-(max e (-126) - 23)).toNat) := by rw [pow_add]; ring
        _ = 2 ^ 24 * d := by rw [h3]; ring
    · have h1 := hup.2 (by omega)
      have h3 : (-(max e (-126) - 23)).toNat ≤ 24 + (-(e + 1)).toNat := by omega
      calc n * 2 ^ (-(max e (-126) - 23)).toNat
          ≤ n * 2 ^ (24 + (-(e + 1)).toNat) :=
            Nat.mul_le_mul_left _ (Nat.pow_le_pow_right (by norm_num) h3)
        _ = 2 ^ 24 * (n * 2 ^ (-(e + 1)).toNat) := by rw [pow_add]; ring
        _ < 2 ^ 24 * d := Nat.mul_lt_mul_of_pos_left h1 (by positivity)

theorem roundAt_mant (n d : Nat) (e : Int) (hd : 0 < d)
    (hup : (0 ≤ e + 1 → n < d * 2 ^ (e + 1).toNat) ∧ (e + 1 < 0 → n * 2 ^ (-(e + 1)).toNat < d))
    (m u : Int) (h : roundAt n d e = fin m u) : 0 ≤ m ∧ m ≤ 2 ^ 24 := by
  obtain ⟨hm, _⟩ := roundAt_fin h
  have h1 := scaled_quot_lt n d e hd hup
  have h2 := (roundHalfEven_bounds (scaledNum n (ulpExp e)) (scaledDen d (ulpExp e))).2
  subst hm
  refine ⟨by positivity, ?_⟩
  have : roundHalfEven (scaledNum n (ulpExp e)) (scaledDen d (ulpExp e)) ≤ 2 ^ 24 := by omega
  exact_mod_cast this

theorem expo_upper_any (n d : Nat) (hd : 0 < d) :
    (0 ≤ expo n d + 1 → n < d * 2 ^ (expo n d + 1).toNat) ∧
    (expo n d + 1 < 0 → n * 2 ^ (-(expo n d + 1)).toNat < d) := by
  rcases Nat.eq_zero_or_pos n with hn | hn
  · subst hn
    exact ⟨fun _ => by positivity, fun _ => by simpa using hd⟩
  · exact expo_upper n d hn hd

theorem toSizeT_fin_lt (m u : Int) (h0 : 0 ≤ m) (h24 : m ≤ 2 ^ 24) (c : Nat)
    (h : toSizeT (fin m u) = some c) : c + 1 < 2 ^ 64 := by
  have hm : m.natAbs ≤ 2 ^ 24 := by omega
  by_cases hu : 0 ≤ u
  · simp only [toSizeT, h0, hu, if_true] at h
    split at h
    · rename_i hlt
      injection h with h
      subst h
      by_cases hu1 : u = 0
      · subst hu1
        simp only [Int.toNat_zero, pow_zero, mul_one]
        omega
      · obtain ⟨j, hj⟩ : ∃ j, u.toNat = j + 1 := ⟨u.toNat - 1, by omega⟩
        rw [hj, pow_succ, ← mul_assoc] at hlt ⊢
        generalize m.natAbs * 2 ^ j = X at hlt ⊢
        omega
    · exact absurd h (by simp)
  · simp only [toSizeT, h0, hu, if_true, if_false] at h
    split at h
    · injection h with h
      subst h
      have := Nat.div_le_self m.natAbs (2 ^ (-u).toNat)
      omega
    · exact absurd h (by simp)

/-- A rounded quotient converts to a `size_t` below the largest one. -/
theorem toSizeT_roundPos_lt (n d : Nat) (hd : 0 < d) (c : Nat)
    (h : toSizeT (roundPos n d) = some c) : c + 1 < 2 ^ 64 := by
  cases hr : roundPos n d with
  | fin m u =>
    rw [hr] at h
    rw [roundPos_eq] at hr
    obtain ⟨h0, h24⟩ := roundAt_mant n d _ hd (expo_upper_any n d hd) m u hr
    exact toSizeT_fin_lt m u h0 h24 c h
  | pinf => rw [hr] at h; exact absurd h (by simp [toSizeT])
  | ninf => rw [hr] at h; exact absurd h (by simp [toSizeT])
  | nan => rw [hr] at h; exact absurd h (by simp [toSizeT])

theorem ulpExp_nonpos (n d : Nat) (hd : 0 < d) (hlt : n < 2 ^ 24 * d) :
    ulpExp (expo n d) ≤ 0 := by
  unfold ulpExp
  rcases Nat.eq_zero_or_pos n with hn | hn
  · subst hn
    have : expo 0 d ≤ 0 := by
      unfold expo
      simp only []
      have h0 : ilog2 0 0 = 0 := rfl
      rw [h0]
      split <;> omega
    omega
  · by_contra hcon
    have he : 24 ≤ expo n d := by omega
    have h1 := (expo_lower n d hn hd).1 (by omega)
    have h2 : 2 ^ 24 ≤ 2 ^ (expo n d).toNat := Nat.pow_le_pow_right (by norm_num) (by omega)
    have h3 : d * 2 ^ 24 ≤ d * 2 ^ (expo n d).toNat := Nat.mul_le_mul_left _ h2
    omega

theorem roundHalfEven_zero (D : Nat) (hD : 0 < D) : roundHalfEven 0 D = 0 := by
  simp [roundHalfEven, hD]

/-- A quotient below `2 ^ 24` rounds to a finite number with a mantissa of at most 25 bits at a
non-positive exponent. -/
theorem roundPos_small (n d : Nat) (hd : 0 < d) (hlt : n < 2 ^ 24 * d) :
    roundPos n d = fin (roundHalfEven (scaledNum n (ulpExp (expo n d)))
      (scaledDen d (ulpExp (expo n d)))) (ulpExp (expo n d)) ∧
    ulpExp (expo n d) ≤ 0 ∧
    roundHalfEven (scaledNum n (ulpExp (expo n d))) (scaledDen d (ulpExp (expo n d))) ≤ 2 ^ 24 := by
  have hu := ulpExp_nonpos n d hd hlt
  have hq := scaled_quot_lt n d (expo n d) hd (expo_upper_any n d hd)
  have hb := (roundHalfEven_bounds (scaledNum n (ulpExp (expo n d)))
    (scaledDen d (ulpExp (expo n d)))).2
  have hm : roundHalfEven (scaledNum n (ulpExp (expo n d))) (scaledDen d (ulpExp (expo n d))) ≤
      2 ^ 24 := by omega
  refine ⟨?_, hu, hm⟩
  rw [roundPos_eq]
  unfold roundAt
  simp only []
  rw [if_neg]
  rintro ⟨h0, h128⟩
  have hu0 : ulpExp (expo n d) = 0 := by omega
  rw [hu0] at h128
  simp only [Int.toNat_zero, pow_zero, mul_one] at h128
  rw [hu0] at hm
  omega

theorem roundPos_defined (n d : Nat) (hd : 0 < d) (hlt : n < 2 ^ 24 * d) :
    ∃ c, toSizeT (roundPos n d) = some c := by
  obtain ⟨hr, hu, hm⟩ := roundPos_small n d hd hlt
  rw [hr]
  generalize roundHalfEven (scaledNum n (ulpExp (expo n d))) (scaledDen d (ulpExp (expo n d))) = m
    at hm
  generalize ulpExp (expo n d) = u at hu
  have h0 : (0 : Int) ≤ (m : Int) := by positivity
  by_cases hu0 : 0 ≤ u
  · have : u = 0 := by omega
    subst this
    simp only [toSizeT, h0, if_true, le_refl, Int.toNat_zero, pow_zero, mul_one, Int.natAbs_ofNat]
    rw [if_pos (by omega)]
    exact ⟨_, rfl⟩
  · simp only [toSizeT, h0, if_true, hu0, if_false, Int.natAbs_ofNat]
    have := Nat.div_le_self m (2 ^ (-u).toNat)
    rw [if_pos (by omega)]
    exact ⟨_, rfl⟩

/-- The conversion of a rounded quotient below `2 ^ 24` is at most `2 ^ 24`. -/
theorem toSizeT_roundPos_le (n d : Nat) (hd : 0 < d) (hlt : n < 2 ^ 24 * d) (c : Nat)
    (h : toSizeT (roundPos n d) = some c) : c ≤ 2 ^ 24 := by
  obtain ⟨hr, hu, hm⟩ := roundPos_small n d hd hlt
  rw [hr] at h
  generalize roundHalfEven (scaledNum n (ulpExp (expo n d))) (scaledDen d (ulpExp (expo n d))) = m
    at hm h
  generalize ulpExp (expo n d) = u at hu h
  have h0 : (0 : Int) ≤ (m : Int) := by positivity
  by_cases hu0 : 0 ≤ u
  · have : u = 0 := by omega
    subst this
    simp only [toSizeT, h0, if_true, le_refl, Int.toNat_zero, pow_zero, mul_one,
      Int.natAbs_ofNat] at h
    rw [if_pos (by omega)] at h
    injection h with h
    omega
  · simp only [toSizeT, h0, if_true, hu0, if_false, Int.natAbs_ofNat] at h
    have := Nat.div_le_self m (2 ^ (-u).toNat)
    rw [if_pos (by omega)] at h
    injection h with h
    omega

/-- The conversion of a rounded quotient below `2 ^ 24` is at least the floor of the quotient. -/
theorem roundPos_floor (n d : Nat) (hd : 0 < d) (hlt : n < 2 ^ 24 * d) (c : Nat)
    (h : toSizeT (roundPos n d) = some c) : n < (c + 1) * d := by
  obtain ⟨hr, hu, hm⟩ := roundPos_small n d hd hlt
  rw [hr] at h
  have hb := (roundHalfEven_bounds (scaledNum n (ulpExp (expo n d)))
    (scaledDen d (ulpExp (expo n d)))).1
  generalize roundHalfEven (scaledNum n (ulpExp (expo n d))) (scaledDen d (ulpExp (expo n d))) = m
    at hm hb h
  have h0 : (0 : Int) ≤ (m : Int) := by positivity
  have hk : n / d ≤ c := by
    by_cases hu0 : 0 ≤ ulpExp (expo n d)
    · have hu1 : ulpExp (expo n d) = 0 := by omega
      rw [hu1] at h hb
      simp only [toSizeT, h0, if_true, le_refl, Int.toNat_zero, pow_zero, mul_one,
        Int.natAbs_ofNat] at h
      simp only [scaledNum, scaledDen, le_refl, if_true, Int.toNat_zero, pow_zero, mul_one] at hb
      split at h
      · injection h with h; omega
      · exact absurd h (by simp)
    · simp only [toSizeT, h0, if_true, hu0, if_false, Int.natAbs_ofNat] at h
      simp only [scaledNum, scaledDen, hu0, if_false] at hb
      split at h
      · injection h with h
        rw [← h]
        calc n / d = n * 2 ^ (-ulpExp (expo n d)).toNat / (d * 2 ^ (-ulpExp (expo n d)).toNat) :=
              (Nat.mul_div_mul_right n d (by positivity)).symm
          _ = n * 2 ^ (-ulpExp (expo n d)).toNat / d / 2 ^ (-ulpExp (expo n d)).toNat :=
              (Nat.div_div_eq_div_mul _ _ _).symm
          _ ≤ m / 2 ^ (-ulpExp (expo n d)).toNat := Nat.div_le_div_right hb
      · exact absurd h (by simp)
  calc n < (n / d + 1) * d := by
        rw [Nat.mul_comm]; exact Nat.lt_mul_div_succ n hd
    _ ≤ (c + 1) * d := Nat.mul_le_mul_right _ (by omega)
theorem roundHalfEven_one (N : Nat) : roundHalfEven N 1 = N := by
  simp [roundHalfEven, Nat.mod_one]

theorem ofNat_exact (n : Nat) (h0 : 0 < n) (h : n < 2 ^ 24) :
    ∃ j : Nat, ofNat n = fin ((n * 2 ^ j : Nat) : Int) (-(j : Int)) := by
  obtain ⟨hr, hu, _⟩ := roundPos_small n 1 (by norm_num) (by omega)
  have hne : n ≠ 0 := by omega
  unfold ofNat
  rw [if_neg hne, hr]
  refine ⟨(-ulpExp (expo n 1)).toNat, ?_⟩
  generalize ulpExp (expo n 1) = u at hu
  have hD : scaledDen 1 u = 1 := by
    unfold scaledDen
    split
    · have : u = 0 := by omega
      subst this; simp
    · rfl
  have hN : scaledNum n u = n * 2 ^ (-u).toNat := by
    unfold scaledNum
    split
    · have : u = 0 := by omega
      subst this; simp
    · rfl
  rw [hD, hN, roundHalfEven_one]
  congr 1
  omega

theorem two_zpow_split (z : Int) :
    ((2 : ℚ) ^ (-z).toNat) * 2 ^ z = 2 ^ z.toNat := by
  rcases le_or_lt 0 z with hz | hz
  · obtain ⟨k, rfl⟩ : ∃ k : Nat, z = (k : Int) := ⟨z.toNat, by omega⟩
    have h1 : (-(k : Int)).toNat = 0 := by omega
    rw [h1, pow_zero, one_mul, zpow_natCast, Int.toNat_ofNat]
  · obtain ⟨k, rfl⟩ : ∃ k : Nat, z = -(k : Int) := ⟨(-z).toNat, by omega⟩
    have h1 : (-(k : Int)).toNat = 0 := by omega
    rw [h1, pow_zero, neg_neg, Int.toNat_ofNat, zpow_neg, zpow_natCast]
    field_simp

/-- The quotient `float(n) / x` of a size below `2 ^ 24` by a positive finite `x` is the
rounding of a fraction `N / D` equal to `n / x`. -/
theorem div_ofNat_eq (n : Nat) (h0 : 0 < n) (h : n < 2 ^ 24) (b eb : Int) (hb : 0 < b) :
    ∃ N D : Nat, 0 < D ∧ div (ofNat n) (fin b eb) = roundPos N D ∧
      (N : ℚ) * (fin b eb).toRat = n * D := by
  obtain ⟨j, hj⟩ := ofNat_exact n h0 h
  rw [hj]
  have hbne : b ≠ 0 := by omega
  have hA : ((n * 2 ^ j : Nat) : Int) ≠ 0 := by
    have : 0 < n * 2 ^ j := by positivity
    omega
  have hApos : (0 : Int) < ((n * 2 ^ j : Nat) : Int) := by
    have : 0 < n * 2 ^ j := by positivity
    omega
  refine ⟨n * 2 ^ j * 2 ^ (-(j : Int) - eb).toNat, b.natAbs * 2 ^ (eb - -(j : Int)).toNat, ?_, ?_, ?_⟩
  · have : 0 < b.natAbs := by omega
    positivity
  · simp only [div, hbne, if_false, hA, hApos, hb, and_self, true_or, if_true, Int.natAbs_ofNat]
  · have hbq : ((b.natAbs : Nat) : ℚ) = (b : ℚ) := by
      rw [Nat.cast_natAbs]
      simp [abs_of_pos hb]
    simp only [toRat, Nat.cast_mul, Nat.cast_pow, Nat.cast_ofNat, hbq]
    have hsplit := two_zpow_split (eb + j)
    have e1 : (-(j : Int) - eb) = -(eb + j) := by ring
    have e2 : (eb - -(j : Int)) = eb + j := by ring
    rw [e1, e2]
    have e3 : (2 : ℚ) ^ (eb + (j : Int)) = 2 ^ eb * 2 ^ j := by
      rw [zpow_add₀ (by norm_num), zpow_natCast]
    rw [e3] at hsplit
    calc (n : ℚ) * 2 ^ j * 2 ^ (-(eb + (j : Int))).toNat * (b * 2 ^ eb)
        = n * b * (2 ^ (-(eb + (j : Int))).toNat * (2 ^ eb * 2 ^ j)) := by ring
      _ = n * b * 2 ^ (eb + (j : Int)).toNat := by rw [hsplit]
      _ = n * (b * 2 ^ (eb + (j : Int)).toNat) := by ring

end F32

namespace UnorderedMap

variable {K V : Type}

theorem toRat_pos (b eb : Int) (hb : 0 < b) : 0 < (F32.fin b eb).toRat := by
  simp only [F32.toRat]
  have : (0 : ℚ) < b := by exact_mod_cast hb
  positivity

/-- For a size below `2 ^ 24` and a positive finite maximum load factor with a quotient below
`2 ^ 24`, the count `size_t(float(n) / max_load) + 1` is defined and exceeds `n / max_load`. -/
theorem scaled_count_exact (s : UnorderedMap K V) (n : Nat) (h : n < 2 ^ 24) (b eb : Int)
    (hx : s.max_load = F32.fin b eb) (hb : 0 < b) (hq : (n : ℚ) / s.max_load.toRat < 2 ^ 24) :
    ∃ c, s.scaled_count n = .ok c ∧ (n : ℚ) < s.max_load.toRat * c := by
  rw [hx] at hq ⊢
  have hxpos := toRat_pos b eb hb
  rcases Nat.eq_zero_or_pos n with hn | hn
  · subst hn
    refine ⟨1, ?_, by simpa using hxpos⟩
    have hbne : b ≠ 0 := by omega
    have : F32.div (F32.ofNat 0) (F32.fin b eb) = F32.fin 0 0 := by
      simp [F32.ofNat, F32.div, hbne]
    simp only [scaled_count, hx, this]
    rfl
  · obtain ⟨N, D, hD, hdiv, hND⟩ := F32.div_ofNat_eq n hn h b eb hb
    have hDq : (0 : ℚ) < D := by exact_mod_cast hD
    have hlt : N < 2 ^ 24 * D := by
      have h1 : (n : ℚ) < 2 ^ 24 * (F32.fin b eb).toRat := by
        rwa [div_lt_iff₀ hxpos] at hq
      have h2 : (N : ℚ) * (F32.fin b eb).toRat < 2 ^ 24 * D * (F32.fin b eb).toRat := by
        rw [hND]
        calc (n : ℚ) * D < 2 ^ 24 * (F32.fin b eb).toRat * D :=
              mul_lt_mul_of_pos_right h1 hDq
          _ = 2 ^ 24 * D * (F32.fin b eb).toRat := by ring
      have h3 : (N : ℚ) < 2 ^ 24 * D := lt_of_mul_lt_mul_right h2 (le_of_lt hxpos)
      exact_mod_cast h3
    obtain ⟨c, hc⟩ := F32.roundPos_defined N D hD hlt
    have hc64 := F32.toSizeT_roundPos_lt N D hD c hc
    have hfl := F32.roundPos_floor N D hD hlt c hc
    refine ⟨c + 1, ?_, ?_⟩
    · simp only [scaled_count, hx, hdiv, hc]
      rw [Nat.mod_eq_of_lt hc64]
      rfl
    · have h4 : (N : ℚ) < (c + 1) * D := by exact_mod_cast hfl
      have h5 : (n : ℚ) * D < (F32.fin b eb).toRat * (c + 1) * D := by
        rw [← hND]
        calc (N : ℚ) * (F32.fin b eb).toRat < (c + 1) * D * (F32.fin b eb).toRat :=
              mul_lt_mul_of_pos_right h4 hxpos
          _ = (F32.fin b eb).toRat * (c + 1) * D := by ring
      have h6 := lt_of_mul_lt_mul_right h5 (le_of_lt hDq)
      push_cast
      exact h6

/-- For a size below `2 ^ 24` and a positive finite maximum load factor with a quotient below
`2 ^ 24`, the count `size_t(float(n) / max_load) + 1` is at most `2 ^ 24 + 1`: an array of that
length can be allocated. -/
theorem scaled_count_small (s : UnorderedMap K V) (n : Nat) (h : n < 2 ^ 24) (b eb : Int)
    (hx : s.max_load = F32.fin b eb) (hb : 0 < b) (hq : (n : ℚ) / s.max_load.toRat < 2 ^ 24)
    (c : Nat) (hc : s.scaled_count n = .ok c) : c ≤ 2 ^ 24 + 1 ∧ c ≤ max_array_count := by
  have hmax : 2 ^ 24 + 1 ≤ max_array_count := by decide
  suffices hs : c ≤ 2 ^ 24 + 1 from ⟨hs, le_trans hs hmax⟩
  rw [hx] at hq
  have hxpos := toRat_pos b eb hb
  rcases Nat.eq_zero_or_pos n with hn | hn
  · subst hn
    have := scaled_count_zero hc
    omega
  · obtain ⟨N, D, hD, hdiv, hND⟩ := F32.div_ofNat_eq n hn h b eb hb
    have hDq : (0 : ℚ) < D := by exact_mod_cast hD
    have hlt : N < 2 ^ 24 * D := by
      have h1 : (n : ℚ) < 2 ^ 24 * (F32.fin b eb).toRat := by
        rwa [div_lt_iff₀ hxpos] at hq
      have h2 : (N : ℚ) * (F32.fin b eb).toRat < 2 ^ 24 * D * (F32.fin b eb).toRat := by
        rw [hND]
        calc (n : ℚ) * D < 2 ^ 24 * (F32.fin b eb).toRat * D :=
              mul_lt_mul_of_pos_right h1 hDq
          _ = 2 ^ 24 * D * (F32.fin b eb).toRat := by ring
      have h3 : (N : ℚ) < 2 ^ 24 * D := lt_of_mul_lt_mul_right h2 (le_of_lt hxpos)
      exact_mod_cast h3
    simp only [scaled_count, hx, hdiv] at hc
    cases hc0 : F32.toSizeT (F32.roundPos N D) with
    | none => rw [hc0] at hc; cases hc
    | some c0 =>
      rw [hc0] at hc
      simp only [pure, Except.pure, Except.ok.injEq] at hc
      have h1 := F32.toSizeT_roundPos_le N D hD hlt c0 hc0
      have h2 := Nat.mod_le (c0 + 1) (2 ^ 64)
      omega

/-! ## Rehashing keeps the entries -/

theorem fixed_rehash_preserves {H : Traits K} (hH : H.Lawful) {s : UnorderedMap K V}
    {l : List (Entry K V)} (hinv : Inv H s l) (ml : F32) (count : Nat) (hcount : 0 < count)
    (hmax : count ≤ max_array_count) (fuel : Nat) (hf : l.length < fuel) :
    ∃ s' l', fixed_rehash fuel { s with max_load := ml } count = .ok s' ∧ Inv H s' l' ∧
      l'.Perm l ∧ s'.bucket_count = count ∧ s'.max_load = ml ∧ s'.sz = s.sz := by
  have hinv1 := hinv.with_max_load ml
  obtain ⟨s', l', h1, h2, h3, h4, h5, _, h7⟩ :=
    fixed_rehash_spec hH hinv1.chain hinv1.size hinv1.keys count hcount hmax fuel hf
  exact ⟨s', l', h1, h2, h3, h4, h5, h7⟩

theorem with_max_load_self (s : UnorderedMap K V) :
    ({ s with max_load := s.max_load } : UnorderedMap K V) = s := by
  cases s; rfl

theorem reserve_spec {H : Traits K} (hH : H.Lawful) {s : UnorderedMap K V}
    {l : List (Entry K V)} (hinv : Inv H s l) (n c : Nat) (hc : s.scaled_count n = .ok c)
    (hmax : s.bucket_count < c → c ≤ max_array_count) (fuel : Nat) (hf : l.length < fuel) :
    ∃ s' l', reserve fuel s n = .ok s' ∧ Inv H s' l' ∧ l'.Perm l ∧
      s'.bucket_count = max c s.bucket_count ∧ s'.max_load = s.max_load ∧ s'.sz = s.sz := by
  unfold reserve
  rw [hc]
  by_cases hgt : c > s.bucket_count
  · obtain ⟨s', l', h1, h2, h3, h4, h5⟩ :=
      fixed_rehash_preserves hH hinv s.max_load c (by omega) (hmax hgt) fuel hf
    rw [with_max_load_self] at h1
    refine ⟨s', l', ?_, h2, h3, ?_, h5⟩
    · show (if c > s.bucket_count then fixed_rehash fuel s c else pure s) = _
      rw [if_pos hgt]
      exact h1
    · rw [h4]; exact (max_eq_left (le_of_lt hgt)).symm
  · refine ⟨s, l, ?_, hinv, List.Perm.refl _, ?_, rfl, rfl⟩
    · show (if c > s.bucket_count then fixed_rehash fuel s c else pure s) = _
      rw [if_neg hgt]
      rfl
    · exact (max_eq_right (by omega)).symm

/-- C11 (failing input): on a default-constructed map whose maximum load factor has been set to
0.25, the first insertion doubles the bucket array once, from 1 to 2 buckets, and returns with
size 1: the load factor is 0.5, above the maximum load factor, in binary32 as well as exactly. -/
theorem load_factor_exceeds_bound_after_insertion :
    ∃ s, max_load_factor 8 map0 (F32.fin 1 (-2)) = .ok s ∧ s.bucket_count = 1 ∧
    ∃ s' it, emplace natTraits 8 s 1 (some (1, 10)) = .ok (s', it, true) ∧
      s'.size = 1 ∧ s'.bucket_count = 2 ∧ s'.max_load = F32.fin 1 (-2) ∧
      s'.load_factor = F32.fin 8388608 (-24) ∧
      F32.gt s'.load_factor s'.max_load = true ∧ ¬ (4 * s'.size ≤ s'.bucket_count) :=
  ⟨_, rfl, rfl, _, _, rfl, rfl, rfl, rfl, rfl, rfl, by decide⟩

theorem find_const_diverges (H : Traits K) (s : UnorderedMap K V) (k : K) :
    ∀ fuel, find_const H fuel s k = .error .diverge
  | 0 => rfl
  | fuel + 1 => find_const_diverges H s k fuel

/-- C13 (failing input): the copy constructed from the map holding 2 -> 20 and 1 -> 10 has the
size and the traversal of its source, but all its bucket slots are null: `find` returns `end()`
for both keys and `at(1)` throws. -/
theorem copy_constructed_map_finds_nothing :
    find natTraits 8 map2 1 = .ok (some (.node 1)) ∧ UnorderedMap.at natTraits 8 map2 1 = .ok 10 ∧
    ∃ c, copy_construct 8 (fresh 10) map2 1 = .ok c ∧ c.size = map2.size ∧
      traversal 8 c = .ok [(.node 10, 2, 20), (.node 11, 1, 10)] ∧
      c.bucket_count = 2 ∧ (∀ h, c.arr h = none) ∧
      find natTraits 8 c 1 = .ok none ∧ find natTraits 8 c 2 = .ok none ∧
      UnorderedMap.at natTraits 8 c 1 = .error .out_of_range :=
  ⟨rfl, rfl, _, rfl, rfl, rfl, rfl, fun _ => rfl, rfl, rfl, rfl⟩

/-- C14 (failing input): after the copy assignment `d = s` of the map `s` holding 1 -> 10 to
an empty map `d`, the chain of `d` is a copy of that of `s` but `d.size()` is still 0. -/
theorem copy_assignment_keeps_old_size :
    other0.size = 0 ∧ map1.size = 1 ∧
    ∃ d, copy_assign 8 (fresh 10) 2 other0 map1 = .ok d ∧ d.size = 0 ∧
      traversal 8 d = .ok [(.node 10, 1, 10)] :=
  ⟨rfl, rfl, _, rfl, rfl, rfl⟩

/-- C16 (failing input): after the copy assignment `c = s` of the map `s` (object 0) holding
1 -> 10 to an empty map `c` (object 1), slot 0 of `c` is the sentinel of `s`, and
`c.emplace(2, 20)` links its new node into the chain of `s`: the traversal of `s` gains the
entry 2 -> 20 and `s.find(2)` finds it, while `c` does not hold it.  On the copy constructed
from `s`, whose slots are all null, `erase` of its only entry dereferences a null slot. -/
theorem copy_assigned_map_shares_slots :
    (∃ c, copy_assign 8 (fresh 10) 2 other0 map1 = .ok c ∧ c.self = 1 ∧ map1.self = 0 ∧
      c.arr 0 = some (.fake 0) ∧
      traversal 8 { map1 with mem := c.mem } = .ok [(.node 1, 1, 10)] ∧
      find natTraits 8 { map1 with mem := c.mem } 2 = .ok none ∧
      ∃ c' it, emplace natTraits 8 c 20 (some (2, 20)) = .ok (c', it, true) ∧
        traversal 8 { map1 with mem := c'.mem } = .ok [(.node 20, 2, 20), (.node 1, 1, 10)] ∧
        find natTraits 8 { map1 with mem := c'.mem } 2 = .ok (some (.node 20)) ∧
        traversal 8 c' = .ok [(.node 10, 1, 10)]) ∧
    (∃ c, copy_construct 8 (fresh 10) map1 1 = .ok c ∧ traversal 8 c = .ok [(.node 10, 1, 10)] ∧
      erase 8 c (some (.node 10)) = .error .undefined) :=
  ⟨⟨_, rfl, rfl, rfl, rfl, rfl, rfl, _, _, rfl, rfl, rfl, rfl⟩, ⟨_, rfl, rfl, rfl⟩⟩

/-- C17 (failing input): moving the map `s` (object 0) holding 2 -> 20 and 1 -> 10, by the move
constructor or by move assignment to an empty map, gives a map `d` with the size and the nodes
of `s` and leaves `s` with size 0, but slot 0 of `d` is still the sentinel of `s`, whose
`next` is now null: `d.find(2)` returns `end()`. -/
theorem moved_map_loses_first_bucket :
    find natTraits 8 map2 2 = .ok (some (.node 2)) ∧
    (∃ d s, move_construct 8 map2 1 = .ok (d, s) ∧ s.size = 0 ∧ d.size = 2 ∧
      traversal 8 d = .ok [(.node 2, 2, 20), (.node 1, 1, 10)] ∧
      d.arr 0 = some (.fake 0) ∧ find natTraits 8 d 2 = .ok none ∧
      find natTraits 8 d 1 = .ok (some (.node 1))) ∧
    (∃ d s, move_assign 8 other2 map2 = .ok (d, s) ∧ s.size = 0 ∧ d.size = 2 ∧
      traversal 8 d = .ok [(.node 2, 2, 20), (.node 1, 1, 10)] ∧
      d.arr 0 = some (.fake 0) ∧ find natTraits 8 d 2 = .ok none ∧
      find natTraits 8 d 1 = .ok (some (.node 1))) :=
  ⟨rfl, ⟨_, _, rfl, rfl, rfl, rfl, rfl, rfl, rfl⟩, ⟨_, _, rfl, rfl, rfl, rfl, rfl, rfl, rfl⟩⟩

/-- C18 (failing input): swapping an empty map `b` (object 1) with the map `a` (object 0) holding
2 -> 20 and 1 -> 10 exchanges the sizes, the bucket counts and the traversals, but slot 0 of
the array `b` receives is the sentinel of `a`, whose `next` is now null: `b.find(2)` returns
`end()`. -/
theorem swapped_map_loses_first_bucket :
    find natTraits 8 map2 2 = .ok (some (.node 2)) ∧
    (swap other2 map2).1.size = 2 ∧ (swap other2 map2).2.size = 0 ∧
    (swap other2 map2).1.bucket_count = 2 ∧ (swap other2 map2).2.bucket_count = 1 ∧
    traversal 8 (swap other2 map2).1 = .ok [(.node 2, 2, 20), (.node 1, 1, 10)] ∧
    traversal 8 (swap other2 map2).2 = .ok [] ∧
    (swap other2 map2).1.arr 0 = some (.fake 0) ∧
    find natTraits 8 (swap other2 map2).1 2 = .ok none ∧
    find natTraits 8 (swap other2 map2).1 1 = .ok (some (.node 1)) :=
  ⟨rfl, rfl, rfl, rfl, rfl, rfl, rfl, rfl, rfl, rfl⟩

/-- C20 (failing input): for two maps that both hold the single key 1, `a == b` never returns,
whatever the depth allowed and whatever converts the pair to a key: the sizes are equal, so
the loop calls `b.find(...)` on the const map `b`, and that member calls itself. -/
theorem operator_eq_on_equal_maps_diverges (conv : Nat × Nat → Nat) (fuel : Nat) :
    other1.size = map1.size ∧ traversal 8 other1 = .ok [(.node 2, 1, 10)] ∧
    find natTraits 8 map1 1 = .ok (some (.node 1)) ∧
    operator_eq natTraits conv fuel other1 map1 = .error .diverge := by
  refine ⟨rfl, rfl, rfl, ?_⟩
  cases fuel with
  | zero => rfl
  | succ n =>
    have h1 : other1.sz = map1.sz := rfl
    have h2 : other1.begin = some (.node 2) := rfl
    have h3 : ForwardList.get_data other1.mem (.node 2) = .ok (1, 10) := rfl
    simp only [operator_eq, h1, ne_eq, not_true_eq_false, if_false, h2, operator_eq_loop, h3,
      find_const_diverges]
    rfl

/-! ## The copy constructor of the list -/

theorem Nodes.addr_live_nodes {H : Traits K} {m : Mem K V} {l : List (Entry K V)} {q : Option Ptr}
    (hn : Nodes H m l q) {a : Nat} (ha : m.node a = none) : a ∉ l.map Entry.addr := by
  intro hmem
  obtain ⟨e, he, rfl⟩ := List.mem_map.mp hmem
  obtain ⟨nx, hnode⟩ := hn.node_of_mem he
  rw [ha] at hnode
  exact absurd hnode (by simp)

theorem copy_node_spec (m : Mem K V) (a b : Nat) (nx : Option Ptr) (d : K × V) (h : Nat)
    (ha : m.node a = none) (hb : m.node b = some ⟨nx, d, h⟩) :
    ∃ m', ForwardList.copy_node m a true (.node b) none = .ok m' ∧
      m'.node a = some ⟨none, d, h⟩ ∧ Frame m m' [Ptr.node a] := by
  have hab : b ≠ a := by
    intro hab; rw [hab, ha] at hb; exact absurd hb (by simp)
  simp only [ForwardList.copy_node, ForwardList.get_data, hb, ForwardList.place_construct, ha,
    if_true, Mem.set_next, ForwardList.get_hash, Mem.set_hash, bind, Except.bind, if_neg hab]
  refine ⟨_, rfl, ?_, ?_⟩
  · simp
  · constructor
    · intro c hc
      have hca : c ≠ a := by
        intro h; apply hc; simp [h]
      simp [hca]
    · intro i _
      rfl

theorem copies_length (alloc : Nat → Nat × Bool) (k : Nat) (l : List (Entry K V)) :
    (copies alloc k l).length = l.length := by
  induction l generalizing k with
  | nil => rfl
  | cons e l ih => simp [copies, ih]

theorem copies_addr (alloc : Nat → Nat × Bool) (k : Nat) (l : List (Entry K V)) :
    ∀ a, a ∈ (copies alloc k l).map Entry.addr ↔ ∃ i, i < l.length ∧ a = (alloc (k + i)).1 := by
  induction l generalizing k with
  | nil => intro a; simp [copies]
  | cons e l ih =>
    intro a
    simp only [copies, List.map_cons, List.mem_cons, ih, List.length_cons]
    constructor
    · rintro (h | ⟨i, hi, h⟩)
      · exact ⟨0, by omega, by simpa using h⟩
      · exact ⟨i + 1, by omega, by rw [h]; congr 2; omega⟩
    · rintro ⟨i, hi, h⟩
      cases i with
      | zero => left; simpa using h
      | succ j => right; exact ⟨j, by omega, by rw [h]; congr 2; omega⟩

theorem copies_nodup (alloc : Nat → Nat × Bool) (k : Nat) (l : List (Entry K V))
    (hinj : ∀ i j, i < l.length → j < l.length → (alloc (k + i)).1 = (alloc (k + j)).1 → i = j) :
    ((copies alloc k l).map Entry.addr).Nodup := by
  induction l generalizing k with
  | nil => simp [copies]
  | cons e l ih =>
    simp only [copies, List.map_cons, List.nodup_cons]
    constructor
    · rw [copies_addr]
      rintro ⟨i, hi, h⟩
      have := hinj 0 (i + 1) (by simp) (by simp; omega) (by rw [Nat.add_zero, h]; congr 2; omega)
      omega
    · apply ih
      intro i j hi hj h
      have := hinj (i + 1) (j + 1) (by simp; omega) (by simp; omega)
        (by rw [show k + (i + 1) = k + 1 + i by omega, show k + (j + 1) = k + 1 + j by omega]; exact h)
      omega

theorem copies_pairs (alloc : Nat → Nat × Bool) (k : Nat) (l : List (Entry K V)) :
    (copies alloc k l).map (fun e => (e.key, e.val)) = l.map (fun e => (e.key, e.val)) := by
  induction l generalizing k with
  | nil => rfl
  | cons e l ih => simp [copies, ih]

theorem copy_loop_spec {H : Traits K} (alloc : Nat → Nat × Bool) (self : Nat)
    (rest : List (Entry K V)) :
    ∀ (fuel k : Nat) (m : Mem K V) (done : List (Entry K V)),
      rest.length < fuel →
      Seg H m (.fake self) done none →
      Nodes H m rest none →
      (done.map Entry.addr).Nodup →
      (∀ e ∈ rest, e.addr ∉ done.map Entry.addr) →
      (∀ i, i < rest.length → m.node (alloc (k + i)).1 = none) →
      (∀ i j, i < rest.length → j < rest.length → (alloc (k + i)).1 = (alloc (k + j)).1 → i = j) →
      (∀ i, i < rest.length → (alloc (k + i)).2 = true) →
      ∃ m', ForwardList.copy_loop alloc fuel m (lastPtr (.fake self) done) (nextOf rest none) k =
          .ok (m', none) ∧
        Seg H m' (.fake self) (done ++ copies alloc k rest) none ∧
        Frame m m' (lastPtr (.fake self) done :: (copies alloc k rest).map Entry.ptr) := by
  induction rest with
  | nil =>
    intro fuel k m done hf hseg _ _ _ _ _ _
    obtain ⟨f, rfl⟩ : ∃ f, fuel = f + 1 := ⟨fuel - 1, by simp at hf; omega⟩
    refine ⟨m, rfl, ?_, Frame.refl _ _⟩
    simpa [copies] using hseg
  | cons e rest ih =>
    intro fuel k m done hf hseg hn hnd hdis hfree hinj hok
    obtain ⟨f, rfl⟩ : ∃ f, fuel = f + 1 := ⟨fuel - 1, by simp at hf; omega⟩
    rw [Nodes_cons] at hn
    obtain ⟨hnode, hn'⟩ := hn
    have ha : m.node (alloc k).1 = none := by simpa using hfree 0 (by simp)
    have hokk : (alloc k).2 = true := by simpa using hok 0 (by simp)
    obtain ⟨m1, hcopy, hm1a, hfr1⟩ := copy_node_spec m (alloc k).1 e.addr _ _ _ ha hnode
    -- address facts
    have ha_done : (alloc k).1 ∉ done.map Entry.addr := hseg.2.addr_live_nodes ha
    have ha_rest : (alloc k).1 ∉ rest.map Entry.addr := hn'.addr_live_nodes ha
    have hae : (alloc k).1 ≠ e.addr := by
      intro h; rw [h, hnode] at ha; exact absurd ha (by simp)
    have hpnd : (Ptr.fake self :: done.map Entry.ptr).Nodup := nodup_ptr_of_addr hnd self
    have hlast_mem := lastPtr_mem (Ptr.fake self) done
    have hnode_a_last : Ptr.node (alloc k).1 ≠ lastPtr (.fake self) done := by
      intro h
      rw [← h] at hlast_mem
      rcases List.mem_cons.mp hlast_mem with h1 | h1
      · exact absurd h1 (by simp)
      · exact addr_not_mem_of_ptr ha_done h1
    have hseg1 : Seg H m1 (.fake self) done none :=
      hseg.frame_seg hfr1 (by simp) (fun x hx => by
        intro hmem
        simp only [List.mem_singleton] at hmem
        have : x.addr = (alloc k).1 := by simpa [Entry.ptr] using hmem
        exact ha_done (this ▸ List.mem_map_of_mem _ hx))
    obtain ⟨m2, hset, hseg2, hfr2⟩ := hseg1.set_last hpnd (some (.node (alloc k).1))
    -- the source nodes are untouched
    have hsrc : ∀ x : Entry K V, m.node x.addr ≠ none → x.addr ∉ done.map Entry.addr →
        m2.node x.addr = m.node x.addr := by
      intro x hx hxd
      have h1 : m1.node x.addr = m.node x.addr := hfr1.1 _ (by
        simp only [List.mem_singleton, Ptr.node.injEq]
        intro h; rw [h] at hx; exact hx ha)
      have h2 : m2.node x.addr = m1.node x.addr := hfr2.1 _ (by
        simp only [List.mem_singleton]
        intro h
        rw [← h] at hlast_mem
        rcases List.mem_cons.mp hlast_mem with h3 | h3
        · exact absurd h3 (by simp)
        · obtain ⟨y, hy, hyx⟩ := List.mem_map.mp h3
          have : y.addr = x.addr := by simpa [Entry.ptr] using hyx
          exact hxd (this ▸ List.mem_map_of_mem _ hy))
      rw [h2, h1]
    have hnext : m2.next (.node e.addr) = .ok (nextOf rest none) := by
      have := hsrc e (by rw [hnode]; simp) (hdis e (by simp))
      rw [next_node_of m2 e.addr _ (this.trans hnode)]
    have hm2a : m2.node (alloc k).1 = some ⟨none, (e.key, e.val), H.hash_func e.key⟩ := by
      rw [hfr2.1 _ (by simpa using hnode_a_last), hm1a]
    have hseg3 : Seg H m2 (.fake self) (done ++ [(⟨(alloc k).1, e.key, e.val⟩ : Entry K V)]) none := by
      rw [Seg_append]
      refine ⟨hseg2, hseg2.next_last, ?_, trivial⟩
      exact hm2a
    have hlast3 : lastPtr (.fake self) (done ++ [(⟨(alloc k).1, e.key, e.val⟩ : Entry K V)]) =
        .node (alloc k).1 := by
      rw [lastPtr_append]; rfl
    have hrest_ne : ∀ x ∈ rest, x.ptr ∉ [Ptr.node (alloc k).1] := by
      intro x hx hmem
      simp only [List.mem_singleton] at hmem
      have : x.addr = (alloc k).1 := by simpa [Entry.ptr] using hmem
      exact ha_rest (this ▸ List.mem_map_of_mem _ hx)
    have hrest_last : ∀ x ∈ rest, x.ptr ∉ [lastPtr (.fake self) done] := by
      intro x hx hmem
      simp only [List.mem_singleton] at hmem
      rw [← hmem] at hlast_mem
      rcases List.mem_cons.mp hlast_mem with h3 | h3
      · exact absurd h3 (by simp [Entry.ptr])
      · obtain ⟨y, hy, hyx⟩ := List.mem_map.mp h3
        have : y.addr = x.addr := by simpa [Entry.ptr] using hyx
        exact hdis x (List.mem_cons_of_mem _ hx) (this ▸ List.mem_map_of_mem _ hy)
    have hn2 : Nodes H m2 rest none := (hn'.frame_nodes hfr1 hrest_ne).frame_nodes hfr2 hrest_last
    have hnd3 : ((done ++ [(⟨(alloc k).1, e.key, e.val⟩ : Entry K V)]).map Entry.addr).Nodup := by
      rw [List.map_append, List.nodup_append]
      refine ⟨hnd, by simp, ?_⟩
      intro x hx hy
      simp only [List.map_cons, List.map_nil, List.mem_singleton] at hy
      exact ha_done (hy ▸ hx)
    have hdis3 : ∀ x ∈ rest, x.addr ∉ (done ++ [(⟨(alloc k).1, e.key, e.val⟩ : Entry K V)]).map Entry.addr := by
      intro x hx
      rw [List.map_append, List.mem_append]
      rintro (h | h)
      · exact hdis x (List.mem_cons_of_mem _ hx) h
      · simp only [List.map_cons, List.map_nil, List.mem_singleton] at h
        exact ha_rest (h ▸ List.mem_map_of_mem _ hx)
    have hfree3 : ∀ i, i < rest.length → m2.node (alloc (k + 1 + i)).1 = none := by
      intro i hi
      have h0 : m.node (alloc (k + 1 + i)).1 = none := by
        have := hfree (i + 1) (by simp; omega)
        rwa [show k + (i + 1) = k + 1 + i by omega] at this
      have hne : (alloc (k + 1 + i)).1 ≠ (alloc k).1 := by
        intro h
        have := hinj (i + 1) 0 (by simp; omega) (by simp)
          (by rw [show k + (i + 1) = k + 1 + i by omega, Nat.add_zero]; exact h)
        omega
      have h1 : m1.node (alloc (k + 1 + i)).1 = none := by
        rw [hfr1.1 _ (by simpa using hne)]; exact h0
      rw [hfr2.1 _ ?_]
      · exact h1
      · simp only [List.mem_singleton]
        intro h
        rw [← h] at hlast_mem
        rcases List.mem_cons.mp hlast_mem with h3 | h3
        · exact absurd h3 (by simp)
        · exact addr_not_mem_of_ptr (hseg.2.addr_live_nodes h0) h3
    obtain ⟨m', hloop, hseg', hfr'⟩ := ih f (k + 1) m2 _ (by simp at hf; omega) hseg3 hn2 hnd3 hdis3
      hfree3
      (fun i j hi hj h => by
        have := hinj (i + 1) (j + 1) (by simp; omega) (by simp; omega)
          (by rw [show k + (i + 1) = k + 1 + i by omega, show k + (j + 1) = k + 1 + j by omega]; exact h)
        omega)
      (fun i hi => by
        have := hok (i + 1) (by simp; omega)
        rwa [show k + (i + 1) = k + 1 + i by omega] at this)
    rw [hlast3] at hloop hfr'
    refine ⟨m', ?_, ?_, ?_⟩
    · show ForwardList.copy_loop alloc (f + 1) m (lastPtr (.fake self) done) (some (.node e.addr)) k = _
      simp only [ForwardList.copy_loop]
      rw [hokk, hcopy]
      simp only [hset, hnext, bind, Except.bind]
      exact hloop
    · simpa [copies, List.append_assoc] using hseg'
    · have hsub1 : Frame m m1 (lastPtr (.fake self) done ::
          (copies alloc k (e :: rest)).map Entry.ptr) :=
        hfr1.mono (by intro p hp; simp only [List.mem_singleton] at hp; subst hp; simp [copies, Entry.ptr])
      have hsub2 : Frame m1 m2 (lastPtr (.fake self) done ::
          (copies alloc k (e :: rest)).map Entry.ptr) :=
        hfr2.mono (by intro p hp; simp only [List.mem_singleton] at hp; subst hp; simp)
      have hsub3 : Frame m2 m' (lastPtr (.fake self) done ::
          (copies alloc k (e :: rest)).map Entry.ptr) :=
        hfr'.mono (by
          intro p hp
          simp only [copies, List.map_cons, List.mem_cons] at hp ⊢
          rcases hp with h | h
          · right; left; rw [h]; rfl
          · right; right; exact h)
      exact (hsub1.trans hsub2).trans hsub3

theorem set_fake_frame (m : Mem K V) (i : Nat) (q : Option Ptr) :
    Frame m (m.set_fake i q) [Ptr.fake i] := by
  constructor
  · intro b _; rfl
  · intro j hj
    have : j ≠ i := by intro h; apply hj; simp [h]
    simp [Mem.set_fake, this]

theorem set_fake_self (m : Mem K V) (i : Nat) (q : Option Ptr) :
    (m.set_fake i q).fake_node i = q := by
  simp [Mem.set_fake]

theorem set_fake_other (m : Mem K V) (i j : Nat) (q : Option Ptr) (h : j ≠ i) :
    (m.set_fake i q).fake_node j = m.fake_node j := by
  simp [Mem.set_fake, h]

theorem entry_ptr_ne_fake (e : Entry K V) (i : Nat) : e.ptr ≠ Ptr.fake i := by
  simp [Entry.ptr]

theorem Nodes.set_fake_nodes {H : Traits K} {m : Mem K V} {l : List (Entry K V)} {q : Option Ptr}
    (hn : Nodes H m l q) (i : Nat) (x : Option Ptr) : Nodes H (m.set_fake i x) l q :=
  hn.frame_nodes (set_fake_frame m i x) (fun e _ => by simp [Entry.ptr])

theorem destroy_empty (fuel : Nat) (m : Mem K V) (i : Nat) (h : m.fake_node i = none)
    (hf : 0 < fuel) : ForwardList.destroy fuel m i = .ok m := by
  obtain ⟨f, rfl⟩ : ∃ f, fuel = f + 1 := ⟨fuel - 1, by omega⟩
  simp [ForwardList.destroy, h, ForwardList.destroy_loop]

theorem list_copy_construct_spec {H : Traits K} (alloc : Nat → Nat × Bool) (m : Mem K V)
    (self other : Nat) (l : List (Entry K V)) (hne : self ≠ other)
    (hseg : Seg H m (.fake other) l none) (fuel : Nat) (hf : l.length < fuel)
    (hfree : ∀ i, i < l.length → m.node (alloc i).1 = none)
    (hinj : ∀ i j, i < l.length → j < l.length → (alloc i).1 = (alloc j).1 → i = j)
    (hok : ∀ i, i < l.length → (alloc i).2 = true) :
    ∃ m', ForwardList.copy_construct fuel alloc m self other l.length = .ok (m', l.length) ∧
      Seg H m' (.fake self) (copies alloc 0 l) none ∧
      Frame m m' (.fake self :: (copies alloc 0 l).map Entry.ptr) := by
  have hseg0 : Seg H (m.set_fake self none) (.fake self) ([] : List (Entry K V)) none :=
    ⟨by simp [Mem.next, set_fake_self, nextOf], trivial⟩
  cases l with
  | nil =>
    refine ⟨m.set_fake self none, ?_, hseg0, ?_⟩
    · simp [ForwardList.copy_construct]
    · simpa [copies] using set_fake_frame m self none
  | cons e l =>
    have hfirst : (m.set_fake self none).fake_node other = some e.ptr := by
      rw [set_fake_other _ _ _ _ (Ne.symm hne)]
      have := hseg.1
      simp only [Mem.next, nextOf] at this
      exact Except.ok.inj this
    obtain ⟨m', hloop, hseg', hfr'⟩ := copy_loop_spec (H := H) alloc self (e :: l) fuel 0
      (m.set_fake self none) [] hf hseg0 (hseg.2.set_fake_nodes self none) (by simp) (by simp)
      (fun i hi => by simpa using hfree i hi)
      (fun i j hi hj h => hinj i j hi hj (by simpa using h))
      (fun i hi => by simpa using hok i hi)
    refine ⟨m', ?_, by simpa using hseg', ?_⟩
    · simp only [ForwardList.copy_construct, List.length_cons, hfirst]
      have hl : lastPtr (.fake self) ([] : List (Entry K V)) = .fake self := rfl
      rw [hl] at hloop
      have hn : nextOf (e :: l) none = some e.ptr := rfl
      rw [hn] at hloop
      simp [hloop, bind, Except.bind, pure, Except.pure]
    · have h1 : Frame m (m.set_fake self none)
          (.fake self :: (copies alloc 0 (e :: l)).map Entry.ptr) :=
        (set_fake_frame m self none).mono (by intro p hp; simp at hp; simp [hp])
      exact h1.trans hfr'

theorem list_copy_assign_spec {H : Traits K} (alloc : Nat → Nat × Bool) (m : Mem K V)
    (self other tmp : Nat) (l : List (Entry K V)) (htmp : tmp ≠ other) (hts : tmp ≠ self)
    (hseg : Seg H m (.fake other) l none) (fuel : Nat) (hf : l.length < fuel)
    (hfree : ∀ i, i < l.length → m.node (alloc i).1 = none)
    (hinj : ∀ i j, i < l.length → j < l.length → (alloc i).1 = (alloc j).1 → i = j)
    (hok : ∀ i, i < l.length → (alloc i).2 = true) :
    ∃ m', ForwardList.copy_assign fuel alloc m self other l.length tmp = .ok m' ∧
      Seg H m' (.fake self) (copies alloc 0 l) none ∧
      Frame m m' (.fake self :: .fake tmp :: (copies alloc 0 l).map Entry.ptr) := by
  obtain ⟨m1, hcc, hseg1, hfr1⟩ :=
    list_copy_construct_spec (H := H) alloc m tmp other l htmp hseg fuel hf hfree hinj hok
  have hfk : m1.fake_node tmp = nextOf (copies alloc 0 l) none := by
    have := hseg1.1
    simp only [Mem.next] at this
    exact Except.ok.inj this
  refine ⟨(m1.set_fake self (m1.fake_node tmp)).set_fake tmp none, ?_, ?_, ?_⟩
  · simp only [ForwardList.copy_assign, hcc, bind, Except.bind]
    exact destroy_empty fuel _ tmp (set_fake_self _ _ _) (by omega)
  · refine ⟨?_, (hseg1.2.set_fake_nodes self _).set_fake_nodes tmp none⟩
    simp only [Mem.next]
    rw [set_fake_other _ _ _ _ (Ne.symm hts), set_fake_self, hfk]
  · have h1 : Frame m m1 (.fake self :: .fake tmp :: (copies alloc 0 l).map Entry.ptr) :=
      hfr1.mono (by
        intro p hp
        simp only [List.mem_cons] at hp ⊢
        rcases hp with h | h
        · right; left; exact h
        · right; right; exact h)
    have h2 : Frame m1 (m1.set_fake self (m1.fake_node tmp))
        (.fake self :: .fake tmp :: (copies alloc 0 l).map Entry.ptr) :=
      (set_fake_frame m1 self _).mono (by intro p hp; simp at hp; simp [hp])
    have h3 : Frame (m1.set_fake self (m1.fake_node tmp))
        ((m1.set_fake self (m1.fake_node tmp)).set_fake tmp none)
        (.fake self :: .fake tmp :: (copies alloc 0 l).map Entry.ptr) :=
      (set_fake_frame _ tmp none).mono (by intro p hp; simp at hp; simp [hp])
    exact (h1.trans h2).trans h3

theorem copies_not_live {H : Traits K} {m : Mem K V} {l l0 : List (Entry K V)} {q : Option Ptr}
    (alloc : Nat → Nat × Bool) (hn : Nodes H m l q)
    (hfree : ∀ i, i < l0.length → m.node (alloc i).1 = none) :
    ∀ e ∈ l, e.ptr ∉ (copies alloc 0 l0).map Entry.ptr := by
  intro e he hmem
  obtain ⟨x, hx, hxe⟩ := List.mem_map.mp hmem
  have hax : x.addr = e.addr := by simpa [Entry.ptr] using hxe
  have : x.addr ∈ (copies alloc 0 l0).map Entry.addr := List.mem_map_of_mem _ hx
  rw [copies_addr] at this
  obtain ⟨i, hi, hxi⟩ := this
  have h0 := hfree i hi
  rw [Nat.zero_add] at hxi
  rw [← hxi, hax] at h0
  exact hn.addr_live_nodes h0 (List.mem_map_of_mem _ he)

theorem copies_view_pairs (alloc : Nat → Nat × Bool) (k : Nat) (l : List (Entry K V)) :
    ((copies alloc k l).map Entry.view).map (fun x => x.2) = (l.map Entry.view).map (fun x => x.2) := by
  induction l generalizing k with
  | nil => rfl
  | cons e l ih => simp [copies, Entry.view, ih]

theorem view_hashes {H : Traits K} {m : Mem K V} {l : List (Entry K V)} {q : Option Ptr}
    (hn : Nodes H m l q) :
    (l.map Entry.view).map (fun x => ForwardList.get_hash m x.1) =
      l.map (fun e => (.ok (H.hash_func e.key) : Except Err Nat)) := by
  induction l with
  | nil => rfl
  | cons e l ih =>
    rw [Nodes_cons] at hn
    simp only [List.map_cons, List.map_map] at ih ⊢
    rw [ih hn.2]
    congr 1
    simp [Entry.view, Entry.ptr, ForwardList.get_hash, hn.1]

theorem copies_hashes (H : Traits K) (alloc : Nat → Nat × Bool) (k : Nat) (l : List (Entry K V)) :
    (copies alloc k l).map (fun e => (.ok (H.hash_func e.key) : Except Err Nat)) =
      l.map (fun e => (.ok (H.hash_func e.key) : Except Err Nat)) := by
  induction l generalizing k with
  | nil => rfl
  | cons e l ih => simp [copies, ih]

/-- What the claim says of a copy `c` of `s`: the traversal `t'` of `c` has the pairs and the
cached hashes of the traversal `t` of `s`, in the same order, and `s` still has its traversal,
its cached hashes and its answers of `find`. -/
theorem copy_agrees_of_chain {H : Traits K} (hH : H.Lawful) {s c : UnorderedMap K V}
    {l : List (Entry K V)} (alloc : Nat → Nat × Bool) (hinv : Inv H s l)
    (hseg : Seg H c.mem (.fake c.self) (copies alloc 0 l) none)
    (ps : List Ptr) (hfr : Frame s.mem c.mem ps) (hself : Ptr.fake s.self ∉ ps)
    (hps : ∀ e ∈ l, e.ptr ∉ ps) (fuel : Nat) (hf : l.length < fuel) :
    ∃ t', traversal fuel c = .ok t' ∧
      t'.map (fun x => x.2) = (l.map Entry.view).map (fun x => x.2) ∧
      t'.map (fun x => ForwardList.get_hash c.mem x.1) =
        (l.map Entry.view).map (fun x => ForwardList.get_hash s.mem x.1) ∧
      traversal fuel { s with mem := c.mem } = .ok (l.map Entry.view) ∧
      (l.map Entry.view).map (fun x => ForwardList.get_hash c.mem x.1) =
        (l.map Entry.view).map (fun x => ForwardList.get_hash s.mem x.1) ∧
      ∀ k, find H fuel { s with mem := c.mem } k = find H fuel s k := by
  have hinv' : Inv H { s with mem := c.mem } l := hinv.frame_inv hfr hself hps
  have htr : traversal fuel c = .ok ((copies alloc 0 l).map Entry.view) := by
    have := traverse_from_spec (H := H) c.mem (copies alloc 0 l) hseg.2 fuel
      (by rw [copies_length]; exact hf)
    have hb : c.begin = nextOf (copies alloc 0 l) none := by
      have := hseg.1
      simp only [Mem.next] at this
      exact Except.ok.inj this
    simp only [traversal, hb]
    exact this
  refine ⟨_, htr, copies_view_pairs alloc 0 l, ?_, traversal_spec hinv'.chain fuel hf, ?_, ?_⟩
  · rw [view_hashes hseg.2, view_hashes hinv.chain.seg.2, copies_hashes]
  · rw [view_hashes hinv'.chain.seg.2, view_hashes hinv.chain.seg.2]
  · intro k
    rw [find_spec hH hinv' k fuel hf, find_spec hH hinv k fuel hf]

/-! ## Copies reproduce the traversal -/

/-- C15: on a reachable map `s`, a copy construction and a copy assignment whose node
allocations succeed at distinct free addresses, and whose pair copies do not throw, return a
map whose traversal has the (key, value) pairs of the traversal of `s` in the same order, with
the same cached hashes; `s` keeps its traversal, its cached hashes and its answers of `find`. -/
theorem copy_reproduces_traversal {H : Traits K} (hH : H.Lawful) {s : UnorderedMap K V}
    (hr : Reachable H s) (alloc : Nat → Nat × Bool) (fuel : Nat) (hf : s.sz < fuel)
    (hfree : ∀ i, i < s.sz → s.mem.node (alloc i).1 = none)
    (hinj : ∀ i j, i < s.sz → j < s.sz → (alloc i).1 = (alloc j).1 → i = j)
    (hok : ∀ i, i < s.sz → (alloc i).2 = true)
    (t : List (Ptr × K × V)) (ht : traversal fuel s = .ok t) :
    (∀ self, self ≠ s.self →
      ∃ c t', copy_construct fuel alloc s self = .ok c ∧ traversal fuel c = .ok t' ∧
        t'.map (fun x => x.2) = t.map (fun x => x.2) ∧
        t'.map (fun x => ForwardList.get_hash c.mem x.1) =
          t.map (fun x => ForwardList.get_hash s.mem x.1) ∧
        traversal fuel { s with mem := c.mem } = .ok t ∧
        t.map (fun x => ForwardList.get_hash c.mem x.1) =
          t.map (fun x => ForwardList.get_hash s.mem x.1) ∧
        ∀ k, find H fuel { s with mem := c.mem } k = find H fuel s k) ∧
    (∀ d tmp, d.mem = s.mem → d.self ≠ s.self → tmp ≠ s.self → tmp ≠ d.self →
      ∃ c t', copy_assign fuel alloc tmp d s = .ok c ∧ traversal fuel c = .ok t' ∧
        t'.map (fun x => x.2) = t.map (fun x => x.2) ∧
        t'.map (fun x => ForwardList.get_hash c.mem x.1) =
          t.map (fun x => ForwardList.get_hash s.mem x.1) ∧
        traversal fuel { s with mem := c.mem } = .ok t ∧
        t.map (fun x => ForwardList.get_hash c.mem x.1) =
          t.map (fun x => ForwardList.get_hash s.mem x.1) ∧
        ∀ k, find H fuel { s with mem := c.mem } k = find H fuel s k) := by
  obtain ⟨l, hinv⟩ := hr.inv hH
  have hsz := hinv.size
  have hlen : l.length < fuel := by rw [← hsz]; exact hf
  have htl : t = l.map Entry.view := by
    have := traversal_spec hinv.chain fuel hlen
    rw [ht] at this
    exact Except.ok.inj this
  subst htl
  rw [hsz] at hfree hinj hok
  constructor
  · intro self hne
    obtain ⟨m', hcc, hseg, hfr⟩ := list_copy_construct_spec (H := H) alloc s.mem self s.self l hne
      hinv.chain.seg fuel hlen hfree hinj hok
    have hc : copy_construct fuel alloc s self =
        .ok { mem := m', self := self, sz := s.sz, bucket_count := s.bucket_count,
              arr := fun _ => none, max_load := s.max_load } := by
      simp only [copy_construct, hsz, hcc, bind, Except.bind, pure, Except.pure]
    obtain ⟨t', h⟩ := copy_agrees_of_chain hH
      (c := { mem := m', self := self, sz := s.sz, bucket_count := s.bucket_count,
              arr := fun _ => none, max_load := s.max_load }) alloc hinv hseg _ hfr
      (by
        simp only [List.mem_cons, Ptr.fake.injEq, List.mem_map, not_or, not_exists, not_and]
        exact ⟨fun h => hne h.symm, fun x _ => entry_ptr_ne_fake x _⟩)
      (by
        intro e he
        simp only [List.mem_cons, not_or]
        exact ⟨entry_ptr_ne_fake e _, copies_not_live alloc hinv.chain.seg.2 hfree e he⟩)
      fuel hlen
    exact ⟨_, t', hc, h⟩
  · intro d tmp hmem hds hts htd
    obtain ⟨m', hcc, hseg, hfr⟩ := list_copy_assign_spec (H := H) alloc s.mem d.self s.self tmp l
      hts htd hinv.chain.seg fuel hlen hfree hinj hok
    have hc : copy_assign fuel alloc tmp d s =
        .ok { d with mem := m', bucket_count := s.bucket_count,
                     arr := fun h => if h < s.bucket_count then s.arr h else none,
                     max_load := s.max_load } := by
      simp only [copy_assign, if_neg (Ne.symm hds), hmem, hsz, hcc, bind, Except.bind, pure,
        Except.pure]
    obtain ⟨t', h⟩ := copy_agrees_of_chain hH
      (c := { d with mem := m', bucket_count := s.bucket_count,
                     arr := fun h => if h < s.bucket_count then s.arr h else none,
                     max_load := s.max_load }) alloc hinv hseg _ hfr
      (by
        simp only [List.mem_cons, Ptr.fake.injEq, List.mem_map, not_or, not_exists, not_and]
        exact ⟨fun h => hds h.symm, fun h => hts h.symm, fun x _ => entry_ptr_ne_fake x _⟩)
      (by
        intro e he
        simp only [List.mem_cons, not_or]
        exact ⟨entry_ptr_ne_fake e _, entry_ptr_ne_fake e _,
          copies_not_live alloc hinv.chain.seg.2 hfree e he⟩)
      fuel hlen
    exact ⟨_, t', hc, h⟩

/-- Witness of C15: the copies of the map holding 2 -> 20 and 1 -> 10, allocated from address 10 on. -/
theorem copy_reproduces_traversal_witness :
    (∀ self, self ≠ map2.self →
      ∃ c t', copy_construct 8 (fresh 10) map2 self = .ok c ∧ traversal 8 c = .ok t' ∧
        t'.map (fun x => x.2) = [(Ptr.node 2, 2, 20), (Ptr.node 1, 1, 10)].map (fun x => x.2) ∧
        t'.map (fun x => ForwardList.get_hash c.mem x.1) =
          [(Ptr.node 2, 2, 20), (Ptr.node 1, 1, 10)].map
            (fun x => ForwardList.get_hash map2.mem x.1) ∧
        traversal 8 { map2 with mem := c.mem } = .ok [(Ptr.node 2, 2, 20), (Ptr.node 1, 1, 10)] ∧
        [(Ptr.node 2, 2, 20), (Ptr.node 1, 1, 10)].map (fun x => ForwardList.get_hash c.mem x.1) =
          [(Ptr.node 2, 2, 20), (Ptr.node 1, 1, 10)].map
            (fun x => ForwardList.get_hash map2.mem x.1) ∧
        ∀ k, find natTraits 8 { map2 with mem := c.mem } k = find natTraits 8 map2 k) ∧
    (∀ d tmp, d.mem = map2.mem → d.self ≠ map2.self → tmp ≠ map2.self → tmp ≠ d.self →
      ∃ c t', copy_assign 8 (fresh 10) tmp d map2 = .ok c ∧ traversal 8 c = .ok t' ∧
        t'.map (fun x => x.2) = [(Ptr.node 2, 2, 20), (Ptr.node 1, 1, 10)].map (fun x => x.2) ∧
        t'.map (fun x => ForwardList.get_hash c.mem x.1) =
          [(Ptr.node 2, 2, 20), (Ptr.node 1, 1, 10)].map
            (fun x => ForwardList.get_hash map2.mem x.1) ∧
        traversal 8 { map2 with mem := c.mem } = .ok [(Ptr.node 2, 2, 20), (Ptr.node 1, 1, 10)] ∧
        [(Ptr.node 2, 2, 20), (Ptr.node 1, 1, 10)].map (fun x => ForwardList.get_hash c.mem x.1) =
          [(Ptr.node 2, 2, 20), (Ptr.node 1, 1, 10)].map
            (fun x => ForwardList.get_hash map2.mem x.1) ∧
        ∀ k, find natTraits 8 { map2 with mem := c.mem } k = find natTraits 8 map2 k) :=
  copy_reproduces_traversal natTraits_lawful map2_reachable (fresh 10) 8 (by decide)
    (fun i hi => by
      have h2 : map2.sz = 2 := rfl
      rw [h2] at hi
      interval_cases i <;> rfl)
    (fun i j _ _ h => by simpa [fresh] using h)
    (fun _ _ => rfl) _ rfl

/-! ## The load-factor bound after the policy calls -/

/-- C21 (failing input): on the map holding 1 -> 10, the mutable `find(1)` returns the entry and
`at(1)` returns 10, but the const overloads never return, for the present key 1 as for the
absent key 7 and whatever the depth allowed: `find(key) const` calls itself. -/
theorem const_lookup_never_returns :
    find natTraits 8 map1 1 = .ok (some (.node 1)) ∧ UnorderedMap.at natTraits 8 map1 1 = .ok 10 ∧
    find natTraits 8 map1 7 = .ok none ∧
    UnorderedMap.at natTraits 8 map1 7 = .error .out_of_range ∧
    ∀ fuel, find_const natTraits fuel map1 1 = .error .diverge ∧
      at_const natTraits fuel map1 1 = .error .diverge ∧
      find_const natTraits fuel map1 7 = .error .diverge ∧
      at_const natTraits fuel map1 7 = .error .diverge := by
  refine ⟨rfl, rfl, rfl, rfl, fun fuel => ?_⟩
  have hat : ∀ k, at_const natTraits fuel map1 k = .error .diverge := by
    intro k
    unfold at_const
    rw [find_const_diverges]
    rfl
  exact ⟨find_const_diverges _ _ _ fuel, hat 1, find_const_diverges _ _ _ fuel, hat 7⟩

theorem map2_chain : Chain natTraits map2 [⟨2, 2, 20⟩, ⟨1, 1, 10⟩] :=
  ⟨⟨rfl, rfl, rfl, trivial⟩, by decide⟩

theorem Inv.slot_precedes {H : Traits K} {s : UnorderedMap K V} {l : List (Entry K V)}
    (hinv : Inv H s l) {h : Nat} {q : Ptr} (hq : s.arr h = some q) :
    ∃ l1 e r, l = l1 ++ e :: r ∧ (∀ y ∈ l1, bkt H s.bucket_count y ≠ h) ∧
      bkt H s.bucket_count e = h ∧ q = lastPtr (.fake s.self) l1 ∧ q ≠ e.ptr ∧
      s.mem.next q = .ok (some e.ptr) := by
  rw [hinv.slots h] at hq
  obtain ⟨l1, e, r, hl, h1, h2, h3⟩ := slotOf_eq_some _ _ _ _ _ hq
  refine ⟨l1, e, r, hl, h1, h2, h3, ?_, ?_⟩
  · intro hqe
    have hnd := nodup_ptr_of_addr hinv.chain.nodup s.self
    rw [hl] at hnd
    have hmem := lastPtr_mem (Ptr.fake s.self) l1
    rw [← h3, hqe] at hmem
    have hsplit : (Ptr.fake s.self :: (l1 ++ e :: r).map Entry.ptr) =
        (Ptr.fake s.self :: l1.map Entry.ptr) ++ (e.ptr :: r.map Entry.ptr) := by simp
    rw [hsplit] at hnd
    exact (List.nodup_append.mp hnd).2.2 hmem (List.mem_cons_self _ _)
  · have hseg := hinv.chain.seg
    rw [hl] at hseg
    have := ((Seg_append (Ptr.fake s.self) l1 (e :: r) none).mp hseg).1.next_last
    rw [h3]
    exact this

theorem index_ok_inv [Inhabited V] {H : Traits K} (hH : H.Lawful) {s : UnorderedMap K V}
    {l : List (Entry K V)} (hinv : Inv H s l) {fuel a : Nat} {key : K}
    {r : UnorderedMap K V × V} (h : index H fuel s a key = .ok r) : ∃ l', Inv H r.1 l' := by
  simp only [UnorderedMap.index, bind_ok] at h
  obtain ⟨⟨s1, it, b⟩, h1, h2⟩ := h
  obtain ⟨l', hinv'⟩ := emplace_ok_inv hH hinv h1
  cases it with
  | none => simp at h2
  | some p =>
    simp only [bind_ok, pure, Except.pure, Except.ok.injEq] at h2
    obtain ⟨d, _, h3⟩ := h2
    subst h3
    exact ⟨l', hinv'⟩

theorem rehash_ok_inv {H : Traits K} (hH : H.Lawful) {s s' : UnorderedMap K V}
    {l : List (Entry K V)} (hinv : Inv H s l) {fuel count : Nat}
    (h : rehash fuel s count = .ok s') : ∃ l', Inv H s' l' := by
  simp only [UnorderedMap.rehash, bind_ok] at h
  obtain ⟨c, h1, h2⟩ := h
  refine fixed_rehash_ok_inv hH hinv ?_ h2
  intro hl
  subst hl
  have hsz : s.sz = 0 := hinv.size
  rw [hsz] at h1
  have := scaled_count_zero h1
  omega

theorem reserve_ok_inv {H : Traits K} (hH : H.Lawful) {s s' : UnorderedMap K V}
    {l : List (Entry K V)} (hinv : Inv H s l) {fuel count : Nat}
    (h : reserve fuel s count = .ok s') : ∃ l', Inv H s' l' := by
  simp only [UnorderedMap.reserve, bind_ok] at h
  obtain ⟨c, h1, h2⟩ := h
  split at h2
  · rename_i hc
    exact fixed_rehash_ok_inv hH hinv (fun _ => by omega) h2
  · simp only [pure, Except.pure, Except.ok.injEq] at h2
    subst h2
    exact ⟨l, hinv⟩

theorem max_load_factor_ok_inv {H : Traits K} (hH : H.Lawful) {s s' : UnorderedMap K V}
    {l : List (Entry K V)} (hinv : Inv H s l) {fuel : Nat} {ml : F32}
    (h : max_load_factor fuel s ml = .ok s') : ∃ l', Inv H s' l' := by
  unfold UnorderedMap.max_load_factor at h
  simp only [pure, Except.pure] at h
  split at h
  · simp only [bind_ok] at h
    obtain ⟨c, h1, h2⟩ := h
    refine fixed_rehash_ok_inv hH (hinv.with_max_load ml) ?_ h2
    intro hl
    subst hl
    have hsz : s.sz = 0 := hinv.size
    simp only [hsz] at h1
    have := scaled_count_zero h1
    omega
  · simp only [Except.ok.injEq] at h
    subst h
    exact ⟨l, hinv.with_max_load ml⟩

theorem map2_inv : Inv natTraits map2 [⟨2, 2, 20⟩, ⟨1, 1, 10⟩] := by
  refine ⟨map2_chain, rfl, by decide, by decide, ⟨by decide, by decide, trivial⟩, ?_⟩
  intro h
  rcases h with _ | _ | h
  · rfl
  · rfl
  · rfl

/-- C22: the representation invariant `Inv` holds for a default-constructed map with the empty
chain, and a map satisfying it for the chain `l` has: at least one bucket; a traversal from the
sentinel that ends and yields the entries of `l`, `size()` many; in every node the cached hash
of its key; pairwise non-equal keys; the entries of one bucket adjacent in the chain; `arr[h]`
null exactly when no entry is in bucket `h`, and otherwise the position whose successor is the
first entry of bucket `h`, which is the sentinel or the last entry before it and never that
entry.  Every call of `emplace`, `insert`, `operator[]`, `erase` (at a position of the map),
`rehash`, `reserve` and `max_load_factor` that returns leaves a map satisfying the invariant. -/
theorem invariant_established_and_preserved {H : Traits K} (hH : H.Lawful)
    {s : UnorderedMap K V} {l : List (Entry K V)} (hinv : Inv H s l) :
    (∀ (mem : Mem K V) (self : Nat), Inv H (init mem self) []) ∧
    (1 ≤ s.bucket_count ∧
     (∀ fuel, l.length < fuel → traversal fuel s = .ok (l.map Entry.view)) ∧
     s.size = l.length ∧
     (∀ e ∈ l, ForwardList.get_hash s.mem e.ptr = .ok (H.hash_func e.key) ∧
       ForwardList.get_data s.mem e.ptr = .ok (e.key, e.val)) ∧
     l.Pairwise (fun x y => H.cmp_equal x.key y.key = false) ∧
     Grouped (l.map (fun e => H.hash_func e.key % s.bucket_count)) ∧
     (∀ h, s.arr h = none ↔ ∀ e ∈ l, H.hash_func e.key % s.bucket_count ≠ h) ∧
     (∀ h q, s.arr h = some q → ∃ l1 e r, l = l1 ++ e :: r ∧
       (∀ y ∈ l1, H.hash_func y.key % s.bucket_count ≠ h) ∧
       H.hash_func e.key % s.bucket_count = h ∧ q = lastPtr (.fake s.self) l1 ∧ q ≠ e.ptr ∧
       s.mem.next q = .ok (some e.ptr))) ∧
    ((∀ fuel a args r, emplace H fuel s a args = .ok r → ∃ l', Inv H r.1 l') ∧
     (∀ fuel a value r, insert H fuel s a value = .ok r → ∃ l', Inv H r.1 l') ∧
     (∀ [Inhabited V] (fuel a : Nat) (key : K) (r : UnorderedMap K V × V),
       index H fuel s a key = .ok r → ∃ l', Inv H r.1 l') ∧
     (∀ fuel p r, IsPos s p → erase fuel s (some p) = .ok r → ∃ l', Inv H r.1 l') ∧
     (∀ fuel count s', rehash fuel s count = .ok s' → ∃ l', Inv H s' l') ∧
     (∀ fuel count s', reserve fuel s count = .ok s' → ∃ l', Inv H s' l') ∧
     (∀ fuel ml s', max_load_factor fuel s ml = .ok s' → ∃ l', Inv H s' l')) := by
  refine ⟨fun mem self => Inv.init H mem self,
    ⟨hinv.bc_pos, fun fuel hf => traversal_spec hinv.chain fuel hf, hinv.size, ?_, hinv.keys,
      hinv.grouped, ?_, ?_⟩,
    ⟨fun _ _ _ _ h => emplace_ok_inv hH hinv h, fun _ _ _ _ h => emplace_ok_inv hH hinv h,
     fun _ _ _ _ h => index_ok_inv hH hinv h, fun _ _ _ hp h => erase_ok_inv hinv hp h,
     fun _ _ _ h => rehash_ok_inv hH hinv h, fun _ _ _ h => reserve_ok_inv hH hinv h,
     fun _ _ _ h => max_load_factor_ok_inv hH hinv h⟩⟩
  · intro e he
    obtain ⟨nx, hn⟩ := hinv.chain.seg.2.node_of_mem he
    exact ⟨by simp [ForwardList.get_hash, Entry.ptr, hn], get_data_of_node (H := H) s.mem e nx hn⟩
  · intro h
    rw [hinv.slots h]
    exact slotOf_eq_none_iff _ _ _ _
  · intro h q hq
    exact hinv.slot_precedes hq

theorem invariant_established_and_preserved_witness :
    (∀ (mem : Mem Nat Nat) (self : Nat), Inv natTraits (init mem self) []) ∧
    (1 ≤ map2.bucket_count ∧
     (∀ fuel, ([⟨2, 2, 20⟩, ⟨1, 1, 10⟩] : List (Entry Nat Nat)).length < fuel →
       traversal fuel map2 = .ok (([⟨2, 2, 20⟩, ⟨1, 1, 10⟩] : List (Entry Nat Nat)).map
         Entry.view)) ∧
     map2.size = ([⟨2, 2, 20⟩, ⟨1, 1, 10⟩] : List (Entry Nat Nat)).length ∧
     (∀ e ∈ ([⟨2, 2, 20⟩, ⟨1, 1, 10⟩] : List (Entry Nat Nat)),
       ForwardList.get_hash map2.mem e.ptr = .ok (natTraits.hash_func e.key) ∧
       ForwardList.get_data map2.mem e.ptr = .ok (e.key, e.val)) ∧
     ([⟨2, 2, 20⟩, ⟨1, 1, 10⟩] : List (Entry Nat Nat)).Pairwise
       (fun x y => natTraits.cmp_equal x.key y.key = false) ∧
     Grouped (([⟨2, 2, 20⟩, ⟨1, 1, 10⟩] : List (Entry Nat Nat)).map
       (fun e => natTraits.hash_func e.key % map2.bucket_count)) ∧
     (∀ h, map2.arr h = none ↔ ∀ e ∈ ([⟨2, 2, 20⟩, ⟨1, 1, 10⟩] : List (Entry Nat Nat)),
       natTraits.hash_func e.key % map2.bucket_count ≠ h) ∧
     (∀ h q, map2.arr h = some q → ∃ l1 e r,
       ([⟨2, 2, 20⟩, ⟨1, 1, 10⟩] : List (Entry Nat Nat)) = l1 ++ e :: r ∧
       (∀ y ∈ l1, natTraits.hash_func y.key % map2.bucket_count ≠ h) ∧
       natTraits.hash_func e.key % map2.bucket_count = h ∧ q = lastPtr (.fake map2.self) l1 ∧
       q ≠ e.ptr ∧ map2.mem.next q = .ok (some e.ptr))) ∧
    ((∀ fuel a args r, emplace natTraits fuel map2 a args = .ok r →
       ∃ l', Inv natTraits r.1 l') ∧
     (∀ fuel a value r, insert natTraits fuel map2 a value = .ok r →
       ∃ l', Inv natTraits r.1 l') ∧
     (∀ [Inhabited Nat] (fuel a key : Nat) (r : UnorderedMap Nat Nat × Nat),
       index natTraits fuel map2 a key = .ok r →
       ∃ l', Inv natTraits r.1 l') ∧
     (∀ fuel p r, IsPos map2 p → erase fuel map2 (some p) = .ok r →
       ∃ l', Inv natTraits r.1 l') ∧
     (∀ fuel count s', rehash fuel map2 count = .ok s' → ∃ l', Inv natTraits s' l') ∧
     (∀ fuel count s', reserve fuel map2 count = .ok s' → ∃ l', Inv natTraits s' l') ∧
     (∀ fuel ml s', max_load_factor fuel map2 ml = .ok s' → ∃ l', Inv natTraits s' l')) :=
  invariant_established_and_preserved natTraits_lawful map2_inv

end UnorderedMap

/-! ## Rounding is monotone at a binary32 number -/

namespace F32

theorem roundHalfEven_le (X Y T : Nat) (hY : 0 < Y) (h : X ≤ T * Y) : roundHalfEven X Y ≤ T := by
  have hq : X / Y ≤ T := Nat.div_le_of_le_mul (by rw [Nat.mul_comm]; exact h)
  rcases Nat.lt_or_ge (X / Y) T with h1 | h1
  · have := (roundHalfEven_bounds X Y).2
    omega
  · have hqe : X / Y = T := le_antisymm hq h1
    have hX : X = T * Y := by
      have := Nat.div_mul_le_self X Y
      rw [hqe] at this
      omega
    subst hX
    unfold roundHalfEven
    simp [Nat.mul_div_cancel _ hY, hY]

theorem expo_lower_rat (n d : Nat) (hn : 0 < n) (hd : 0 < d) :
    (d : ℚ) * (2 : ℚ) ^ (expo n d) ≤ n := by
  obtain ⟨h1, h2⟩ := expo_lower n d hn hd
  rcases lt_or_le (expo n d) 0 with h | h
  · have h3 := h2 h
    have h4 : (d : ℚ) ≤ n * 2 ^ (-(expo n d)).toNat := by exact_mod_cast h3
    have h5 := two_zpow_split (expo n d)
    rw [Int.toNat_of_nonpos (le_of_lt h), pow_zero] at h5
    calc (d : ℚ) * 2 ^ expo n d ≤ n * 2 ^ (-(expo n d)).toNat * 2 ^ expo n d :=
          mul_le_mul_of_nonneg_right h4 (by positivity)
      _ = n := by rw [mul_assoc, h5, mul_one]
  · have h3 := h1 h
    have h4 : (d : ℚ) * 2 ^ (expo n d).toNat ≤ n := by exact_mod_cast h3
    have : (2 : ℚ) ^ (expo n d) = 2 ^ (expo n d).toNat := by
      conv_lhs => rw [← Int.toNat_of_nonneg h]
      exact zpow_natCast _ _
    rw [this]
    exact h4

theorem scaledNum_neg (N k : Nat) : scaledNum N (-(k : Int)) = N * 2 ^ k := by
  unfold scaledNum
  rcases Nat.eq_zero_or_pos k with h | h
  · subst h; simp
  · have : ¬ (0 : Int) ≤ -(k : Int) := by omega
    simp [this]

theorem scaledDen_neg (D k : Nat) : scaledDen D (-(k : Int)) = D := by
  unfold scaledDen
  rcases Nat.eq_zero_or_pos k with h | h
  · subst h; simp
  · have : ¬ (0 : Int) ≤ -(k : Int) := by omega
    simp [this]

/-- Rounding is monotone at a binary32 number: the binary32 nearest to a quotient that does not
exceed the binary32 number `M * 2 ^ E` does not exceed it either. -/
theorem roundPos_le (N D : Nat) (hN : 0 < N) (hD : 0 < D) (hlt : N < 2 ^ 24 * D) (M : Nat)
    (E : Int) (hM : M < 2 ^ 24) (hE : -149 ≤ E) (h : (N : ℚ) ≤ (M : ℚ) * 2 ^ E * D) :
    gt (roundPos N D) (fin M E) = false := by
  obtain ⟨hr, hu, _⟩ := roundPos_small N D hD hlt
  rw [hr]
  obtain ⟨k, hk⟩ : ∃ k : Nat, ulpExp (expo N D) = -(k : Int) :=
    ⟨(-(ulpExp (expo N D))).toNat, by omega⟩
  rw [hk, scaledNum_neg, scaledDen_neg]
  simp only [gt, decide_eq_false_iff_not, not_lt]
  have hDq : (0 : ℚ) < D := by exact_mod_cast hD
  rcases lt_or_le (E + k) 0 with hc | hc
  · exfalso
    have he : expo N D = 23 - (k : Int) ∧ E + 24 ≤ expo N D := by
      unfold ulpExp at hk
      rcases le_total (expo N D) (-126) with h1 | h1
      · rw [max_eq_right h1] at hk; omega
      · rw [max_eq_left h1] at hk; omega
    have h1 := expo_lower_rat N D hN hD
    have h2 : (2 : ℚ) ^ (E + 24) ≤ 2 ^ expo N D := zpow_le_zpow_right₀ (by norm_num) he.2
    have h3 : (2 : ℚ) ^ (E + 24) = 2 ^ E * 2 ^ (24 : Nat) := by
      rw [zpow_add₀ (by norm_num : (2 : ℚ) ≠ 0)]
      norm_num
    have h4 : (M : ℚ) < 2 ^ (24 : Nat) := by exact_mod_cast hM
    have h5 : (0 : ℚ) < 2 ^ E := by positivity
    have h6 : (D : ℚ) * 2 ^ expo N D ≤ (M : ℚ) * 2 ^ E * D := le_trans h1 h
    have h7 : (2 : ℚ) ^ expo N D ≤ (M : ℚ) * 2 ^ E := by
      by_contra hcon
      push_neg at hcon
      have := mul_lt_mul_of_pos_left hcon hDq
      linarith
    have h8 : (M : ℚ) * 2 ^ E < 2 ^ E * 2 ^ (24 : Nat) := by
      rw [mul_comm]
      exact mul_lt_mul_of_pos_left h4 h5
    linarith
  · obtain ⟨t, ht⟩ : ∃ t : Nat, E + k = t := ⟨(E + k).toNat, by omega⟩
    have e1 : (E - -(k : Int)).toNat = t := by omega
    have e2 : (-(k : Int) - E).toNat = 0 := by omega
    rw [e1, e2, pow_zero, mul_one]
    have hpow : (2 : ℚ) ^ E * 2 ^ k = 2 ^ t := by
      rw [← zpow_natCast (2 : ℚ) t, ← ht, zpow_add₀ (by norm_num : (2 : ℚ) ≠ 0), zpow_natCast]
    have hle : N * 2 ^ k ≤ M * 2 ^ t * D := by
      have : ((N * 2 ^ k : Nat) : ℚ) ≤ ((M * 2 ^ t * D : Nat) : ℚ) := by
        push_cast
        rw [← hpow]
        have := mul_le_mul_of_nonneg_right h (by positivity : (0 : ℚ) ≤ 2 ^ k)
        linarith
      exact_mod_cast this
    have := roundHalfEven_le _ _ _ hD hle
    exact_mod_cast this

/-- For a size and a bucket count below `2 ^ 24` and a positive binary32 number `M * 2 ^ E`:
when the exact ratio `n / d` does not exceed it, the binary32 comparison
`float(n) / float(d) > M * 2 ^ E` is false. -/
theorem gt_div_ofNat_false (n d : Nat) (hn : n < 2 ^ 24) (hd0 : 0 < d) (hd : d < 2 ^ 24)
    (M : Nat) (E : Int) (hM : M < 2 ^ 24) (hE : -149 ≤ E)
    (h : (n : ℚ) / d ≤ (fin M E).toRat) :
    gt (div (ofNat n) (ofNat d)) (fin M E) = false := by
  obtain ⟨j, hj⟩ := ofNat_exact d hd0 hd
  have hb : (0 : Int) < ((d * 2 ^ j : Nat) : Int) := by
    have : 0 < d * 2 ^ j := Nat.mul_pos hd0 (by positivity)
    exact_mod_cast this
  have hdq : (0 : ℚ) < d := by exact_mod_cast hd0
  rcases Nat.eq_zero_or_pos n with h0 | h0
  · subst h0
    rw [hj]
    have hb' : ((d * 2 ^ j : Nat) : Int) ≠ 0 := ne_of_gt hb
    simp only [ofNat, if_true, div, hb', if_false, gt, decide_eq_false_iff_not, not_lt]
    simp only [zero_mul]
    positivity
  · obtain ⟨N, D, hD, heq, hrat⟩ := div_ofNat_eq n h0 hn _ (-(j : Int)) hb
    rw [hj, heq]
    have hval : (fin ((d * 2 ^ j : Nat) : Int) (-(j : Int))).toRat = d := by
      simp only [toRat]
      push_cast
      rw [mul_assoc, zpow_neg, zpow_natCast]
      have : (2 : ℚ) ^ j ≠ 0 := by positivity
      field_simp
    rw [hval] at hrat
    have hDq : (0 : ℚ) < D := by exact_mod_cast hD
    have hnq : (0 : ℚ) < n := by exact_mod_cast h0
    have hNq : (0 : ℚ) < N := by
      by_contra hcon
      push_neg at hcon
      have h1 : (N : ℚ) * d ≤ 0 := mul_nonpos_of_nonpos_of_nonneg hcon (le_of_lt hdq)
      have h2 : (0 : ℚ) < n * D := mul_pos hnq hDq
      linarith
    have hN : 0 < N := by exact_mod_cast hNq
    have hND : N * d = n * D := by exact_mod_cast hrat
    have hlt : N < 2 ^ 24 * D := by
      have h1 : N ≤ N * d := Nat.le_mul_of_pos_right N hd0
      have h2 : n * D < 2 ^ 24 * D := Nat.mul_lt_mul_of_pos_right hn hD
      omega
    refine roundPos_le N D hN hD hlt M E hM hE ?_
    have hL : (n : ℚ) ≤ (M : ℚ) * 2 ^ E * d := by
      have := (div_le_iff₀ hdq).mp h
      simpa [toRat] using this
    have h3 : (N : ℚ) * d ≤ (M : ℚ) * 2 ^ E * D * d := by
      rw [hrat]
      have := mul_le_mul_of_nonneg_right hL (le_of_lt hDq)
      linarith
    exact le_of_mul_le_mul_right h3 hdq

end F32

namespace UnorderedMap

variable {K V : Type}

/-! ## Growth on insertion and reservation -/

/-- Emplacing an absent key: the bucket count doubles exactly when the binary32 load factor of
the grown map exceeds `max_load`, and the call throws when the doubled array is too long;
without growth the new entry is linked into the chain and the other entries keep their
order. -/
theorem emplace_new_exact {H : Traits K} (hH : H.Lawful) {s : UnorderedMap K V}
    {l : List (Entry K V)} (hinv : Inv H s l) (a : Nat) (k : K) (v : V)
    (ha : s.mem.node a = none) (hnew : chainFind H k l = none)
    (fuel : Nat) (hf : l.length + 1 < fuel) :
    (F32.gt (F32.div (F32.ofNat (s.sz + 1)) (F32.ofNat s.bucket_count)) s.max_load = true →
      max_array_count < 2 * s.bucket_count →
      emplace H fuel s a (some (k, v)) = .error .bad_alloc) ∧
    ((F32.gt (F32.div (F32.ofNat (s.sz + 1)) (F32.ofNat s.bucket_count)) s.max_load = true →
      2 * s.bucket_count ≤ max_array_count) →
    ∃ s' l', emplace H fuel s a (some (k, v)) = .ok (s', some (Ptr.node a), true) ∧ Inv H s' l' ∧
      l'.Perm ((⟨a, k, v⟩ : Entry K V) :: l) ∧ s'.self = s.self ∧ s'.max_load = s.max_load ∧
      s'.sz = s.sz + 1 ∧
      (F32.gt (F32.div (F32.ofNat (s.sz + 1)) (F32.ofNat s.bucket_count)) s.max_load = true →
        s'.bucket_count = 2 * s.bucket_count) ∧
      (F32.gt (F32.div (F32.ofNat (s.sz + 1)) (F32.ofNat s.bucket_count)) s.max_load = false →
        s'.bucket_count = s.bucket_count ∧ ∃ l1 r, l = l1 ++ r ∧ l' = l1 ++ ⟨a, k, v⟩ :: r)) := by
  obtain ⟨s3, l1, r, hl, hinv3, hbc3, hml3, hself3, hsz3, he⟩ :=
    emplace_link_spec hH hinv a k v ha hnew fuel (by omega)
  have hlen : (l1 ++ (⟨a, k, v⟩ : Entry K V) :: r).length < fuel := by
    have : (l1 ++ (⟨a, k, v⟩ : Entry K V) :: r).length = l.length + 1 := by
      rw [hl]; simp; omega
    omega
  have hperm3 : (l1 ++ (⟨a, k, v⟩ : Entry K V) :: r).Perm (⟨a, k, v⟩ :: l) := by
    rw [hl]; exact List.perm_middle
  have hlf : s3.load_factor = F32.div (F32.ofNat (s.sz + 1)) (F32.ofNat s.bucket_count) := by
    simp only [load_factor, hsz3, hbc3]
  refine ⟨fun hg hmax => ?_, fun hgrow => ?_⟩
  · have hgt : F32.gt s3.load_factor s3.max_load = true := by rw [hlf, hml3]; exact hg
    have hthrow : fixed_rehash fuel s3 (2 * s3.bucket_count) = .error .bad_alloc :=
      fixed_rehash_too_long fuel s3 (by rw [hbc3]; exact hmax)
    rw [he]
    simp [reallocate, hgt, hthrow, bind, Except.bind]
  · by_cases hgt : F32.gt s3.load_factor s3.max_load = true
    · have hmax : 2 * s3.bucket_count ≤ max_array_count := by
        rw [hbc3]; exact hgrow (by rw [← hlf, ← hml3]; exact hgt)
      obtain ⟨s', l', e1, hinv', hperm, hbc, hml, hself, hsz⟩ :=
        fixed_rehash_spec hH hinv3.chain hinv3.size hinv3.keys (2 * s3.bucket_count)
          (Nat.mul_pos (by decide) hinv3.bc_pos) hmax fuel hlen
      refine ⟨s', l', ?_, hinv', hperm.trans hperm3, by rw [hself, hself3], by rw [hml, hml3],
        by rw [hsz, hsz3], fun _ => by rw [hbc, hbc3], fun hfalse => ?_⟩
      · rw [he]
        simp [reallocate, hgt, e1, bind, Except.bind, pure, Except.pure]
      · rw [hlf, hml3] at hgt
        rw [hgt] at hfalse
        cases hfalse
    · refine ⟨s3, _, ?_, hinv3, hperm3, hself3, hml3, hsz3, fun htrue => ?_,
        fun _ => ⟨hbc3, l1, r, hl, rfl⟩⟩
      · rw [he]
        simp [reallocate, hgt, pure, Except.pure, bind, Except.bind]
      · rw [hlf, hml3] at hgt
        exact absurd htrue hgt

/-- A returning `emplace` of an absent key had a doubled array that can be allocated, when it
grew. -/
theorem emplace_new_grow_le {H : Traits K} (hH : H.Lawful) {s : UnorderedMap K V}
    {l : List (Entry K V)} (hinv : Inv H s l) (a : Nat) (k : K) (v : V)
    (ha : s.mem.node a = none) (hnew : chainFind H k l = none)
    (fuel : Nat) (hf : l.length + 1 < fuel) {r : UnorderedMap K V × Option Ptr × Bool}
    (h : emplace H fuel s a (some (k, v)) = .ok r)
    (hg : F32.gt (F32.div (F32.ofNat (s.sz + 1)) (F32.ofNat s.bucket_count)) s.max_load = true) :
    2 * s.bucket_count ≤ max_array_count := by
  by_contra hcon
  have hthrow := (emplace_new_exact hH hinv a k v ha hnew fuel hf).1 hg (by omega)
  rw [hthrow] at h
  cases h

/-- A sequence of emplace calls during which no allocation fails returns; as long as the size
does not exceed `n`, on a map whose bucket count exceeds `n / max_load` no call changes the
bucket count and the entries already present keep their order. -/
theorem emplace_each_no_growth {H : Traits K} (hH : H.Lawful) (n M : Nat) (E : Int)
    (hM : M < 2 ^ 24) (hE : -149 ≤ E) (hn : n < 2 ^ 24) (fuel : Nat)
    (items : List (Nat × K × V)) :
    ∀ (s : UnorderedMap K V) (l : List (Entry K V)), Inv H s l →
      l.length + items.length + 1 < fuel → alloc_ok_each H fuel s items = true →
      ∃ s' l', emplace_each H fuel s items = .ok s' ∧ Inv H s' l' ∧ l.length ≤ l'.length ∧
        l'.length ≤ l.length + items.length ∧ s'.max_load = s.max_load ∧
        (l'.length ≤ n → s.max_load = F32.fin M E →
          (n : ℚ) < (F32.fin M E).toRat * s.bucket_count → s.bucket_count < 2 ^ 24 →
          s'.bucket_count = s.bucket_count ∧ l.Sublist l') := by
  induction items with
  | nil =>
    intro s l hinv _ _
    exact ⟨s, l, rfl, hinv, le_refl _, by simp, rfl, fun _ _ _ _ => ⟨rfl, List.Sublist.refl l⟩⟩
  | cons it rest ih =>
    obtain ⟨a, k, v⟩ := it
    intro s l hinv hf hal
    have hlenr : rest.length + 1 = ((a, k, v) :: rest).length := by simp
    rcases emplace_or_throw hH hinv a k v fuel (by omega) with hthrow | ⟨⟨s1, it0, b0⟩, hok⟩
    · simp [alloc_ok_each, hthrow] at hal
    · have hal1 : alloc_ok_each H fuel s1 rest = true := by
        simpa only [alloc_ok_each, hok] using hal
      have ha : s.mem.node a = none := emplace_ok_free hok
      cases hc : chainFind H k l with
      | some e =>
        have he := emplace_existing hH hinv a k v ha e hc fuel (by omega)
        rw [he] at hok
        have hs1 : s1 = s := by
          simp only [Except.ok.injEq, Prod.mk.injEq] at hok
          exact hok.1.symm
        subst hs1
        obtain ⟨s', l', e1, hinv', hge, hle, hml, hkeep⟩ := ih s1 l hinv (by omega) hal1
        refine ⟨s', l', ?_, hinv', hge, by omega, hml, hkeep⟩
        simp only [emplace_each, he, bind, Except.bind]
        exact e1
      | none =>
        have hgrow := fun hg => emplace_new_grow_le hH hinv a k v ha hc fuel (by omega) hok hg
        obtain ⟨s1', l1, he, hinv1, hperm, _, hml1, hsz1, _, hstay⟩ :=
          (emplace_new_exact hH hinv a k v ha hc fuel (by omega)).2 hgrow
        have hs1 : s1' = s1 := by
          rw [he] at hok
          simp only [Except.ok.injEq, Prod.mk.injEq] at hok
          exact hok.1
        subst hs1
        have hlen1 : l1.length = l.length + 1 := by rw [hperm.length_eq]; simp
        obtain ⟨s', l', e1, hinv', hge, hle, hml, hkeep⟩ := ih s1' l1 hinv1 (by omega) hal1
        refine ⟨s', l', ?_, hinv', by omega, by omega, by rw [hml, hml1], ?_⟩
        · simp only [emplace_each, he, bind, Except.bind]
          exact e1
        · intro hn' hL hbound hb24
          have hsz : s.sz + 1 ≤ n := by rw [hinv.size]; omega
          have hbpos : (0 : ℚ) < s.bucket_count := by exact_mod_cast hinv.bc_pos
          have hratio : ((s.sz + 1 : Nat) : ℚ) / s.bucket_count ≤ (F32.fin M E).toRat := by
            rw [div_le_iff₀ hbpos]
            have : ((s.sz + 1 : Nat) : ℚ) ≤ n := by exact_mod_cast hsz
            linarith
          have hgt := F32.gt_div_ofNat_false (s.sz + 1) s.bucket_count (by omega) hinv.bc_pos hb24
            M E hM hE hratio
          rw [← hL] at hgt
          obtain ⟨hbc1, la, lb, hl, hl1⟩ := hstay hgt
          obtain ⟨hbc', hsub⟩ := hkeep hn' (by rw [hml1, hL]) (by rw [hbc1]; exact hbound)
            (by rw [hbc1]; exact hb24)
          refine ⟨by rw [hbc', hbc1], List.Sublist.trans ?_ hsub⟩
          rw [hl, hl1]
          exact List.Sublist.append (List.Sublist.refl la) (List.sublist_cons_self _ lb)

set_option maxRecDepth 100000 in
/-- C26 (counterexample): `reserve(67108867)` on a default-constructed map (max load factor 1)
leaves 67108865 buckets, which is not more than `n / L = 67108867`: `float(67108867)` is
`2 ^ 26`. -/
theorem reserve_large_count_rounds_down :
    Reachable natTraits map0 ∧ map0.max_load = F32.fin 1 0 ∧ map0.size = 0 ∧
    F32.ofNat 67108867 = F32.fin 8388608 3 ∧
    ∃ s', reserve 8 map0 67108867 = .ok s' ∧ s'.bucket_count = 67108865 ∧
      ¬ ((67108867 : ℚ) / map0.max_load.toRat < s'.bucket_count) := by
  have h1 : ∀ s : UnorderedMap Nat Nat, s.bucket_count = 67108865 →
      ¬ ((67108867 : ℚ) / map0.max_load.toRat < s.bucket_count) := by
    intro s hs
    have h2 : map0.max_load = F32.fin 1 0 := rfl
    rw [hs, h2]
    norm_num [F32.toRat]
  exact ⟨Reachable.init emptyMem 0, rfl, rfl, rfl, _, rfl, rfl, h1 _ rfl⟩

/-- C26 (amended): on a reachable map with a finite positive max load factor `L`, for
`n < 2 ^ 24` with `n / L < 2 ^ 24`, `reserve(n)` returns, keeps the size and
leaves a bucket count greater than `n / L` as exact numbers.  When that bucket count is below
`2 ^ 24`, every following sequence of emplace calls during which no allocation fails (of a
node, or of the doubled array once the size has passed the reserved one) returns, and if the
size after it is at most `n`, the bucket count is still what `reserve` left and the traversal after
`reserve` is a subsequence of the final traversal: the entries already present keep their
order. -/
theorem reserve_then_emplace_keeps_buckets {H : Traits K} (hH : H.Lawful)
    {s : UnorderedMap K V} (hr : Reachable H s) (M : Nat) (E : Int)
    (hml : s.max_load = F32.fin M E) (hM0 : 0 < M) (hM : M < 2 ^ 24) (hE : -149 ≤ E)
    (n : Nat) (hn : n < 2 ^ 24) (hq : (n : ℚ) / s.max_load.toRat < 2 ^ 24)
    (fuel : Nat) (hf : s.size < fuel) :
    ∃ s1 t1, reserve fuel s n = .ok s1 ∧ s1.size = s.size ∧ s1.max_load = s.max_load ∧
      (n : ℚ) / s.max_load.toRat < s1.bucket_count ∧ traversal fuel s1 = .ok t1 ∧
      (s1.bucket_count < 2 ^ 24 → ∀ items : List (Nat × K × V),
        s.size + items.length + 1 < fuel → alloc_ok_each H fuel s1 items = true →
        ∃ s2 t2, emplace_each H fuel s1 items = .ok s2 ∧ traversal fuel s2 = .ok t2 ∧
          s1.size ≤ s2.size ∧
          (s2.size ≤ n → s2.bucket_count = s1.bucket_count ∧ t1.Sublist t2)) := by
  obtain ⟨l, hinv⟩ := hr.inv hH
  have hlen : l.length < fuel := by rw [← hinv.size]; exact hf
  have hMi : (0 : Int) < (M : Int) := by exact_mod_cast hM0
  obtain ⟨c, hc, hbound⟩ := scaled_count_exact s n hn (M : Int) E hml hMi hq
  obtain ⟨s1, l1, e1, hinv1, hperm, hbc, hml1, hsz1⟩ := reserve_spec hH hinv n c hc
    (fun _ => (scaled_count_small s n hn (M : Int) E hml hMi hq c hc).2) fuel hlen
  have hLpos : 0 < s.max_load.toRat := by rw [hml]; exact toRat_pos (M : Int) E hMi
  have hlen1 : l1.length = l.length := hperm.length_eq
  have hbound1 : (n : ℚ) < s.max_load.toRat * s1.bucket_count := by
    have hle : (c : ℚ) ≤ (s1.bucket_count : ℚ) := by
      rw [hbc]
      exact_mod_cast le_max_left c s.bucket_count
    calc (n : ℚ) < s.max_load.toRat * c := hbound
      _ ≤ s.max_load.toRat * s1.bucket_count := mul_le_mul_of_nonneg_left hle (le_of_lt hLpos)
  refine ⟨s1, l1.map Entry.view, e1, hsz1, hml1, ?_, traversal_spec hinv1.chain fuel (by omega),
    ?_⟩
  · rw [div_lt_iff₀ hLpos]
    linarith
  · intro hb24 items hfuel hal
    have hszl : s.size = l.length := hinv.size
    obtain ⟨s2, l2, e2, hinv2, hge, hle, _, hkeep⟩ :=
      emplace_each_no_growth hH n M E hM hE hn fuel items s1 l1 hinv1 (by omega) hal
    refine ⟨s2, l2.map Entry.view, e2, traversal_spec hinv2.chain fuel (by omega), ?_, ?_⟩
    · show s1.sz ≤ s2.sz
      rw [hinv1.size, hinv2.size]
      exact hge
    · intro hs2
      have hs2' : l2.length ≤ n := by rw [← hinv2.size]; exact hs2
      obtain ⟨h1, h2⟩ := hkeep hs2' (by rw [hml1, hml]) (by rw [← hml]; exact hbound1) hb24
      exact ⟨h1, h2.map _⟩

/-- Witness of C26: `reserve(5)` on the map holding 2 -> 20 and 1 -> 10 leaves 6 buckets, and
three more insertions keep them and the order of the two entries. -/
theorem reserve_then_emplace_keeps_buckets_witness :
    (∃ s1 t1, reserve 16 map2 5 = .ok s1 ∧ s1.size = map2.size ∧ s1.max_load = map2.max_load ∧
      ((5 : Nat) : ℚ) / map2.max_load.toRat < s1.bucket_count ∧ traversal 16 s1 = .ok t1 ∧
      (s1.bucket_count < 2 ^ 24 → ∀ items : List (Nat × Nat × Nat),
        map2.size + items.length + 1 < 16 → alloc_ok_each natTraits 16 s1 items = true →
        ∃ s2 t2, emplace_each natTraits 16 s1 items = .ok s2 ∧ traversal 16 s2 = .ok t2 ∧
          s1.size ≤ s2.size ∧
          (s2.size ≤ 5 → s2.bucket_count = s1.bucket_count ∧ t1.Sublist t2))) ∧
    ∃ s1 s2, reserve 16 map2 5 = .ok s1 ∧ s1.bucket_count = 6 ∧
      traversal 16 s1 = .ok [(.node 2, 2, 20), (.node 1, 1, 10)] ∧
      emplace_each natTraits 16 s1 [(3, 3, 30), (4, 4, 40), (5, 5, 50)] = .ok s2 ∧
      s2.size = 5 ∧ s2.bucket_count = 6 ∧
      traversal 16 s2 =
        .ok [(.node 5, 5, 50), (.node 4, 4, 40), (.node 3, 3, 30), (.node 2, 2, 20),
          (.node 1, 1, 10)] :=
  ⟨reserve_then_emplace_keeps_buckets natTraits_lawful map2_reachable 1 0 rfl (by decide)
      (by decide) (by decide) 5 (by decide)
      (by
        have h : map2.max_load = F32.fin 1 0 := rfl
        rw [h]
        norm_num [F32.toRat]) 16 (by decide),
    _, _, rfl, rfl, rfl, rfl, rfl, rfl, rfl⟩
end UnorderedMap
